import Mathlib

/-!
# Tree-based speculative decoding (`examples/speculative/speculative.cpp`)

A shallow embedding of the control algorithm of `main`: the verification loop
(lines 144-197), the reconciliation of the two key/value caches (199-236), the
exit test (239-241), the tree-structured draft loop (258-403), the evaluation of
the target model (405-415) and the removal of the root placeholder (417-424).

* `std::vector` becomes `List`; the pool `drafts` has `n_seq_dft` elements from
  line 114 on and is never resized, so a loop `for (i = 0; i < n_seq_dft; ++i)`
  over `drafts[i]` is a traversal of the list in slot order.
* `llama_batch` becomes the list of its first `n_tokens` slots.
* The two models are external: what `llama_sampling_sample` returns is given by
  oracles, indexed by the outer iteration and the place of the call inside it
  (each index is used at most once in a run, so every behaviour is covered).
* Calls on a `llama_context` are recorded in call order (`kv_call`); the content
  of a cache is obtained by replaying the record (`kv_cache`).
* Probabilities are exact rationals.
-/

namespace Speculative

/-! ## Data model -/

/-- A token id (`llama_token`, a 32-bit integer in `llama.h`). -/
abbrev llama_token := Int

/-- One ranked candidate of `ctx_sampling->cur` (`llama_token_data`): a token id
and its probability. In C the probability is a `float` and the thresholds of
lines 299 and 310 are the `double` literals 0.4 and 0.3; here it is the exact
rational that the `float` denotes and the thresholds are 2/5 and 3/10. No
`float` lies between a literal and its fraction, so each test gives the same
answer in both readings on every value a run can hold (`fork_test_float`,
`continue_test_float`); the fractions 2/5 and 3/10 themselves are not values of
a `float`. -/
structure llama_token_data where
  id : llama_token
  p : ℚ
deriving DecidableEq

/-- State of a `llama_sampling_context`, as far as `main` touches it: the
previous-token history `prev` and the grammar, `none` for a null pointer.
Modelled from the spec: the grammar state is represented by the tokens the
grammar has accepted since it was parsed (`accept` "updates repetition/grammar
state"); `common/sampling.cpp` is not among the sources. -/
structure llama_sampling_context where
  prev : List llama_token
  grammar : Option (List llama_token)
deriving DecidableEq

/-- The `seq_draft` struct, lines 11-22. -/
structure seq_draft where
  active : Bool
  drafting : Bool
  skip : Bool
  i_batch_dft : Nat
  i_batch_tgt : List Nat
  tokens : List llama_token
  ctx_sampling : llama_sampling_context
deriving DecidableEq

/-- One slot of a `llama_batch`: `token[i]`, `pos[i]`, the first `n_seq_id[i]`
entries of `seq_id[i]`, and `logits[i]`. -/
structure llama_batch_slot where
  token : llama_token
  pos : Nat
  seq_id : List Nat
  logits : Bool
deriving DecidableEq

/-- A call made on a `llama_context`: one of the three sequence operations of
the key/value cache or `llama_decode`. The range arguments `p0`, `p1` are kept
as integers, `-1` standing for an open end as in the source. -/
inductive kv_call where
  | seq_rm (seq_id : Nat) (p0 p1 : Int)
  | seq_cp (seq_id_src seq_id_dst : Nat) (p0 p1 : Int)
  | seq_keep (seq_id : Nat)
  | decode (batch : List llama_batch_slot)
deriving DecidableEq

/-- The part of `gpt_params` (and of the vocabulary) the loop reads:
`n_parallel` (that is `n_seq_dft`), `n_draft`, `n_predict`, the end-of-sequence
token `llama_token_eos(ctx_tgt)`, and whether a grammar is configured for the
target sampler. -/
structure gpt_params where
  n_parallel : Nat
  n_draft : Nat
  n_predict : Int
  token_eos : llama_token
  grammar : Bool
deriving DecidableEq

/-- The variables of `main` from line 98 on. `ctx_tgt` and `ctx_dft` hold the
calls made on the two contexts, `out` what was printed to stdout (line 159),
`tgt_reads` the logits slot `drafts[i_keep].i_batch_tgt[i_dft]` handed to each
target sampling call (`none` for a read outside the vector). `id` is the token
sampled last in the verification loop; `i_dft`, `i_keep`, `n_seq_cur` and
`n_past_cur` are the locals of the outer loop body. -/
structure spec_state where
  drafts : List seq_draft
  ctx_sampling : llama_sampling_context
  batch_dft : List llama_batch_slot
  batch_tgt : List llama_batch_slot
  n_predict : Nat
  n_drafted : Nat
  n_accept : Nat
  n_past_tgt : Nat
  n_past_dft : Nat
  has_eos : Bool
  ctx_tgt : List kv_call
  ctx_dft : List kv_call
  out : List llama_token
  tgt_reads : List (Option Nat)
  id : llama_token
  i_dft : Nat
  i_keep : Nat
  n_seq_cur : Nat
  n_past_cur : Nat
deriving DecidableEq

/-! ## External collaborators -/

/-- Modelled from the spec: `llama_sampling_accept` ("updates
repetition/grammar state"); the accepted token is appended to the history and
fed to the grammar when there is one. `common/sampling.cpp` is not among the
sources. -/
def llama_sampling_accept (ctx : llama_sampling_context) (id : llama_token) :
    llama_sampling_context :=
  { prev := ctx.prev ++ [id], grammar := ctx.grammar.map (fun g => g ++ [id]) }

/-- The batch built by `llama_batch_get_one (tokens, n_tokens, pos_0, seq_id)`:
consecutive positions from `pos_0`, all slots owned by `seq_id`; logits are
produced for the last slot only. -/
def llama_batch_get_one (tokens : List llama_token) (pos_0 seq_id : Nat) :
    List llama_batch_slot :=
  tokens.enum.map (fun it =>
    { token := it.2, pos := pos_0 + it.1, seq_id := [seq_id],
      logits := decide (it.1 + 1 = tokens.length) })

/-- A cell of a key/value cache: a position, the token whose state it stores,
and the set of sequence ids the cell belongs to. -/
structure kv_cell where
  pos : Nat
  token : llama_token
  seq_id : List Nat
deriving DecidableEq

/-- Whether position `pos` lies in the range `[p0, p1)` of a cache operation;
a negative bound leaves that side open. -/
def kv_in_range (p0 p1 : Int) (pos : Nat) : Bool :=
  (decide (p0 < 0) || decide (p0 ≤ (pos : Int))) && (decide (p1 < 0) || decide ((pos : Int) < p1))

/-- Modelled from the spec: `remove(seq, range)` of the SequenceCache
(`llama_kv_cache_seq_rm`, in `llama.cpp`, not among the sources). The sequence
id is taken out of every cell of the range; a cell left without owner is
freed. -/
def kv_seq_rm (seq_id : Nat) (p0 p1 : Int) (cells : List kv_cell) : List kv_cell :=
  (cells.map (fun c =>
    if seq_id ∈ c.seq_id ∧ kv_in_range p0 p1 c.pos = true
    then { c with seq_id := c.seq_id.filter (fun s => decide (s ≠ seq_id)) } else c)).filter
    (fun c => decide (c.seq_id ≠ []))

/-- Modelled from the spec: `copy(src, dst, range)` of the SequenceCache
(`llama_kv_cache_seq_cp`): every cell of the range that belongs to `src` also
belongs to `dst` afterwards. -/
def kv_seq_cp (seq_id_src seq_id_dst : Nat) (p0 p1 : Int) (cells : List kv_cell) :
    List kv_cell :=
  cells.map (fun c =>
    if seq_id_src ∈ c.seq_id ∧ kv_in_range p0 p1 c.pos = true ∧ seq_id_dst ∉ c.seq_id
    then { c with seq_id := c.seq_id ++ [seq_id_dst] } else c)

/-- Modelled from the spec: `keep(seq)` of the SequenceCache
(`llama_kv_cache_seq_keep`): "discard everything not belonging to" `seq`, so
that `keep(0)` after `copy(i_keep, 0)` discards "the now-redundant original
`i_keep` entry". Cells of `seq` stay and belong to `seq` alone, all other cells
are freed. -/
def kv_seq_keep (seq_id : Nat) (cells : List kv_cell) : List kv_cell :=
  (cells.filter (fun c => decide (seq_id ∈ c.seq_id))).map
    (fun c => { c with seq_id := [seq_id] })

/-- Modelled from the spec: `decode(batch)` stores one cell per batch slot, at
the slot's position and for the slot's owners. -/
def kv_decode (batch : List llama_batch_slot) (cells : List kv_cell) : List kv_cell :=
  cells ++ batch.map (fun b => { pos := b.pos, token := b.token, seq_id := b.seq_id })

/-- Effect of one recorded call on the cells of a cache. -/
def kv_apply (cells : List kv_cell) : kv_call → List kv_cell
  | .seq_rm s p0 p1 => kv_seq_rm s p0 p1 cells
  | .seq_cp s d p0 p1 => kv_seq_cp s d p0 p1 cells
  | .seq_keep s => kv_seq_keep s cells
  | .decode b => kv_decode b cells

/-- Content of a cache after the recorded calls, starting from an empty
cache. -/
def kv_cache (calls : List kv_call) : List kv_cell :=
  calls.foldl kv_apply []

/-- The sequence ids a recorded call refers to: its arguments, and for a
decode the owners of every slot. -/
def kv_call_seq_ids : kv_call → List Nat
  | .seq_rm s _ _ => [s]
  | .seq_cp s d _ _ => [s, d]
  | .seq_keep s => [s]
  | .decode b => (b.map (fun x => x.seq_id)).flatten

/-! ## Verification (lines 144-197) -/

/-- The match scan of lines 172-185 from slot `i` on: `ds` are the branches
`drafts[i], drafts[i+1], ...`; `i_keep` and `matches` are the values of the two
variables on entry. Returns the branches with their new `active` flags and the
values of `i_keep` and `matches` after the loop. -/
def match_scan (id : llama_token) (i_dft : Nat) :
    Nat → List seq_draft → Nat → Bool → List seq_draft × Nat × Bool
  | _, [], i_keep, mtch => ([], i_keep, mtch)
  | i, d :: ds, i_keep, mtch =>
    if d.active = false then
      let r := match_scan id i_dft (i + 1) ds i_keep mtch
      (d :: r.1, r.2.1, r.2.2)
    else if i_dft < d.tokens.length ∧ d.tokens[i_dft]? = some id then
      let r := match_scan id i_dft (i + 1) ds i true
      (d :: r.1, r.2.1, r.2.2)
    else
      let r := match_scan id i_dft (i + 1) ds i_keep mtch
      ({ d with active := false } :: r.1, r.2.1, r.2.2)

/-- One pass through lines 148-185: sample from the target at
`drafts[i_keep].i_batch_tgt[i_dft]`, accept, print, set `has_eos`, count, and
scan the drafts. The sampled token is `id`. The second component is
`matches`. -/
def verify_step (params : gpt_params) (id : llama_token) (st : spec_state) :
    spec_state × Bool :=
  let r := match_scan id st.i_dft 0 st.drafts st.i_keep false
  ({ st with
      tgt_reads := st.tgt_reads ++ [(st.drafts[st.i_keep]?).bind (fun d => d.i_batch_tgt[st.i_dft]?)],
      ctx_sampling := llama_sampling_accept st.ctx_sampling id,
      out := st.out ++ [id],
      has_eos := st.has_eos || decide (id = params.token_eos),
      n_predict := st.n_predict + 1,
      id := id,
      drafts := r.1,
      i_keep := r.2.1 }, r.2.2)

/-- The inner `while (true)` of lines 147-197 up to the point where no branch
matched (line 197), with `fuel` bounding the number of passes; `sample j` is
what the target returns at depth `j`. `none` when the fuel is used up. -/
def verify_loop (params : gpt_params) (sample : Nat → llama_token) :
    Nat → spec_state → Option spec_state
  | 0, _ => none
  | fuel + 1, st =>
    let r := verify_step params (sample st.i_dft) st
    if r.2 = true then
      verify_loop params sample fuel
        { r.1 with
          n_accept := r.1.n_accept + 1,
          n_past_tgt := r.1.n_past_tgt + 1,
          n_past_dft := r.1.n_past_dft + 1,
          i_dft := r.1.i_dft + 1 }
    else some r.1

/-- A number of passes that suffices for the verification loop: one more than
the longest token history in the pool. -/
def verify_fuel (drafts : List seq_draft) : Nat :=
  (drafts.map (fun d => d.tokens.length)).foldr max 0 + 1

/-- Lines 144-197: `i_dft = 0`, `i_keep = 0`, then the verification loop. -/
def verify (params : gpt_params) (sample : Nat → llama_token) (st : spec_state) :
    Option spec_state :=
  verify_loop params sample (verify_fuel st.drafts) { st with i_dft := 0, i_keep := 0 }

/-! ## Reconciliation (lines 199-236) -/

/-- Lines 199-230: the cache calls that keep sequence `i_keep`, the reset of
every branch, the new root in `drafts[0]`, and the one-slot draft batch. -/
def reconcile (st : spec_state) : spec_state :=
  { st with
    ctx_dft := st.ctx_dft ++
      [kv_call.seq_keep st.i_keep, kv_call.seq_cp st.i_keep 0 (-1) (-1), kv_call.seq_keep 0],
    ctx_tgt := st.ctx_tgt ++
      [kv_call.seq_rm st.i_keep st.n_past_tgt (-1), kv_call.seq_keep st.i_keep,
       kv_call.seq_cp st.i_keep 0 (-1) (-1), kv_call.seq_keep 0],
    drafts := List.modify
      (fun d => { d with tokens := d.tokens ++ [st.id], i_batch_tgt := d.i_batch_tgt ++ [0] }) 0
      (st.drafts.map (fun d => { d with active := false, tokens := [], i_batch_tgt := [] })),
    batch_dft := [{ token := st.id, pos := st.n_past_dft, seq_id := [0], logits := true }] }

/-- Lines 232-234: drop what the draft cache holds from `n_past_dft` on, decode
the one-slot batch on the draft model, advance `n_past_dft`. -/
def decode_root (st : spec_state) : spec_state :=
  { st with
    ctx_dft := st.ctx_dft ++
      [kv_call.seq_rm 0 st.n_past_dft (-1), kv_call.decode st.batch_dft],
    n_past_dft := st.n_past_dft + 1 }

/-- The exit test of line 239. -/
def generation_done (params : gpt_params) (st : spec_state) : Bool :=
  decide ((st.n_predict : Int) > params.n_predict) || st.has_eos

/-! ## Drafting (lines 243-403) -/

/-- Lines 243-256, iterations `i, i+1, ...` (`todo` of them): when the target
sampler has a grammar it is copied into `drafts[0]`; `prev` of the target
sampler is copied into `drafts[i]`. -/
def sync_samplers (tgt : llama_sampling_context) :
    Nat → Nat → List seq_draft → List seq_draft
  | 0, _, ds => ds
  | todo + 1, i, ds =>
    let ds1 := if tgt.grammar.isSome = true
      then List.modify (fun d => { d with ctx_sampling := { d.ctx_sampling with grammar := tgt.grammar } }) 0 ds
      else ds
    sync_samplers tgt todo (i + 1)
      (List.modify (fun d => { d with ctx_sampling := { d.ctx_sampling with prev := tgt.prev } }) i ds1)

/-- Lines 258-274: the round starts with the single branch 0 and a target
batch that holds the root token at position `n_past_tgt`. -/
def round_init (st : spec_state) : spec_state :=
  { st with
    n_seq_cur := 1,
    n_past_cur := st.n_past_dft,
    drafts := List.modify
      (fun d => { d with active := true, drafting := true, i_batch_dft := 0 }) 0
      (st.drafts.map (fun d => { d with active := false, drafting := false })),
    batch_tgt := [{ token := ((st.drafts[0]?).bind (fun d => d.tokens[0]?)).getD 0,
                    pos := st.n_past_tgt, seq_id := [0], logits := true }] }

/-- Lines 311-340: branch `s` is split into the free slot `n_seq_cur`. -/
def split_seq (s : Nat) (st : spec_state) : spec_state :=
  let parent := st.drafts[s]?
  { st with
    ctx_dft := st.ctx_dft ++
      [kv_call.seq_rm st.n_seq_cur (-1) (-1), kv_call.seq_cp s st.n_seq_cur (-1) (-1)],
    batch_tgt := st.batch_tgt.map (fun b =>
      if s ∈ b.seq_id then { b with seq_id := b.seq_id ++ [st.n_seq_cur] } else b),
    drafts := List.modify (fun c =>
      match parent with
      | none => c
      | some d =>
        { c with
          active := true, drafting := true, skip := true,
          tokens := d.tokens, i_batch_dft := d.i_batch_dft, i_batch_tgt := d.i_batch_tgt,
          ctx_sampling :=
            if st.ctx_sampling.grammar.isSome = true
            then { c.ctx_sampling with grammar := d.ctx_sampling.grammar }
            else c.ctx_sampling }) st.n_seq_cur st.drafts,
    n_seq_cur := st.n_seq_cur + 1 }

/-- The fork loop of lines 308-344 from candidate rank `f` on, `todo` ranks
left; `sa` collects the slots that receive a token. A missing candidate counts
as one of probability 0. -/
def fork_loop (params : gpt_params) (cur_p : List llama_token_data) (s : Nat) :
    Nat → Nat → spec_state → List Nat → spec_state × List Nat
  | 0, _, st, sa => (st, sa)
  | todo + 1, f, st, sa =>
    if st.n_seq_cur < params.n_parallel ∧ (cur_p.getD f ⟨0, 0⟩).p > 0.3 then
      fork_loop params cur_p s todo (f + 1) (split_seq s st) (sa ++ [st.n_seq_cur])
    else (st, sa)

/-- Lines 346-387 from index `is` on: `sa` are the slots `sa[is], sa[is+1],
...`; each receives candidate `cur_p[is].id`, which is appended to the target
batch at position `n_past_tgt + i + 1` and, unless the target batch has just
reached `n_draft` slots, to the draft batch at position `n_past_cur`. -/
def add_drafted (params : gpt_params) (cur_p : List llama_token_data) (i : Nat) :
    Nat → List Nat → spec_state → spec_state
  | _, [], st => st
  | is, s :: sa, st =>
    let id := (cur_p.getD is ⟨0, 0⟩).id
    let st1 : spec_state :=
      { st with
        drafts := List.modify (fun d =>
          { d with
            tokens := d.tokens ++ [id],
            ctx_sampling := llama_sampling_accept d.ctx_sampling id,
            i_batch_tgt := d.i_batch_tgt ++ [st.batch_tgt.length] }) s st.drafts,
        batch_tgt := st.batch_tgt ++
          [{ token := id, pos := st.n_past_tgt + i + 1, seq_id := [s], logits := true }] }
    if st1.batch_tgt.length = params.n_draft then
      add_drafted params cur_p i (is + 1) sa
        { st1 with drafts := List.modify (fun d => { d with drafting := false }) s st1.drafts }
    else
      add_drafted params cur_p i (is + 1) sa
        { st1 with
          drafts := List.modify (fun d => { d with i_batch_dft := st1.batch_dft.length }) s st1.drafts,
          batch_dft := st1.batch_dft ++
            [{ token := id, pos := st1.n_past_cur, seq_id := [s], logits := true }] }

/-- Lines 285-387, the body of the loop over `s` at depth `i`; `cur_p` is the
ranked candidate list the draft sampler of branch `s` produces. -/
def draft_seq (params : gpt_params) (cur_p : List llama_token_data) (i s : Nat)
    (st : spec_state) : spec_state :=
  match st.drafts[s]? with
  | none => st
  | some d =>
    if d.drafting = false ∨ d.skip = true then st
    else if (cur_p.getD 0 ⟨0, 0⟩).p < 0.4 then
      { st with drafts := List.modify (fun d => { d with drafting := false }) s st.drafts }
    else
      let r := fork_loop params cur_p s 7 1 st [s]
      add_drafted params cur_p i 0 r.2 r.1

/-- The loop of line 284 from branch `s` on, `todo` branches left;
`cands s` is the candidate list for branch `s` at this depth. -/
def draft_seqs (params : gpt_params) (cands : Nat → List llama_token_data) (i : Nat) :
    Nat → Nat → spec_state → spec_state
  | 0, _, st => st
  | todo + 1, s, st =>
    draft_seqs params cands i todo (s + 1) (draft_seq params (cands s) i s st)

/-- Lines 278-387: one depth step up to the test of line 391. -/
def draft_step (params : gpt_params) (cands : Nat → List llama_token_data) (i : Nat)
    (st : spec_state) : spec_state :=
  draft_seqs params cands i params.n_parallel 0
    { st with
      batch_dft := [],
      drafts := st.drafts.map (fun d => { d with skip := false }) }

/-- The draft loop of lines 277-403 from depth `i` on, `todo` depth steps left;
`cands i s` is the candidate list for branch `s` at depth `i`. -/
def draft_loop (params : gpt_params) (cands : Nat → Nat → List llama_token_data) :
    Nat → Nat → spec_state → spec_state
  | 0, _, st => st
  | todo + 1, i, st =>
    let st1 := draft_step params (cands i) i st
    if st1.batch_dft.length = 0 then st1
    else
      let st2 : spec_state :=
        { st1 with
          ctx_dft := st1.ctx_dft ++ [kv_call.decode st1.batch_dft],
          n_past_cur := st1.n_past_cur + 1,
          n_drafted := st1.n_drafted + 1 }
      if st2.batch_tgt.length ≥ params.n_draft then st2
      else draft_loop params cands todo (i + 1) st2

/-- The state at the head of the depth step that follows `k` complete depth
steps of the draft loop (line 278), counted from depth `i`: `none` when one of
the two `break`s of lines 391 and 400 ends the loop before. The loop bound
`i < n_draft` is not tested here. -/
def draft_head (params : gpt_params) (cands : Nat → Nat → List llama_token_data) :
    Nat → Nat → spec_state → Option spec_state
  | 0, _, st => some st
  | k + 1, i, st =>
    let st1 := draft_step params (cands i) i st
    if st1.batch_dft.length = 0 then none
    else
      let st2 : spec_state :=
        { st1 with
          ctx_dft := st1.ctx_dft ++ [kv_call.decode st1.batch_dft],
          n_past_cur := st1.n_past_cur + 1,
          n_drafted := st1.n_drafted + 1 }
      if st2.batch_tgt.length ≥ params.n_draft then none
      else draft_head params cands k (i + 1) st2

/-- Lines 405-415: the target cache is reduced to sequence 0, which is copied
to every other sequence id; then the target batch is decoded. -/
def eval_target (params : gpt_params) (st : spec_state) : spec_state :=
  { st with
    ctx_tgt := st.ctx_tgt ++ [kv_call.seq_keep 0] ++
      (List.range' 1 (params.n_parallel - 1)).map (fun s => kv_call.seq_cp 0 s (-1) (-1)) ++
      [kv_call.decode st.batch_tgt],
    n_past_tgt := st.n_past_tgt + 1 }

/-- Lines 417-424: the root placeholder is erased from every active branch. -/
def erase_root (st : spec_state) : spec_state :=
  { st with
    drafts := st.drafts.map (fun d =>
      if d.active = true then { d with tokens := d.tokens.tail } else d) }

/-- Lines 243-274: the samplers of the pool are synchronised with the target
sampler, then the round is initialised. -/
def round_start (params : gpt_params) (st : spec_state) : spec_state :=
  round_init
    { st with drafts := sync_samplers st.ctx_sampling params.n_parallel 0 st.drafts }

/-- Lines 243-424: everything between the exit test and the next
verification. -/
def draft_phase (params : gpt_params) (cands : Nat → Nat → List llama_token_data)
    (st : spec_state) : spec_state :=
  erase_root (eval_target params
    (draft_loop params cands params.n_draft 0 (round_start params st)))

/-! ## The generation loop (lines 87-241) -/

/-- The sampler of a draft branch after `llama_sampling_init` with the grammar
cleared (lines 116-121). -/
def draft_sampler_init : llama_sampling_context :=
  { prev := [], grammar := none }

/-- The state on entry to the outer loop (lines 87-130) for the prompt
`inp`. -/
def init_state (params : gpt_params) (inp : List llama_token) : spec_state :=
  { drafts := List.modify (fun d => { d with i_batch_tgt := [0] }) 0
      (List.replicate params.n_parallel
        { active := false, drafting := false, skip := false, i_batch_dft := 0,
          i_batch_tgt := [], tokens := [], ctx_sampling := draft_sampler_init }),
    ctx_sampling := { prev := [], grammar := if params.grammar = true then some [] else none },
    batch_dft := [],
    batch_tgt := [],
    n_predict := 0,
    n_drafted := 0,
    n_accept := 0,
    n_past_tgt := inp.length,
    n_past_dft := inp.length,
    has_eos := false,
    ctx_tgt :=
      [kv_call.decode (llama_batch_get_one (inp.take (inp.length - 1)) 0 0),
       kv_call.decode (llama_batch_get_one (inp.drop (inp.length - 1)) (inp.length - 1) 0)],
    ctx_dft := [kv_call.decode (llama_batch_get_one inp 0 0)],
    out := [],
    tgt_reads := [],
    id := 0,
    i_dft := 0,
    i_keep := 0,
    n_seq_cur := 0,
    n_past_cur := 0 }

/-- Lines 144-236 of one outer iteration: verification, reconciliation and the
decode of the new root on the draft model. -/
def verify_reconcile (params : gpt_params) (sample : Nat → llama_token) (st : spec_state) :
    Option spec_state :=
  (verify params sample st).map (fun v => decode_root (reconcile v))

/-- The outer `while (true)` of lines 132-425, at most `fuel` iterations,
starting with iteration number `r`. `sample_tgt r j` is the token the target
returns at depth `j` of iteration `r`, `sample_dft r i s` the candidate list of
branch `s` at depth `i` of iteration `r`. `none` when the fuel is used up
before the exit test succeeds. -/
def generate (params : gpt_params) (sample_tgt : Nat → Nat → llama_token)
    (sample_dft : Nat → Nat → Nat → List llama_token_data) :
    Nat → Nat → spec_state → Option spec_state
  | 0, _, _ => none
  | fuel + 1, r, st =>
    match verify_reconcile params (sample_tgt r) st with
    | none => none
    | some st1 =>
      if generation_done params st1 = true then some st1
      else generate params sample_tgt sample_dft fuel (r + 1)
        (draft_phase params (sample_dft r) st1)

/-- The state right after the reconciliation and root decode of outer
iteration `r`, `none` when the run has ended before. -/
def after_reconcile (params : gpt_params) (sample_tgt : Nat → Nat → llama_token)
    (sample_dft : Nat → Nat → Nat → List llama_token_data) (inp : List llama_token) :
    Nat → Option spec_state
  | 0 => verify_reconcile params (sample_tgt 0) (init_state params inp)
  | r + 1 =>
    match after_reconcile params sample_tgt sample_dft inp r with
    | none => none
    | some st =>
      if generation_done params st = true then none
      else verify_reconcile params (sample_tgt (r + 1)) (draft_phase params (sample_dft r) st)

/-! ## Specification vocabulary -/

/-- Length of the longest common prefix of two token sequences. -/
def lcp : List llama_token → List llama_token → Nat
  | a :: as, b :: bs => if a = b then lcp as bs + 1 else 0
  | _, _ => 0

/-- The largest `lcp` of the token history of an active branch with `es`
(0 when no branch is active). -/
def max_lcp (drafts : List seq_draft) (es : List llama_token) : Nat :=
  ((drafts.filter (fun d => d.active)).map (fun d => lcp d.tokens es)).foldr max 0

/-- Consecutive positions from `p` on, paired with the tokens stored there. -/
def positions_from (p : Nat) (tokens : List llama_token) : List (Nat × llama_token) :=
  (List.range' p tokens.length).zip tokens

/-- The position and token of the batch slots that sequence `s` owns, in batch
order. -/
def owned_slots (s : Nat) (batch : List llama_batch_slot) : List (Nat × llama_token) :=
  (batch.filter (fun b => decide (s ∈ b.seq_id))).map (fun b => (b.pos, b.token))

/-- Every owner of every slot of the batch is below `n`. -/
def owners_lt (n : Nat) (batch : List llama_batch_slot) : Prop :=
  ∀ b ∈ batch, ∀ x ∈ b.seq_id, x < n

/-- Every sequence id the recorded calls refer to is below `n`. -/
def seq_ids_lt (n : Nat) (calls : List kv_call) : Prop :=
  ∀ c ∈ calls, ∀ x ∈ kv_call_seq_ids c, x < n

/-- The cells of a cache in which sequence 0, and no other sequence, holds
`tokens` at the positions `0, 1, ...`. -/
def cache_of_tokens (tokens : List llama_token) : List kv_cell :=
  (positions_from 0 tokens).map (fun pt => { pos := pt.1, token := pt.2, seq_id := [0] })

/-- Invariant of the draft loop, valid between any two updates of a depth
step. `N` is `n_seq_dft`, `P` the position of the root, `i` the depth, `sp` the
number of slots the loop over `s` is done with, `pending` the slots that still
await their token of this depth, `n0` and `b0` the values of `n_seq_cur` and
`batch_tgt.n_tokens` when the depth step began. -/
structure draft_inv (N P : Nat) (root : llama_token) (i sp : Nat) (pending : List Nat)
    (n0 b0 : Nat) (st : spec_state) : Prop where
  len : st.drafts.length = N
  cur_pos : 1 ≤ st.n_seq_cur
  cur_le : st.n_seq_cur ≤ N
  past : st.n_past_tgt = P
  fresh : ∀ (s : Nat) (d : seq_draft), st.drafts[s]? = some d → st.n_seq_cur ≤ s →
    d.active = false ∧ d.drafting = false ∧ d.tokens = []
  used : ∀ (s : Nat) (d : seq_draft), st.drafts[s]? = some d → s < st.n_seq_cur →
    d.active = true ∧ d.tokens.head? = some root
  owners : owners_lt st.n_seq_cur st.batch_tgt
  owned : ∀ (s : Nat) (d : seq_draft), st.drafts[s]? = some d →
    owned_slots s st.batch_tgt = positions_from P d.tokens
  pend_len : ∀ (s : Nat) (d : seq_draft), s ∈ pending → st.drafts[s]? = some d →
    d.tokens.length = i + 1
  pend_nodup : pending.Nodup
  pend_lt : ∀ s ∈ pending, s < st.n_seq_cur
  pend_done : ∀ (s : Nat) (d : seq_draft), s ∈ pending → st.drafts[s]? = some d →
    s < sp ∨ d.skip = true
  depth : ∀ (s : Nat) (d : seq_draft), st.drafts[s]? = some d → s ∉ pending →
    d.drafting = true → d.tokens.length = if sp ≤ s ∧ d.skip = false then i + 1 else i + 2
  n0_le : n0 ≤ st.n_seq_cur
  skipped : ∀ (s : Nat) (d : seq_draft), st.drafts[s]? = some d → n0 ≤ s → s < st.n_seq_cur →
    d.skip = true
  count : st.batch_tgt.length + pending.length + n0 ≤ b0 + min sp n0 + st.n_seq_cur
  log_dft : seq_ids_lt N st.ctx_dft
  own_dft : owners_lt N st.batch_dft

/-- Invariant of the draft loop at the head of depth step `i` and on exit
(then without the clause on drafting branches, `aligned = false`). -/
structure round_inv (N P : Nat) (root : llama_token) (i : Nat) (aligned : Bool)
    (st : spec_state) : Prop where
  len : st.drafts.length = N
  cur_pos : 1 ≤ st.n_seq_cur
  cur_le : st.n_seq_cur ≤ N
  past : st.n_past_tgt = P
  fresh : ∀ (s : Nat) (d : seq_draft), st.drafts[s]? = some d → st.n_seq_cur ≤ s →
    d.active = false ∧ d.drafting = false ∧ d.tokens = []
  used : ∀ (s : Nat) (d : seq_draft), st.drafts[s]? = some d → s < st.n_seq_cur →
    d.active = true ∧ d.tokens.head? = some root
  owners : owners_lt st.n_seq_cur st.batch_tgt
  owned : ∀ (s : Nat) (d : seq_draft), st.drafts[s]? = some d →
    owned_slots s st.batch_tgt = positions_from P d.tokens
  depth : aligned = true → ∀ (s : Nat) (d : seq_draft), st.drafts[s]? = some d →
    d.drafting = true → d.tokens.length = i + 1
  log_dft : seq_ids_lt N st.ctx_dft
  own_dft : owners_lt N st.batch_dft

/-- The variables the draft loop leaves alone have the same value in `st1` as in
`st`. -/
def draft_frame (st st1 : spec_state) : Prop :=
  st1.ctx_tgt = st.ctx_tgt ∧ st1.out = st.out ∧ st1.n_past_tgt = st.n_past_tgt ∧
  st1.n_past_dft = st.n_past_dft ∧ st1.n_accept = st.n_accept ∧
  st1.n_predict = st.n_predict ∧ st1.has_eos = st.has_eos ∧
  st1.ctx_sampling = st.ctx_sampling ∧ st1.tgt_reads = st.tgt_reads ∧ st1.id = st.id

/-- Invariant of the outer loop, valid right after each reconciliation and
root decode: `N` is `n_seq_dft`, `inp` the prompt. -/
structure run_inv (N : Nat) (inp : List llama_token) (st : spec_state) : Prop where
  len : st.drafts.length = N
  cache : kv_cache st.ctx_tgt = cache_of_tokens (inp ++ st.out.dropLast)
  past : st.n_past_tgt + 1 = inp.length + st.out.length
  root : st.out.getLast? = some st.id
  pool0 : ∃ d, st.drafts[0]? = some d ∧ d.tokens = [st.id]
  pool : ∀ (s : Nat) (d : seq_draft), 0 < s → st.drafts[s]? = some d → d.tokens = []
  log_tgt : seq_ids_lt N st.ctx_tgt
  log_dft : seq_ids_lt N st.ctx_dft
  own_dft : owners_lt N st.batch_dft
  keep : st.i_keep < N

/-- The longest token history of an active branch (0 when no branch is
active). -/
def longest_active (drafts : List seq_draft) : Nat :=
  ((drafts.filter (fun d => d.active)).map (fun d => d.tokens.length)).foldr max 0

/-- The batch handed to the last `llama_decode` among the recorded calls (empty
when there is none). -/
def last_decoded (calls : List kv_call) : List llama_batch_slot :=
  calls.foldl (fun acc c =>
    match c with
    | kv_call.decode b => b
    | _ => acc) []

/-- A candidate list whose probabilities are non-negative and sum to at most
1. -/
def valid_candidates (cur_p : List llama_token_data) : Prop :=
  (∀ c ∈ cur_p, 0 ≤ c.p) ∧ (cur_p.map (fun c => c.p)).sum ≤ 1

/-- Shared-prefix ownership in state `st`, `N` being `n_seq_dft`: a branch is
among the owners of a slot of the target batch exactly when the slot occurs in
the target cursors of the branch, and the owner list of every slot is
non-empty, free of duplicates and of length at most `N`. -/
def owners_ok (N : Nat) (st : spec_state) : Prop :=
  (∀ (t : Nat) (b : llama_batch_slot) (s : Nat), st.batch_tgt[t]? = some b →
    (s ∈ b.seq_id ↔ ∃ d, st.drafts[s]? = some d ∧ t ∈ d.i_batch_tgt)) ∧
  ∀ b ∈ st.batch_tgt, b.seq_id ≠ [] ∧ b.seq_id.Nodup ∧ b.seq_id.length ≤ N

/-- Invariant of the draft loop on the target cursors, valid between any two
updates of a depth step, next to `draft_inv`: `P` is the position of the root,
`i` the depth, `sp` the number of slots the loop over `s` is done with,
`pending` the slots that still await their token of this depth. -/
structure cursor_inv (P i sp : Nat) (pending : List Nat) (st : spec_state) : Prop where
  cur_len : ∀ (s : Nat) (d : seq_draft), st.drafts[s]? = some d →
    d.i_batch_tgt.length = d.tokens.length
  cur_slot : ∀ (s : Nat) (d : seq_draft) (k t : Nat), st.drafts[s]? = some d →
    d.i_batch_tgt[k]? = some t →
    ∃ b, st.batch_tgt[t]? = some b ∧ b.pos = P + k ∧ d.tokens[k]? = some b.token ∧
      s ∈ b.seq_id
  own_cur : ∀ (t : Nat) (b : llama_batch_slot) (s : Nat), st.batch_tgt[t]? = some b →
    s ∈ b.seq_id → ∃ d, st.drafts[s]? = some d ∧ t ∈ d.i_batch_tgt
  own_nodup : ∀ b ∈ st.batch_tgt, b.seq_id.Nodup ∧ b.seq_id ≠ []
  tok_le : ∀ (s : Nat) (d : seq_draft), st.drafts[s]? = some d → d.tokens.length ≤ i + 2
  dft_tgt : ∀ b ∈ st.batch_dft, b ∈ st.batch_tgt ∧
    ∀ x ∈ b.seq_id, x ∉ pending ∧ (x < sp ∨ ∃ d, st.drafts[x]? = some d ∧ d.skip = true)
  past_cur : st.n_past_cur = P + 1 + i

/-- Invariant of the draft loop on the target cursors at the head of a depth
step and on exit: `P` is the position of the root, `L` bounds the length of
every token history. -/
structure round_cur (P L : Nat) (st : spec_state) : Prop where
  cur_len : ∀ (s : Nat) (d : seq_draft), st.drafts[s]? = some d →
    d.i_batch_tgt.length = d.tokens.length
  cur_slot : ∀ (s : Nat) (d : seq_draft) (k t : Nat), st.drafts[s]? = some d →
    d.i_batch_tgt[k]? = some t →
    ∃ b, st.batch_tgt[t]? = some b ∧ b.pos = P + k ∧ d.tokens[k]? = some b.token ∧
      s ∈ b.seq_id
  own_cur : ∀ (t : Nat) (b : llama_batch_slot) (s : Nat), st.batch_tgt[t]? = some b →
    s ∈ b.seq_id → ∃ d, st.drafts[s]? = some d ∧ t ∈ d.i_batch_tgt
  own_nodup : ∀ b ∈ st.batch_tgt, b.seq_id.Nodup ∧ b.seq_id ≠ []
  tok_le : ∀ (s : Nat) (d : seq_draft), st.drafts[s]? = some d → d.tokens.length ≤ L
  dft_tgt : ∀ b ∈ st.batch_dft, b ∈ st.batch_tgt

/-- Invariant of the outer loop on cursors and positions, valid right after
each reconciliation and root decode, next to `run_inv`. -/
structure run_cur (st : spec_state) : Prop where
  cursors : ∀ (s : Nat) (d : seq_draft), st.drafts[s]? = some d →
    d.i_batch_tgt = if s = 0 then [0] else []
  past_dft : st.n_past_dft = st.n_past_tgt + 1
  root_slot : st.batch_dft =
    [{ token := st.id, pos := st.n_past_tgt, seq_id := [0], logits := true }]

/-! ## Concrete scenarios -/

/-- Two branches, draft depth 4. -/
def fork_params : gpt_params :=
  { n_parallel := 2, n_draft := 4, n_predict := 10, token_eos := 2, grammar := false }

/-- The target samples 5 from the prompt, then 7, then 6. -/
def fork_sample_tgt : Nat → Nat → llama_token :=
  fun r j => if r = 0 then 5 else if j = 0 then 7 else 6

/-- The draft proposes 7 at depth 0 and then 8 and 9 with probabilities 0.5
and 0.4, which splits the branch. -/
def fork_sample_dft : Nat → Nat → Nat → List llama_token_data :=
  fun _ i _ => if i = 0 then [⟨7, 0.9⟩] else [⟨8, 0.5⟩, ⟨9, 0.4⟩]

/-- An active branch whose token at depth 0 is 7. -/
def matching_draft : seq_draft :=
  { active := true, drafting := false, skip := false, i_batch_dft := 0, i_batch_tgt := [0, 1],
    tokens := [7], ctx_sampling := draft_sampler_init }

/-- A pool of two active branches that hold the same token at depth 0. -/
def two_matching_drafts : spec_state :=
  { init_state fork_params [1] with drafts := [matching_draft, matching_draft] }

/-- One branch, draft depth 2, budget of 2 tokens. -/
def agree_params : gpt_params :=
  { n_parallel := 1, n_draft := 2, n_predict := 2, token_eos := 2, grammar := false }

/-- The target samples 5 from the prompt; in every later iteration it samples
7 at depth 0 and 9 at depth 1. -/
def agree_sample_tgt : Nat → Nat → llama_token :=
  fun r j => if r = 0 then 5 else if j = 0 then 7 else 9

/-- The draft always proposes 7 with probability 0.9: at depth 0 it agrees
with the target. -/
def agree_sample_dft : Nat → Nat → Nat → List llama_token_data :=
  fun _ _ _ => [⟨7, 0.9⟩]

/-- One branch, draft depth 1, end-of-sequence token 2. -/
def eos_params : gpt_params :=
  { n_parallel := 1, n_draft := 1, n_predict := 10, token_eos := 2, grammar := false }

/-- The target samples 5 from the prompt, then the end-of-sequence token 2 at
depth 0 and 9 at depth 1. -/
def eos_sample_tgt : Nat → Nat → llama_token :=
  fun r j => if r = 0 then 5 else if j = 0 then 2 else 9

/-- The draft proposes the end-of-sequence token with probability 0.9. -/
def eos_sample_dft : Nat → Nat → Nat → List llama_token_data :=
  fun _ _ _ => [⟨2, 0.9⟩]

/-- Two branches, draft depth 1. -/
def wide_params : gpt_params :=
  { n_parallel := 2, n_draft := 1, n_predict := 10, token_eos := 2, grammar := false }

/-- The draft proposes 8 and 9 with probabilities 0.5 and 0.4. -/
def wide_sample_dft : Nat → Nat → Nat → List llama_token_data :=
  fun _ _ _ => [⟨8, 0.5⟩, ⟨9, 0.4⟩]

/-- One branch, draft depth 2, a budget of 10 tokens. -/
def same_params : gpt_params :=
  { n_parallel := 1, n_draft := 2, n_predict := 10, token_eos := 2, grammar := false }

/-- The target samples 7 everywhere. -/
def same_sample_tgt : Nat → Nat → llama_token :=
  fun _ _ => 7

/-- The draft proposes 7 everywhere, with probability 0.9. -/
def same_sample_dft : Nat → Nat → Nat → List llama_token_data :=
  fun _ _ _ => [⟨7, 0.9⟩]

/-- A branch that holds the root token 5 and is drafting. -/
def root_draft : seq_draft :=
  { active := true, drafting := true, skip := false, i_batch_dft := 0, i_batch_tgt := [0],
    tokens := [5], ctx_sampling := draft_sampler_init }

/-- A free slot of the pool. -/
def idle_draft : seq_draft :=
  { active := false, drafting := false, skip := false, i_batch_dft := 0, i_batch_tgt := [],
    tokens := [], ctx_sampling := draft_sampler_init }

/-- The head of depth step 0 of a round with two slots: branch 0 holds the
root 5, which the target batch carries at position 1. -/
def drafting_state : spec_state :=
  { init_state fork_params [1] with
    drafts := [root_draft, idle_draft],
    batch_tgt := [{ token := 5, pos := 1, seq_id := [0], logits := true }],
    n_past_dft := 2,
    n_seq_cur := 1,
    n_past_cur := 2 }

/-- A candidate list whose top probability is exactly the continuation
threshold. -/
def top_at_threshold : List llama_token_data :=
  [⟨7, 0.4⟩, ⟨8, 0.2⟩]

/-- A candidate list whose rank-1 probability is exactly the fork threshold;
the lower ranks are arbitrary. -/
def fork_at_threshold : List llama_token_data :=
  [⟨7, 0.5⟩, ⟨8, 0.3⟩, ⟨9, 0.9⟩]

/-- A candidate list of non-negative probabilities that sum to 1 and whose
rank-1 candidate passes the fork test. -/
def split_candidates : List llama_token_data :=
  [⟨7, 0.5⟩, ⟨8, 0.35⟩, ⟨9, 0.15⟩]

/-- The draft proposes 7 with probability 0.3, below the continuation
threshold. -/
def low_sample_dft : Nat → Nat → Nat → List llama_token_data :=
  fun _ _ _ => [⟨7, 0.3⟩]

/-- A candidate list whose rank-1 probability is the largest `float` that is
not above the fork threshold, 10066329 / 2^25 (about 0.29999998). -/
def fork_below_threshold : List llama_token_data :=
  [⟨7, 0.5⟩, ⟨8, 10066329 / 33554432⟩, ⟨9, 0.9⟩]

/-- A candidate list whose rank-1 probability is the `float` nearest to 0.3,
10066330 / 2^25 (about 0.30000001, what `0.3f` denotes). -/
def fork_above_threshold : List llama_token_data :=
  [⟨7, 0.5⟩, ⟨8, 10066330 / 33554432⟩]

/-- The draft proposes 7 with probability 0.5 and 8 with probability 0.4, for
every branch at every depth. -/
def forking_sample_dft : Nat → Nat → Nat → List llama_token_data :=
  fun _ _ _ => [⟨7, 0.5⟩, ⟨8, 0.4⟩]

/-! # Theorems -/

/-! ## The match scan -/

theorem tokens_lt_of_getElem? {l : List llama_token} {n : Nat} {id : llama_token}
    (h : l[n]? = some id) : n < l.length := by
  rcases List.getElem?_eq_some.mp h with ⟨h1, _⟩
  exact h1

theorem match_scan_drafts (id : llama_token) (n : Nat) :
    ∀ (ds : List seq_draft) (i k : Nat) (m : Bool),
      (match_scan id n i ds k m).1 =
        ds.map (fun d =>
          if d.active = true ∧ ¬ d.tokens[n]? = some id then { d with active := false } else d) := by
  intro ds
  induction ds with
  | nil => intro i k m; simp [match_scan]
  | cons d ds ih =>
    intro i k m
    simp only [match_scan, List.map_cons]
    by_cases ha : d.active = false
    · simp [ha, ih]
    · by_cases hm : d.tokens[n]? = some id
      · simp [ha, hm, tokens_lt_of_getElem? hm, ih]
      · simp [ha, hm, ih]

theorem match_scan_snd_cons (id : llama_token) (n : Nat) (d : seq_draft) (ds : List seq_draft)
    (i k : Nat) (m : Bool) :
    (match_scan id n i (d :: ds) k m).2 =
      if d.active = true ∧ d.tokens[n]? = some id then (match_scan id n (i + 1) ds i true).2
      else (match_scan id n (i + 1) ds k m).2 := by
  simp only [match_scan]
  by_cases ha : d.active = false
  · simp [ha]
  · by_cases hm : d.tokens[n]? = some id
    · simp [ha, hm, tokens_lt_of_getElem? hm]
    · simp [ha, hm]

theorem match_scan_keep (id : llama_token) (n : Nat) :
    ∀ (ds : List seq_draft) (i k : Nat) (m : Bool),
      ((match_scan id n i ds k m).2.1 = k ∧ (match_scan id n i ds k m).2.2 = m ∧
          ∀ d ∈ ds, d.active = true → ¬ d.tokens[n]? = some id) ∨
      ((match_scan id n i ds k m).2.2 = true ∧ i ≤ (match_scan id n i ds k m).2.1 ∧
          (∃ d, ds[(match_scan id n i ds k m).2.1 - i]? = some d ∧ d.active = true ∧
            d.tokens[n]? = some id) ∧
          ∀ j d, ds[j]? = some d → d.active = true → d.tokens[n]? = some id →
            i + j ≤ (match_scan id n i ds k m).2.1) := by
  intro ds
  induction ds with
  | nil => intro i k m; left; simp [match_scan]
  | cons d ds ih =>
    intro i k m
    rw [match_scan_snd_cons]
    by_cases hc : d.active = true ∧ d.tokens[n]? = some id
    · rw [if_pos hc]
      right
      rcases ih (i + 1) i true with ⟨h1, h2, h3⟩ | ⟨h1, h2, ⟨d1, h3, h4, h5⟩, h6⟩
      · refine ⟨h2, by simp [h1], ⟨d, by simp [h1], hc.1, hc.2⟩, ?_⟩
        intro j x hj hxa hxm
        cases j with
        | zero => simp [h1]
        | succ j =>
          simp only [List.getElem?_cons_succ] at hj
          exact absurd hxm (h3 x (List.getElem?_mem hj) hxa)
      · refine ⟨h1, by omega, ⟨d1, ?_, h4, h5⟩, ?_⟩
        · have e1 : (match_scan id n (i + 1) ds i true).2.1 - i =
              ((match_scan id n (i + 1) ds i true).2.1 - (i + 1)) + 1 := by omega
          rw [e1, List.getElem?_cons_succ]
          exact h3
        · intro j x hj hxa hxm
          cases j with
          | zero => omega
          | succ j =>
            simp only [List.getElem?_cons_succ] at hj
            have := h6 j x hj hxa hxm
            omega
    · rw [if_neg hc]
      rcases ih (i + 1) k m with ⟨h1, h2, h3⟩ | ⟨h1, h2, ⟨d1, h3, h4, h5⟩, h6⟩
      · left
        refine ⟨h1, h2, ?_⟩
        intro x hx hxa
        rcases List.mem_cons.mp hx with rfl | hx
        · exact fun hxm => hc ⟨hxa, hxm⟩
        · exact h3 x hx hxa
      · right
        refine ⟨h1, by omega, ⟨d1, ?_, h4, h5⟩, ?_⟩
        · have e1 : (match_scan id n (i + 1) ds k m).2.1 - i =
              ((match_scan id n (i + 1) ds k m).2.1 - (i + 1)) + 1 := by omega
          rw [e1, List.getElem?_cons_succ]
          exact h3
        · intro j x hj hxa hxm
          cases j with
          | zero =>
            simp only [List.getElem?_cons_zero, Option.some.injEq] at hj
            subst hj
            exact absurd ⟨hxa, hxm⟩ hc
          | succ j =>
            simp only [List.getElem?_cons_succ] at hj
            have := h6 j x hj hxa hxm
            omega

/-! ## The verification loop -/

theorem length_lt_verify_fuel {ds : List seq_draft} {d : seq_draft} (h : d ∈ ds) :
    d.tokens.length < verify_fuel ds := by
  unfold verify_fuel
  induction ds with
  | nil => simp at h
  | cons x xs ih =>
    simp only [List.map_cons, List.foldr_cons]
    rcases List.mem_cons.mp h with rfl | h
    · omega
    · have := ih h
      omega

theorem verify_fuel_map_active (ds : List seq_draft) (f : seq_draft → seq_draft)
    (hf : ∀ d, (f d).tokens = d.tokens) : verify_fuel (ds.map f) = verify_fuel ds := by
  unfold verify_fuel
  simp [List.map_map, Function.comp_def, hf]

theorem verify_fuel_match_scan (id : llama_token) (n i k : Nat) (m : Bool) (ds : List seq_draft) :
    verify_fuel (match_scan id n i ds k m).1 = verify_fuel ds := by
  rw [match_scan_drafts]
  apply verify_fuel_map_active
  intro d
  split <;> rfl

theorem match_scan_true_lt (id : llama_token) (n i k : Nat) (ds : List seq_draft)
    (h : (match_scan id n i ds k false).2.2 = true) : n + 1 < verify_fuel ds := by
  rcases match_scan_keep id n ds i k false with ⟨_, h2, _⟩ | ⟨_, _, ⟨d, h3, _, h5⟩, _⟩
  · rw [h] at h2; simp at h2
  · have h6 := length_lt_verify_fuel (List.getElem?_mem h3)
    have h7 := tokens_lt_of_getElem? h5
    omega

theorem verify_step_snd (params : gpt_params) (id : llama_token) (st : spec_state) :
    (verify_step params id st).2 = (match_scan id st.i_dft 0 st.drafts st.i_keep false).2.2 := rfl

theorem verify_step_drafts (params : gpt_params) (id : llama_token) (st : spec_state) :
    (verify_step params id st).1.drafts = (match_scan id st.i_dft 0 st.drafts st.i_keep false).1 := rfl

theorem verify_step_i_dft (params : gpt_params) (id : llama_token) (st : spec_state) :
    (verify_step params id st).1.i_dft = st.i_dft := rfl

theorem verify_loop_total (params : gpt_params) (sample : Nat → llama_token) :
    ∀ (fuel : Nat) (st : spec_state), 0 < fuel → verify_fuel st.drafts ≤ st.i_dft + fuel →
      ∃ v, verify_loop params sample fuel st = some v := by
  intro fuel
  induction fuel with
  | zero => intro st h0; omega
  | succ fuel ih =>
    intro st _ h
    simp only [verify_loop]
    by_cases hm : (verify_step params (sample st.i_dft) st).2 = true
    · rw [if_pos hm]
      have h1 := match_scan_true_lt _ _ _ _ _ (by rw [verify_step_snd] at hm; exact hm)
      apply ih
      · omega
      · simp only [verify_step_drafts, verify_fuel_match_scan, verify_step_i_dft]
        omega
    · rw [if_neg hm]
      exact ⟨_, rfl⟩

theorem verify_total (params : gpt_params) (sample : Nat → llama_token) (st : spec_state) :
    ∃ v, verify params sample st = some v := by
  unfold verify
  apply verify_loop_total
  · unfold verify_fuel; omega
  · simp

theorem verify_loop_frame (params : gpt_params) (sample : Nat → llama_token) :
    ∀ (fuel : Nat) (st v : spec_state), verify_loop params sample fuel st = some v →
      st.i_dft ≤ v.i_dft ∧
      v.n_accept = st.n_accept + (v.i_dft - st.i_dft) ∧
      v.n_past_tgt = st.n_past_tgt + (v.i_dft - st.i_dft) ∧
      v.n_past_dft = st.n_past_dft + (v.i_dft - st.i_dft) ∧
      v.n_predict = st.n_predict + (v.i_dft - st.i_dft) + 1 ∧
      v.n_drafted = st.n_drafted ∧ v.ctx_tgt = st.ctx_tgt ∧ v.ctx_dft = st.ctx_dft ∧
      v.batch_tgt = st.batch_tgt ∧ v.batch_dft = st.batch_dft ∧
      v.n_seq_cur = st.n_seq_cur ∧ v.n_past_cur = st.n_past_cur := by
  intro fuel
  induction fuel with
  | zero => intro st v h; simp [verify_loop] at h
  | succ fuel ih =>
    intro st v h
    simp only [verify_loop] at h
    by_cases hm : (verify_step params (sample st.i_dft) st).2 = true
    · rw [if_pos hm] at h
      have := ih _ _ h
      simp only [verify_step] at this
      refine ⟨by omega, by omega, by omega, by omega, by omega, ?_, ?_, ?_, ?_, ?_, ?_, ?_⟩ <;>
        simp [this]
    · rw [if_neg hm] at h
      simp only [Option.some.injEq] at h
      subst h
      simp [verify_step]

theorem verify_loop_out (params : gpt_params) (sample : Nat → llama_token) :
    ∀ (fuel : Nat) (st v : spec_state), verify_loop params sample fuel st = some v →
      v.out = st.out ++ (List.range' st.i_dft (v.i_dft + 1 - st.i_dft)).map sample ∧
      v.id = sample v.i_dft := by
  intro fuel
  induction fuel with
  | zero => intro st v h; simp [verify_loop] at h
  | succ fuel ih =>
    intro st v h
    have hf := verify_loop_frame params sample _ _ _ h
    simp only [verify_loop] at h
    by_cases hm : (verify_step params (sample st.i_dft) st).2 = true
    · rw [if_pos hm] at h
      have hle := (verify_loop_frame params sample _ _ _ h).1
      have := ih _ _ h
      simp only [verify_step] at this hle
      refine ⟨?_, this.2⟩
      rw [this.1]
      have e : v.i_dft + 1 - st.i_dft = (v.i_dft + 1 - (st.i_dft + 1)) + 1 := by omega
      rw [e, List.range'_succ]
      simp
    · rw [if_neg hm] at h
      simp only [Option.some.injEq] at h
      subst h
      simp [verify_step]

theorem seq_draft_clear_inactive (d : seq_draft) (h : d.active = false) :
    { d with active := false } = d := by
  cases d
  simp_all

theorem verify_loop_drafts (params : gpt_params) (sample : Nat → llama_token) :
    ∀ (fuel : Nat) (st v : spec_state), verify_loop params sample fuel st = some v →
      v.drafts = st.drafts.map (fun d => { d with active := false }) := by
  intro fuel
  induction fuel with
  | zero => intro st v h; simp [verify_loop] at h
  | succ fuel ih =>
    intro st v h
    simp only [verify_loop] at h
    by_cases hm : (verify_step params (sample st.i_dft) st).2 = true
    · rw [if_pos hm] at h
      have := ih _ _ h
      rw [this]
      simp only [verify_step_drafts, match_scan_drafts, List.map_map]
      apply List.map_congr_left
      intro d _
      simp only [Function.comp]
      split <;> rfl
    · rw [if_neg hm] at h
      simp only [Option.some.injEq] at h
      subst h
      rw [verify_step_snd] at hm
      rcases match_scan_keep (sample st.i_dft) st.i_dft st.drafts 0 st.i_keep false with
        ⟨_, _, h3⟩ | ⟨h1, _⟩
      · rw [verify_step_drafts, match_scan_drafts]
        apply List.map_congr_left
        intro d hd
        by_cases ha : d.active = true
        · simp [ha, h3 d hd ha]
        · have ha2 : d.active = false := by simpa using ha
          simp [ha2, seq_draft_clear_inactive]
      · exact absurd h1 hm

theorem verify_loop_kept (params : gpt_params) (sample : Nat → llama_token) :
    ∀ (fuel : Nat) (st v : spec_state), verify_loop params sample fuel st = some v →
      (v.i_dft = st.i_dft → v.i_keep = st.i_keep) ∧
      (st.i_dft < v.i_dft → ∃ d, st.drafts[v.i_keep]? = some d ∧ d.active = true ∧
        ∀ j, st.i_dft ≤ j → j < v.i_dft → d.tokens[j]? = some (sample j)) ∧
      (∀ d ∈ st.drafts, d.active = true →
        (∀ j, st.i_dft ≤ j → j < v.i_dft → d.tokens[j]? = some (sample j)) →
        ¬ d.tokens[v.i_dft]? = some (sample v.i_dft)) := by
  intro fuel
  induction fuel with
  | zero => intro st v h; simp [verify_loop] at h
  | succ fuel ih =>
    intro st v h
    simp only [verify_loop] at h
    by_cases hm : (verify_step params (sample st.i_dft) st).2 = true
    · rw [if_pos hm] at h
      have hle := (verify_loop_frame params sample _ _ _ h).1
      obtain ⟨ha, hb, hc⟩ := ih _ _ h
      simp only [verify_step_i_dft] at ha hb hc hle
      simp only [verify_step_drafts, match_scan_drafts] at hb hc
      rw [verify_step_snd] at hm
      refine ⟨fun e => by omega, fun _ => ?_, ?_⟩
      · by_cases hk : v.i_dft = st.i_dft + 1
        · have e1 := ha hk
          rcases match_scan_keep (sample st.i_dft) st.i_dft st.drafts 0 st.i_keep false with
            ⟨_, h2, _⟩ | ⟨_, _, ⟨d, h3, h4, h5⟩, _⟩
          · rw [hm] at h2; simp at h2
          · refine ⟨d, ?_, h4, ?_⟩
            · rw [e1]
              simpa [verify_step] using h3
            · intro j hj1 hj2
              have : j = st.i_dft := by omega
              subst this
              exact h5
        · obtain ⟨d1, h1, h2, h3⟩ := hb (by omega)
          rw [List.getElem?_map] at h1
          cases hd : st.drafts[v.i_keep]? with
          | none => rw [hd] at h1; simp at h1
          | some d =>
            rw [hd] at h1
            simp only [Option.map_some', Option.some.injEq] at h1
            by_cases hcond : d.active = true ∧ ¬ d.tokens[st.i_dft]? = some (sample st.i_dft)
            · rw [if_pos hcond] at h1
              subst h1
              simp at h2
            · rw [if_neg hcond] at h1
              subst h1
              refine ⟨d, rfl, h2, ?_⟩
              intro j hj1 hj2
              by_cases hj : j = st.i_dft
              · subst hj
                by_contra hcon
                exact hcond ⟨h2, hcon⟩
              · exact h3 j (by omega) hj2
      · intro d hd hact hall
        have hmatch := hall st.i_dft (Nat.le_refl _) (by omega)
        apply hc d
        · rw [List.mem_map]
          refine ⟨d, hd, ?_⟩
          simp [hmatch]
        · exact hact
        · intro j hj1 hj2
          exact hall j (by omega) hj2
    · rw [if_neg hm] at h
      simp only [Option.some.injEq] at h
      subst h
      rw [verify_step_snd] at hm
      refine ⟨fun _ => ?_, fun hlt => ?_, ?_⟩
      · rcases match_scan_keep (sample st.i_dft) st.i_dft st.drafts 0 st.i_keep false with
          ⟨h1, _, _⟩ | ⟨h1, _⟩
        · simpa [verify_step] using h1
        · exact absurd h1 hm
      · simp [verify_step] at hlt
      · intro d hd hact _
        rcases match_scan_keep (sample st.i_dft) st.i_dft st.drafts 0 st.i_keep false with
          ⟨_, _, h3⟩ | ⟨h1, _⟩
        · simpa [verify_step] using h3 d hd hact
        · exact absurd h1 hm

/-! ## Longest common prefix -/

theorem le_lcp_iff : ∀ (l es : List llama_token) (j : Nat),
    j ≤ lcp l es ↔ ∀ i, i < j → ∃ a, l[i]? = some a ∧ es[i]? = some a := by
  intro l
  induction l with
  | nil =>
    intro es j
    simp only [lcp, Nat.le_zero]
    constructor
    · intro h i hi; omega
    · intro h
      by_contra hj
      obtain ⟨a, h1, _⟩ := h 0 (by omega)
      simp at h1
  | cons a as ih =>
    intro es j
    cases es with
    | nil =>
      simp only [lcp, Nat.le_zero]
      constructor
      · intro h i hi; omega
      · intro h
        by_contra hj
        obtain ⟨a, _, h1⟩ := h 0 (by omega)
        simp at h1
    | cons b bs =>
      simp only [lcp]
      by_cases hab : a = b
      · subst hab
        rw [if_pos rfl]
        cases j with
        | zero => simp
        | succ j =>
          rw [Nat.succ_le_succ_iff, ih bs j]
          constructor
          · intro h i hi
            cases i with
            | zero => exact ⟨a, by simp⟩
            | succ i => simpa using h i (by omega)
          · intro h i hi
            simpa using h (i + 1) (by omega)
      · rw [if_neg hab]
        constructor
        · intro h i hi; omega
        · intro h
          by_contra hj
          obtain ⟨c, h1, h2⟩ := h 0 (by omega)
          simp only [List.getElem?_cons_zero, Option.some.injEq] at h1 h2
          exact hab (h1.trans h2.symm)

theorem foldr_max_eq (l : List Nat) (k : Nat) (hle : ∀ x ∈ l, x ≤ k) (hk : k = 0 ∨ k ∈ l) :
    l.foldr max 0 = k := by
  have h1 : l.foldr max 0 ≤ k := by
    clear hk
    induction l with
    | nil => simp
    | cons x xs ih =>
      simp only [List.foldr_cons]
      have := hle x (List.mem_cons_self _ _)
      have := ih (fun y hy => hle y (List.mem_cons_of_mem _ hy))
      omega
  have h2 : ∀ x ∈ l, x ≤ l.foldr max 0 := by
    clear hle hk h1
    induction l with
    | nil => simp
    | cons x xs ih =>
      intro y hy
      simp only [List.foldr_cons]
      rcases List.mem_cons.mp hy with rfl | hy
      · omega
      · have := ih y hy
        omega
  rcases hk with rfl | hk
  · omega
  · have := h2 k hk
    omega

theorem getElem?_map_range (sample : Nat → llama_token) (n i : Nat) (h : i < n) :
    ((List.range n).map sample)[i]? = some (sample i) := by
  simp [List.getElem?_map, List.getElem?_range h]

/-- Claim C1. The verification of a round returns (the pool is finite, so the
loop ends); the tokens it emits are the target samples `e_0 .. e_k` with
`k = i_dft` on exit, and `k` tokens are accepted. When `k > 0` the kept branch
`i_keep` was active and its tokens at depths `j < k` are `e_j`. No branch that
was active at the start and agrees with `e_0 .. e_(k-1)` has `e_k` at depth `k`.
Equivalently `k` is the largest common-prefix length of `e_0 .. e_k` with the
token history of a branch that was active when verification started. -/
theorem verify_accepts_longest_match (params : gpt_params) (sample : Nat → llama_token)
    (st : spec_state) :
    ∃ v, verify params sample st = some v ∧
      v.out = st.out ++ (List.range (v.i_dft + 1)).map sample ∧
      v.n_accept = st.n_accept + v.i_dft ∧
      (0 < v.i_dft → ∃ d, st.drafts[v.i_keep]? = some d ∧ d.active = true ∧
        ∀ j, j < v.i_dft → d.tokens[j]? = some (sample j)) ∧
      (∀ d ∈ st.drafts, d.active = true →
        (∀ j, j < v.i_dft → d.tokens[j]? = some (sample j)) →
        d.tokens[v.i_dft]? ≠ some (sample v.i_dft)) ∧
      v.i_dft = max_lcp st.drafts ((List.range (v.i_dft + 1)).map sample) := by
  obtain ⟨v, hv⟩ := verify_total params sample st
  refine ⟨v, hv, ?_⟩
  unfold verify at hv
  have hf := verify_loop_frame params sample _ _ _ hv
  have ho := verify_loop_out params sample _ _ _ hv
  obtain ⟨_, hk2, hk3⟩ := verify_loop_kept params sample _ _ _ hv
  simp only [Nat.zero_le, true_implies, Nat.sub_zero] at hf ho hk2 hk3
  have hkept : 0 < v.i_dft → ∃ d, st.drafts[v.i_keep]? = some d ∧ d.active = true ∧
      ∀ j, j < v.i_dft → d.tokens[j]? = some (sample j) := hk2
  have hstop : ∀ d ∈ st.drafts, d.active = true →
      (∀ j, j < v.i_dft → d.tokens[j]? = some (sample j)) →
      d.tokens[v.i_dft]? ≠ some (sample v.i_dft) := hk3
  refine ⟨?_, hf.2.1, hkept, hstop, ?_⟩
  · rw [ho.1, List.range_eq_range']
  · symm
    unfold max_lcp
    apply foldr_max_eq
    · intro x hx
      obtain ⟨d, hd, rfl⟩ := List.mem_map.mp hx
      obtain ⟨hd1, hd2⟩ := List.mem_filter.mp hd
      by_contra hcon
      have hge : v.i_dft + 1 ≤ lcp d.tokens ((List.range (v.i_dft + 1)).map sample) := by omega
      rw [le_lcp_iff] at hge
      have hall : ∀ j, j < v.i_dft + 1 → d.tokens[j]? = some (sample j) := by
        intro j hj
        obtain ⟨a, h1, h2⟩ := hge j hj
        rw [getElem?_map_range sample _ _ hj] at h2
        rw [h1, h2]
      exact hstop d hd1 hd2 (fun j hj => hall j (by omega)) (hall v.i_dft (by omega))
    · by_cases hk : v.i_dft = 0
      · left; exact hk
      · right
        obtain ⟨d, h1, h2, h3⟩ := hkept (by omega)
        have hmem : d ∈ st.drafts.filter (fun d => d.active) :=
          List.mem_filter.mpr ⟨List.getElem?_mem h1, h2⟩
        have hle : v.i_dft ≤ lcp d.tokens ((List.range (v.i_dft + 1)).map sample) := by
          rw [le_lcp_iff]
          intro i hi
          exact ⟨sample i, h3 i hi, getElem?_map_range sample _ _ (by omega)⟩
        have hub : lcp d.tokens ((List.range (v.i_dft + 1)).map sample) ≤ v.i_dft := by
          by_contra hcon
          have hge : v.i_dft + 1 ≤ lcp d.tokens ((List.range (v.i_dft + 1)).map sample) := by
            omega
          rw [le_lcp_iff] at hge
          have hall : ∀ j, j < v.i_dft + 1 → d.tokens[j]? = some (sample j) := by
            intro j hj
            obtain ⟨a, h1, h2⟩ := hge j hj
            rw [getElem?_map_range sample _ _ hj] at h2
            rw [h1, h2]
          exact hstop d (List.getElem?_mem h1) h2 (fun j hj => hall j (by omega))
            (hall v.i_dft (by omega))
        rw [List.mem_map]
        exact ⟨d, hmem, by omega⟩

/-! ## Lists -/

theorem getElem?_modify_eq {α : Type} (f : α → α) (n : Nat) (l : List α) (m : Nat) :
    (List.modify f n l)[m]? = (l[m]?).map (fun a => if n = m then f a else a) := by
  rw [List.getElem?_modify]
  rfl

theorem getElem?_modify_some {α : Type} {f : α → α} {n : Nat} {l : List α} {m : Nat} {d : α}
    (h : (List.modify f n l)[m]? = some d) :
    ∃ a, l[m]? = some a ∧ d = if n = m then f a else a := by
  rw [getElem?_modify_eq] at h
  cases hx : l[m]? with
  | none => rw [hx] at h; simp at h
  | some a =>
    rw [hx] at h
    simp only [Option.map_some', Option.some.injEq] at h
    exact ⟨a, rfl, h.symm⟩

theorem getElem?_map_some {α β : Type} {f : α → β} {l : List α} {m : Nat} {d : β}
    (h : (l.map f)[m]? = some d) : ∃ a, l[m]? = some a ∧ d = f a := by
  rw [List.getElem?_map] at h
  cases hx : l[m]? with
  | none => rw [hx] at h; simp at h
  | some a =>
    rw [hx] at h
    simp only [Option.map_some', Option.some.injEq] at h
    exact ⟨a, rfl, h.symm⟩

theorem getElem?_some_of_lt {α : Type} {l : List α} {m : Nat} (h : m < l.length) :
    ∃ a, l[m]? = some a := ⟨l[m], List.getElem?_eq_getElem h⟩

theorem positions_from_append (p : Nat) (l : List llama_token) (t : llama_token) :
    positions_from p (l ++ [t]) = positions_from p l ++ [(p + l.length, t)] := by
  unfold positions_from
  rw [List.length_append, List.length_singleton, List.range'_concat]
  rw [List.zip_append (by simp)]
  simp

theorem positions_from_length (p : Nat) (l : List llama_token) :
    (positions_from p l).length = l.length := by
  simp [positions_from]

/-- Claim C2, amended. In a verification step in which some active branch holds
the sampled token at depth `i_dft`, `matches` is set and `i_keep` after the step
is the HIGHEST slot index among the matching active branches: the kept branch
is active and matches, and every active matching branch has a slot index not
above it. -/
theorem verify_step_keeps_highest_match (params : gpt_params) (id : llama_token)
    (st : spec_state)
    (h : ∃ (i : Nat) (d : seq_draft),
      st.drafts[i]? = some d ∧ d.active = true ∧ d.tokens[st.i_dft]? = some id) :
    (verify_step params id st).2 = true ∧
    (∃ d, st.drafts[(verify_step params id st).1.i_keep]? = some d ∧ d.active = true ∧
      d.tokens[st.i_dft]? = some id) ∧
    ∀ (i : Nat) (d : seq_draft), st.drafts[i]? = some d → d.active = true →
      d.tokens[st.i_dft]? = some id → i ≤ (verify_step params id st).1.i_keep := by
  obtain ⟨i, d, h1, h2, h3⟩ := h
  rcases match_scan_keep id st.i_dft st.drafts 0 st.i_keep false with
    ⟨_, _, h6⟩ | ⟨h4, _, ⟨d1, h5, h6, h7⟩, h8⟩
  · exact absurd h3 (h6 d (List.getElem?_mem h1) h2)
  · refine ⟨h4, ⟨d1, ?_, h6, h7⟩, ?_⟩
    · simpa [verify_step] using h5
    · intro j x hj hxa hxm
      have := h8 j x hj hxa hxm
      simpa [verify_step] using this

/-- Claim C2, counterexample. After a draft phase that split branch 0 into
slot 1 at depth 1, both branches are active and hold 7 at depth 0; the target
samples 7 and the step leaves `i_keep = 1`, not the lowest matching slot 0. -/
theorem verify_step_not_lowest_match :
    (after_reconcile fork_params fork_sample_tgt fork_sample_dft [1] 0).map
      (fun st0 =>
        ((draft_phase fork_params (fork_sample_dft 0) st0).drafts.map
          (fun d => (d.active, d.tokens)),
         (verify_step fork_params 7
           { draft_phase fork_params (fork_sample_dft 0) st0 with i_dft := 0, i_keep := 0 }).1.i_keep))
      = some ([(true, [7, 8]), (true, [7, 9])], 1) := by
  decide!

/-- Witness for `verify_step_keeps_highest_match`: two active branches with the
same token at depth 0. -/
theorem verify_step_keeps_highest_match_witness :
    (∃ (i : Nat) (d : seq_draft), two_matching_drafts.drafts[i]? = some d ∧ d.active = true ∧
      d.tokens[two_matching_drafts.i_dft]? = some 7) ∧
    1 ≤ (verify_step fork_params 7 two_matching_drafts).1.i_keep :=
  ⟨⟨1, matching_draft, by decide, by decide, by decide⟩,
   (verify_step_keeps_highest_match fork_params 7 two_matching_drafts
      ⟨1, matching_draft, by decide, by decide, by decide⟩).2.2 1 matching_draft
      (by decide) (by decide) (by decide)⟩

/-- Claim C5. For a non-empty pool (`n_seq_dft >= 1`), verification returns
with `id` the token sampled last, which is the last token printed; right after
`reconcile` every branch is inactive, every branch other than slot 0 has no
tokens and no target cursors, slot 0 has tokens `[id]` and target cursors
`[0]`, and the draft batch is the single slot holding `id` at position
`n_past_dft`, owned by sequence 0, with logits requested. -/
theorem reconcile_resets_pool (params : gpt_params) (sample : Nat → llama_token)
    (st : spec_state) (h : 0 < st.drafts.length) :
    ∃ v, verify params sample st = some v ∧
      v.id = sample v.i_dft ∧ v.out.getLast? = some v.id ∧
      (reconcile v).drafts.length = st.drafts.length ∧
      (∀ d ∈ (reconcile v).drafts, d.active = false) ∧
      (∀ (i : Nat) (d : seq_draft), 0 < i → (reconcile v).drafts[i]? = some d →
        d.tokens = [] ∧ d.i_batch_tgt = []) ∧
      (∃ d, (reconcile v).drafts[0]? = some d ∧ d.tokens = [v.id] ∧ d.i_batch_tgt = [0]) ∧
      (reconcile v).batch_dft =
        [{ token := v.id, pos := (reconcile v).n_past_dft, seq_id := [0], logits := true }] := by
  obtain ⟨v, hv⟩ := verify_total params sample st
  refine ⟨v, hv, ?_⟩
  unfold verify at hv
  have ho := verify_loop_out params sample _ _ _ hv
  have hd := verify_loop_drafts params sample _ _ _ hv
  dsimp only at ho hd
  have hlen : v.drafts.length = st.drafts.length := by simp [hd]
  refine ⟨ho.2, ?_, ?_, ?_, ?_, ?_, ?_⟩
  · rw [ho.1, ho.2, Nat.sub_zero, List.range'_concat]
    simp [← List.append_assoc]
  · simp [reconcile, hlen]
  · intro d hd
    simp only [reconcile] at hd
    obtain ⟨i, hi⟩ := List.mem_iff_getElem?.mp hd
    rw [getElem?_modify_eq, List.getElem?_map] at hi
    cases hx : v.drafts[i]? with
    | none => rw [hx] at hi; simp at hi
    | some x =>
      rw [hx] at hi
      simp only [Option.map_some', Option.some.injEq] at hi
      subst hi
      split <;> rfl
  · intro i d hi hd
    simp only [reconcile] at hd
    rw [getElem?_modify_eq, List.getElem?_map] at hd
    cases hx : v.drafts[i]? with
    | none => rw [hx] at hd; simp at hd
    | some x =>
      rw [hx] at hd
      simp only [Option.map_some', Option.some.injEq] at hd
      subst hd
      have : ¬ 0 = i := by omega
      simp [this]
  · simp only [reconcile]
    rw [getElem?_modify_eq, List.getElem?_map]
    cases hx : v.drafts[0]? with
    | none =>
      have := List.getElem?_eq_none_iff.mp hx
      omega
    | some x => simp
  · simp [reconcile]

/-- Witness for `reconcile_resets_pool`: the first verification of a run with
two slots. -/
theorem reconcile_resets_pool_witness :
    ∃ v, verify fork_params (fork_sample_tgt 0) (init_state fork_params [1]) = some v ∧
      (reconcile v).drafts.map (fun d => (d.active, d.tokens, d.i_batch_tgt)) =
        [(false, [5], [0]), (false, [], [])] := by
  obtain ⟨v, hv, h1, h2, h3, h4, h5, h6, h7⟩ :=
    reconcile_resets_pool fork_params (fork_sample_tgt 0) (init_state fork_params [1])
      (by decide)
  refine ⟨v, hv, ?_⟩
  have e : verify fork_params (fork_sample_tgt 0) (init_state fork_params [1]) = some v := hv
  have e2 : (verify fork_params (fork_sample_tgt 0) (init_state fork_params [1])).map
      (fun v => (reconcile v).drafts.map (fun d => (d.active, d.tokens, d.i_batch_tgt))) =
        some [(false, [5], [0]), (false, [], [])] := by decide!
  rw [e] at e2
  simpa using e2

/-! ## Updates of the draft phase preserve the invariant -/

theorem owned_slots_split (s c x : Nat) (batch : List llama_batch_slot)
    (hc : ∀ b ∈ batch, c ∉ b.seq_id) :
    owned_slots x (batch.map (fun b =>
      if s ∈ b.seq_id then { b with seq_id := b.seq_id ++ [c] } else b)) =
      if x = c then owned_slots s batch else owned_slots x batch := by
  unfold owned_slots
  induction batch with
  | nil => simp
  | cons b bs ih =>
    have hb := hc b (List.mem_cons_self _ _)
    have ih2 := ih (fun y hy => hc y (List.mem_cons_of_mem _ hy))
    simp only [List.map_cons, List.filter_cons]
    by_cases hxc : x = c
    · subst hxc
      simp only [if_true] at ih2 ⊢
      by_cases hs : s ∈ b.seq_id
      · simp [hs, ih2]
      · simp [hs, hb, ih2]
    · simp only [if_neg hxc] at ih2 ⊢
      by_cases hs : s ∈ b.seq_id
      · by_cases hx : x ∈ b.seq_id
        · simp [hs, hx, ih2]
        · simp [hs, hx, hxc, ih2]
      · by_cases hx : x ∈ b.seq_id
        · simp [hs, hx, ih2]
        · simp [hs, hx, ih2]

theorem split_seq_inv {N P : Nat} {root : llama_token} {i sp : Nat} {pending : List Nat}
    {n0 b0 : Nat} {st : spec_state} {s : Nat}
    (h : draft_inv N P root i sp pending n0 b0 st) (hs : s ∈ pending)
    (hlt : st.n_seq_cur < N) :
    draft_inv N P root i sp (pending ++ [st.n_seq_cur]) n0 b0 (split_seq s st) := by
  have hsl := h.pend_lt s hs
  obtain ⟨dp, hp⟩ := getElem?_some_of_lt (l := st.drafts) (m := s) (by rw [h.len]; omega)
  have hfresh : ∀ b ∈ st.batch_tgt, st.n_seq_cur ∉ b.seq_id := by
    intro b hb hx
    exact Nat.lt_irrefl _ (h.owners b hb _ hx)
  have hnp : st.n_seq_cur ∉ pending := fun hx => Nat.lt_irrefl _ (h.pend_lt _ hx)
  refine
    { len := ?_, cur_pos := ?_, cur_le := ?_, past := ?_, fresh := ?_, used := ?_,
      owners := ?_, owned := ?_, pend_len := ?_, pend_nodup := ?_, pend_lt := ?_,
      pend_done := ?_, depth := ?_, n0_le := ?_, skipped := ?_, count := ?_,
      log_dft := ?_, own_dft := ?_ }
  · simp [split_seq, h.len]
  · simp only [split_seq]; have := h.cur_pos; omega
  · simp only [split_seq]; omega
  · simp only [split_seq]; exact h.past
  · intro x d hd hx
    simp only [split_seq] at hd hx
    obtain ⟨a, ha, hda⟩ := getElem?_modify_some hd
    have hne : ¬ st.n_seq_cur = x := by omega
    rw [if_neg hne] at hda
    subst hda
    exact h.fresh x d ha (by omega)
  · intro x d hd hx
    simp only [split_seq] at hd hx
    obtain ⟨a, ha, hda⟩ := getElem?_modify_some hd
    by_cases hxc : st.n_seq_cur = x
    · rw [if_pos hxc, hp] at hda
      subst hda
      exact ⟨rfl, (h.used s dp hp hsl).2⟩
    · rw [if_neg hxc] at hda
      subst hda
      exact h.used x d ha (by omega)
  · intro b hb y hy
    simp only [split_seq] at hb ⊢
    obtain ⟨b1, hb1, rfl⟩ := List.mem_map.mp hb
    by_cases hsb : s ∈ b1.seq_id
    · rw [if_pos hsb] at hy
      simp only [List.mem_append, List.mem_singleton] at hy
      rcases hy with hy | hy
      · have := h.owners b1 hb1 y hy; omega
      · omega
    · rw [if_neg hsb] at hy
      have := h.owners b1 hb1 y hy; omega
  · intro x d hd
    simp only [split_seq] at hd ⊢
    rw [owned_slots_split s st.n_seq_cur x st.batch_tgt hfresh]
    obtain ⟨a, ha, hda⟩ := getElem?_modify_some hd
    by_cases hxc : st.n_seq_cur = x
    · rw [if_pos hxc, hp] at hda
      subst hda
      rw [if_pos hxc.symm]
      exact h.owned s dp hp
    · rw [if_neg hxc] at hda
      subst hda
      rw [if_neg (fun e => hxc e.symm)]
      exact h.owned x d ha
  · intro x d hx hd
    simp only [split_seq] at hd
    obtain ⟨a, ha, hda⟩ := getElem?_modify_some hd
    by_cases hxc : st.n_seq_cur = x
    · rw [if_pos hxc, hp] at hda
      subst hda
      exact h.pend_len s dp hs hp
    · rw [if_neg hxc] at hda
      subst hda
      simp only [List.mem_append, List.mem_singleton] at hx
      rcases hx with hx | hx
      · exact h.pend_len x d hx ha
      · exact absurd hx.symm hxc
  · rw [List.nodup_append]
    refine ⟨h.pend_nodup, by simp, ?_⟩
    intro a ha hb
    simp only [List.mem_singleton] at hb
    subst hb
    exact hnp ha
  · intro x hx
    simp only [List.mem_append, List.mem_singleton] at hx
    simp only [split_seq]
    rcases hx with hx | hx
    · have := h.pend_lt x hx; omega
    · omega
  · intro x d hx hd
    simp only [split_seq] at hd
    obtain ⟨a, ha, hda⟩ := getElem?_modify_some hd
    by_cases hxc : st.n_seq_cur = x
    · rw [if_pos hxc, hp] at hda
      subst hda
      right; rfl
    · rw [if_neg hxc] at hda
      subst hda
      simp only [List.mem_append, List.mem_singleton] at hx
      rcases hx with hx | hx
      · exact h.pend_done x d hx ha
      · exact absurd hx.symm hxc
  · intro x d hd hx hdr
    simp only [split_seq] at hd
    obtain ⟨a, ha, hda⟩ := getElem?_modify_some hd
    simp only [List.mem_append, List.mem_singleton, not_or] at hx
    have hxc : ¬ st.n_seq_cur = x := fun e => hx.2 e.symm
    rw [if_neg hxc] at hda
    subst hda
    exact h.depth x d ha hx.1 hdr
  · simp only [split_seq]; have := h.n0_le; omega
  · intro x d hd hx1 hx2
    simp only [split_seq] at hd hx2
    obtain ⟨a, ha, hda⟩ := getElem?_modify_some hd
    by_cases hxc : st.n_seq_cur = x
    · rw [if_pos hxc, hp] at hda
      subst hda
      rfl
    · rw [if_neg hxc] at hda
      subst hda
      exact h.skipped x d ha hx1 (by omega)
  · have := h.count
    simp only [split_seq, List.length_map, List.length_append, List.length_singleton]
    omega
  · intro c hc y hy
    simp only [split_seq, List.mem_append, List.mem_cons, List.mem_singleton,
      List.not_mem_nil, or_false] at hc
    rcases hc with hc | hc | hc
    · exact h.log_dft c hc y hy
    · subst hc
      simp only [kv_call_seq_ids, List.mem_singleton] at hy
      omega
    · subst hc
      simp only [kv_call_seq_ids, List.mem_cons, List.mem_singleton, List.not_mem_nil,
        or_false] at hy
      have := h.cur_le
      rcases hy with hy | hy <;> omega
  · simp only [split_seq]; exact h.own_dft

theorem fork_loop_inv (params : gpt_params) (cur_p : List llama_token_data) (s : Nat)
    {N P : Nat} {root : llama_token} {i sp n0 b0 : Nat} (hN : params.n_parallel = N) :
    ∀ (todo f : Nat) (st : spec_state) (sa : List Nat),
      draft_inv N P root i sp sa n0 b0 st → s ∈ sa →
      draft_inv N P root i sp (fork_loop params cur_p s todo f st sa).2 n0 b0
        (fork_loop params cur_p s todo f st sa).1 := by
  intro todo
  induction todo with
  | zero => intro f st sa h _; simpa [fork_loop] using h
  | succ todo ih =>
    intro f st sa h hs
    simp only [fork_loop]
    by_cases hc : st.n_seq_cur < params.n_parallel ∧ (cur_p.getD f ⟨0, 0⟩).p > 0.3
    · rw [if_pos hc]
      apply ih
      · exact split_seq_inv h hs (by rw [← hN]; exact hc.1)
      · exact List.mem_append_left _ hs
    · rw [if_neg hc]
      exact h

theorem owned_slots_append (x s : Nat) (batch : List llama_batch_slot) (t : llama_token)
    (p : Nat) (l : Bool) :
    owned_slots x (batch ++ [{ token := t, pos := p, seq_id := [s], logits := l }]) =
      if x = s then owned_slots x batch ++ [(p, t)] else owned_slots x batch := by
  unfold owned_slots
  by_cases hx : x = s
  · simp [hx, List.filter_append]
  · simp [hx, List.filter_append]

theorem add_one_inv {N P : Nat} {root : llama_token} {i sp : Nat} {x : Nat} {rest : List Nat}
    {n0 b0 : Nat} {st : spec_state}
    (h : draft_inv N P root i sp (x :: rest) n0 b0 st) (id : llama_token)
    (dr : Bool → Bool) (hdr : ∀ b, dr b = true → b = true) (ib : Nat → Nat)
    (bd : List llama_batch_slot) (hbd : owners_lt N bd) :
    draft_inv N P root i sp rest n0 b0
      { st with
        drafts := List.modify
          (fun d => { d with drafting := dr d.drafting, i_batch_dft := ib d.i_batch_dft }) x
          (List.modify (fun d =>
            { d with
              tokens := d.tokens ++ [id],
              ctx_sampling := llama_sampling_accept d.ctx_sampling id,
              i_batch_tgt := d.i_batch_tgt ++ [st.batch_tgt.length] }) x st.drafts),
        batch_tgt := st.batch_tgt ++
          [{ token := id, pos := st.n_past_tgt + i + 1, seq_id := [x], logits := true }],
        batch_dft := bd } := by
  have hxl := h.pend_lt x (List.mem_cons_self _ _)
  have hnd := List.nodup_cons.mp h.pend_nodup
  have key : ∀ (m : Nat) (d : seq_draft),
      (List.modify
          (fun d => { d with drafting := dr d.drafting, i_batch_dft := ib d.i_batch_dft }) x
          (List.modify (fun d =>
            { d with
              tokens := d.tokens ++ [id],
              ctx_sampling := llama_sampling_accept d.ctx_sampling id,
              i_batch_tgt := d.i_batch_tgt ++ [st.batch_tgt.length] }) x st.drafts))[m]? = some d →
      ∃ a, st.drafts[m]? = some a ∧ d.active = a.active ∧ d.skip = a.skip ∧
        (d.drafting = true → a.drafting = true) ∧
        (x = m → d.tokens = a.tokens ++ [id]) ∧ (¬ x = m → d = a) := by
    intro m d hd
    obtain ⟨a1, ha1, hd1⟩ := getElem?_modify_some hd
    obtain ⟨a, ha, hd2⟩ := getElem?_modify_some ha1
    refine ⟨a, ha, ?_⟩
    by_cases hxm : x = m
    · rw [if_pos hxm] at hd1 hd2
      subst hd2
      subst hd1
      exact ⟨rfl, rfl, fun e => hdr _ e, fun _ => rfl, fun hne => absurd hxm hne⟩
    · rw [if_neg hxm] at hd1 hd2
      subst hd2
      subst hd1
      exact ⟨rfl, rfl, fun e => e, fun e => absurd e hxm, fun _ => rfl⟩
  refine
    { len := ?_, cur_pos := h.cur_pos, cur_le := h.cur_le, past := h.past, fresh := ?_,
      used := ?_, owners := ?_, owned := ?_, pend_len := ?_, pend_nodup := hnd.2, pend_lt := ?_,
      pend_done := ?_, depth := ?_, n0_le := h.n0_le, skipped := ?_, count := ?_,
      log_dft := h.log_dft, own_dft := hbd }
  · simp [h.len]
  · intro m d hd hm
    obtain ⟨a, ha, h1, _, _, _, h5⟩ := key m d hd
    have hne : ¬ x = m := by
      intro e
      have : st.n_seq_cur ≤ m := hm
      omega
    rw [h5 hne]
    exact h.fresh m a ha hm
  · intro m d hd hm
    obtain ⟨a, ha, h1, _, _, h4, h5⟩ := key m d hd
    have hu := h.used m a ha hm
    refine ⟨by rw [h1]; exact hu.1, ?_⟩
    by_cases hxm : x = m
    · rw [h4 hxm]
      cases hta : a.tokens with
      | nil => rw [hta] at hu; simp at hu
      | cons t ts => rw [hta] at hu; simpa using hu.2
    · rw [h5 hxm]; exact hu.2
  · intro b hb y hy
    simp only [List.mem_append, List.mem_singleton] at hb
    rcases hb with hb | hb
    · exact h.owners b hb y hy
    · subst hb
      simp only [List.mem_singleton] at hy
      subst hy
      exact hxl
  · intro m d hd
    obtain ⟨a, ha, _, _, _, h4, h5⟩ := key m d hd
    show owned_slots m (st.batch_tgt ++ _) = _
    rw [owned_slots_append]
    by_cases hxm : x = m
    · rw [if_pos hxm.symm, h4 hxm, positions_from_append, h.owned m a ha]
      have hl := h.pend_len m a (by rw [← hxm]; exact List.mem_cons_self _ _) ha
      rw [hl, h.past]
      rfl
    · rw [if_neg (fun e => hxm e.symm), h5 hxm]
      exact h.owned m a ha
  · intro m d hm hd
    obtain ⟨a, ha, _, _, _, _, h5⟩ := key m d hd
    have hne : ¬ x = m := fun e => hnd.1 (by rw [e]; exact hm)
    rw [h5 hne]
    exact h.pend_len m a (List.mem_cons_of_mem _ hm) ha
  · intro m hm
    exact h.pend_lt m (List.mem_cons_of_mem _ hm)
  · intro m d hm hd
    obtain ⟨a, ha, _, h2, _, _, _⟩ := key m d hd
    rw [h2]
    exact h.pend_done m a (List.mem_cons_of_mem _ hm) ha
  · intro m d hd hm hdraft
    obtain ⟨a, ha, _, h2, h3, h4, h5⟩ := key m d hd
    by_cases hxm : x = m
    · have hl := h.pend_len m a (by rw [← hxm]; exact List.mem_cons_self _ _) ha
      have hdone := h.pend_done m a (by rw [← hxm]; exact List.mem_cons_self _ _) ha
      rw [h4 hxm, h2]
      have hcond : ¬ (sp ≤ m ∧ a.skip = false) := by
        rintro ⟨c1, c2⟩
        rcases hdone with hdone | hdone
        · omega
        · rw [c2] at hdone; simp at hdone
      rw [if_neg hcond]
      simp [hl]
    · rw [h5 hxm]
      apply h.depth m a ha
      · intro hmem
        rcases List.mem_cons.mp hmem with e | e
        · exact hxm e.symm
        · exact hm e
      · rw [← h5 hxm]; exact hdraft
  · intro m d hd hm1 hm2
    obtain ⟨a, ha, _, h2, _, _, _⟩ := key m d hd
    rw [h2]
    exact h.skipped m a ha hm1 hm2
  · have := h.count
    simp only [List.length_append, List.length_singleton, List.length_cons, List.length_nil] at this ⊢
    omega

theorem add_drafted_inv (params : gpt_params) (cur_p : List llama_token_data)
    {N P : Nat} {root : llama_token} {i sp n0 b0 : Nat} :
    ∀ (sa : List Nat) (is : Nat) (st : spec_state),
      draft_inv N P root i sp sa n0 b0 st →
      draft_inv N P root i sp [] n0 b0 (add_drafted params cur_p i is sa st) := by
  intro sa
  induction sa with
  | nil => intro is st h; simpa [add_drafted] using h
  | cons x rest ih =>
    intro is st h
    have hxl := h.pend_lt x (List.mem_cons_self _ _)
    have hcl := h.cur_le
    simp only [add_drafted]
    split
    · apply ih
      exact add_one_inv h _ (fun _ => false) (by simp) (fun n => n) st.batch_dft h.own_dft
    · apply ih
      refine add_one_inv h _ (fun b => b) (fun _ e => e) (fun _ => st.batch_dft.length) _ ?_
      intro b hb y hy
      simp only [List.mem_append, List.mem_singleton] at hb
      rcases hb with hb | hb
      · exact h.own_dft b hb y hy
      · subst hb
        simp only [List.mem_singleton] at hy
        omega

theorem draft_inv_advance {N P : Nat} {root : llama_token} {i s n0 b0 : Nat} {st : spec_state}
    (h : draft_inv N P root i s [] n0 b0 st)
    (hskip : ∀ d, st.drafts[s]? = some d → d.drafting = false ∨ d.skip = true) :
    draft_inv N P root i (s + 1) [] n0 b0 st := by
  refine
    { len := h.len, cur_pos := h.cur_pos, cur_le := h.cur_le, past := h.past, fresh := h.fresh,
      used := h.used, owners := h.owners, owned := h.owned, pend_len := ?_,
      pend_nodup := h.pend_nodup, pend_lt := h.pend_lt, pend_done := ?_, depth := ?_,
      n0_le := h.n0_le, skipped := h.skipped, count := ?_, log_dft := h.log_dft,
      own_dft := h.own_dft }
  · intro m d hm; simp at hm
  · intro m d hm; simp at hm
  · intro m d hd hm hdr
    have h1 := h.depth m d hd hm hdr
    by_cases hms : m = s
    · subst hms
      rcases hskip d hd with e | e
      · rw [e] at hdr; simp at hdr
      · simp [e] at h1 ⊢
        exact h1
    · have e : (s + 1 ≤ m ∧ d.skip = false) ↔ (s ≤ m ∧ d.skip = false) := by
        constructor
        · rintro ⟨a, b⟩; exact ⟨by omega, b⟩
        · rintro ⟨a, b⟩; exact ⟨by omega, b⟩
      rw [h1]
      simp only [e]
  · have := h.count
    simp only [List.length_nil] at this ⊢
    omega

theorem draft_inv_start {N P : Nat} {root : llama_token} {i s n0 b0 : Nat} {st : spec_state}
    {d : seq_draft} (h : draft_inv N P root i s [] n0 b0 st) (hd : st.drafts[s]? = some d)
    (h1 : d.drafting = true) (h2 : d.skip = false) :
    draft_inv N P root i (s + 1) [s] n0 b0 st := by
  have hsl : s < st.n_seq_cur := by
    by_contra hcon
    have := (h.fresh s d hd (by omega)).2.1
    rw [this] at h1; simp at h1
  have hsn : s < n0 := by
    by_contra hcon
    have := h.skipped s d hd (by omega) hsl
    rw [this] at h2; simp at h2
  refine
    { len := h.len, cur_pos := h.cur_pos, cur_le := h.cur_le, past := h.past, fresh := h.fresh,
      used := h.used, owners := h.owners, owned := h.owned, pend_len := ?_,
      pend_nodup := by simp, pend_lt := ?_, pend_done := ?_, depth := ?_,
      n0_le := h.n0_le, skipped := h.skipped, count := ?_, log_dft := h.log_dft,
      own_dft := h.own_dft }
  · intro m x hm hx
    simp only [List.mem_singleton] at hm
    subst hm
    rw [hd] at hx
    simp only [Option.some.injEq] at hx
    subst hx
    have := h.depth _ _ hd (by simp) h1
    simpa [h2] using this
  · intro m hm
    simp only [List.mem_singleton] at hm
    subst hm
    exact hsl
  · intro m x hm _
    simp only [List.mem_singleton] at hm
    left; omega
  · intro m x hx hm hdr
    simp only [List.mem_singleton] at hm
    have h3 := h.depth m x hx (by simp) hdr
    have e : (s + 1 ≤ m ∧ x.skip = false) ↔ (s ≤ m ∧ x.skip = false) := by
      constructor
      · rintro ⟨a, b⟩; exact ⟨by omega, b⟩
      · rintro ⟨a, b⟩; exact ⟨by omega, b⟩
    rw [h3]
    simp only [e]
  · have := h.count
    simp only [List.length_nil, List.length_singleton] at this ⊢
    omega

theorem draft_inv_stop {N P : Nat} {root : llama_token} {i sp n0 b0 : Nat} {st : spec_state}
    (h : draft_inv N P root i sp [] n0 b0 st) (s : Nat) :
    draft_inv N P root i sp [] n0 b0
      { st with drafts := List.modify (fun d => { d with drafting := false }) s st.drafts } := by
  have key : ∀ (m : Nat) (d : seq_draft),
      (List.modify (fun d : seq_draft => { d with drafting := false }) s st.drafts)[m]? = some d →
      ∃ a, st.drafts[m]? = some a ∧ d.active = a.active ∧ d.skip = a.skip ∧
        d.tokens = a.tokens ∧ (d.drafting = true → a.drafting = true) := by
    intro m d hd
    obtain ⟨a, ha, hda⟩ := getElem?_modify_some hd
    refine ⟨a, ha, ?_⟩
    by_cases hsm : s = m
    · rw [if_pos hsm] at hda
      subst hda
      exact ⟨rfl, rfl, rfl, fun e => by simp at e⟩
    · rw [if_neg hsm] at hda
      subst hda
      exact ⟨rfl, rfl, rfl, fun e => e⟩
  refine
    { len := ?_, cur_pos := h.cur_pos, cur_le := h.cur_le, past := h.past, fresh := ?_,
      used := ?_, owners := h.owners, owned := ?_, pend_len := ?_,
      pend_nodup := h.pend_nodup, pend_lt := h.pend_lt, pend_done := ?_, depth := ?_,
      n0_le := h.n0_le, skipped := ?_, count := h.count, log_dft := h.log_dft,
      own_dft := h.own_dft }
  · simp [h.len]
  · intro m d hd hm
    obtain ⟨a, ha, h1, _, h3, h4⟩ := key m d hd
    have hf := h.fresh m a ha hm
    refine ⟨by rw [h1]; exact hf.1, ?_, by rw [h3]; exact hf.2.2⟩
    by_contra hcon
    have : d.drafting = true := by simpa using hcon
    have := h4 this
    rw [hf.2.1] at this; simp at this
  · intro m d hd hm
    obtain ⟨a, ha, h1, _, h3, _⟩ := key m d hd
    rw [h1, h3]
    exact h.used m a ha hm
  · intro m d hd
    obtain ⟨a, ha, _, _, h3, _⟩ := key m d hd
    rw [h3]
    exact h.owned m a ha
  · intro m d hm; simp at hm
  · intro m d hm; simp at hm
  · intro m d hd hm hdr
    obtain ⟨a, ha, _, h2, h3, h4⟩ := key m d hd
    rw [h3, h2]
    exact h.depth m a ha hm (h4 hdr)
  · intro m d hd hm1 hm2
    obtain ⟨a, ha, _, h2, _, _⟩ := key m d hd
    rw [h2]
    exact h.skipped m a ha hm1 hm2

theorem draft_seq_inv (params : gpt_params) (cur_p : List llama_token_data)
    {N P : Nat} {root : llama_token} {i s n0 b0 : Nat} {st : spec_state}
    (hN : params.n_parallel = N) (h : draft_inv N P root i s [] n0 b0 st) :
    draft_inv N P root i (s + 1) [] n0 b0 (draft_seq params cur_p i s st) := by
  unfold draft_seq
  cases hd : st.drafts[s]? with
  | none =>
    simp only []
    exact draft_inv_advance h (fun d hd2 => by rw [hd] at hd2; simp at hd2)
  | some d =>
    simp only []
    by_cases hc : d.drafting = false ∨ d.skip = true
    · rw [if_pos hc]
      apply draft_inv_advance h
      intro x hx
      rw [hd] at hx
      simp only [Option.some.injEq] at hx
      subst hx
      exact hc
    · rw [if_neg hc]
      have h1 : d.drafting = true := by
        cases hdd : d.drafting with
        | true => rfl
        | false => exact absurd (Or.inl hdd) hc
      have h2 : d.skip = false := by
        cases hdd : d.skip with
        | false => rfl
        | true => exact absurd (Or.inr hdd) hc
      split
      · apply draft_inv_advance (draft_inv_stop h s)
        intro x hx
        obtain ⟨a, _, hxa⟩ := getElem?_modify_some hx
        rw [if_pos rfl] at hxa
        subst hxa
        left; rfl
      · apply add_drafted_inv
        apply fork_loop_inv params cur_p s hN
        · exact draft_inv_start h hd h1 h2
        · simp

theorem draft_seqs_inv (params : gpt_params) (cands : Nat → List llama_token_data)
    {N P : Nat} {root : llama_token} {i n0 b0 : Nat} (hN : params.n_parallel = N) :
    ∀ (todo s : Nat) (st : spec_state), draft_inv N P root i s [] n0 b0 st →
      draft_inv N P root i (s + todo) [] n0 b0 (draft_seqs params cands i todo s st) := by
  intro todo
  induction todo with
  | zero => intro s st h; simpa [draft_seqs] using h
  | succ todo ih =>
    intro s st h
    simp only [draft_seqs]
    have := ih (s + 1) _ (draft_seq_inv params (cands s) hN h)
    have e : s + 1 + todo = s + (todo + 1) := by omega
    rw [e] at this
    exact this

/-! ## The draft loop -/

theorem draft_step_inv (params : gpt_params) (cands : Nat → List llama_token_data)
    {N P : Nat} {root : llama_token} {i : Nat} {st : spec_state}
    (hN : params.n_parallel = N) (h : round_inv N P root i true st) :
    draft_inv N P root i N [] st.n_seq_cur st.batch_tgt.length
      (draft_step params cands i st) := by
  unfold draft_step
  have key : ∀ (m : Nat) (d : seq_draft),
      (st.drafts.map (fun d : seq_draft => { d with skip := false }))[m]? = some d →
      ∃ a, st.drafts[m]? = some a ∧ d.active = a.active ∧ d.drafting = a.drafting ∧
        d.tokens = a.tokens ∧ d.skip = false := by
    intro m d hd
    obtain ⟨a, ha, hda⟩ := getElem?_map_some hd
    subst hda
    exact ⟨a, ha, rfl, rfl, rfl, rfl⟩
  have h0 : draft_inv N P root i 0 [] st.n_seq_cur st.batch_tgt.length
      { st with batch_dft := [], drafts := st.drafts.map (fun d => { d with skip := false }) } := by
    refine
      { len := ?_, cur_pos := h.cur_pos, cur_le := h.cur_le, past := h.past, fresh := ?_,
        used := ?_, owners := h.owners, owned := ?_, pend_len := ?_,
        pend_nodup := List.nodup_nil, pend_lt := ?_, pend_done := ?_, depth := ?_,
        n0_le := Nat.le_refl _, skipped := ?_, count := ?_, log_dft := h.log_dft,
        own_dft := ?_ }
    · simp [h.len]
    · intro m d hd hm
      obtain ⟨a, ha, h1, h2, h3, _⟩ := key m d hd
      rw [h1, h2, h3]
      exact h.fresh m a ha hm
    · intro m d hd hm
      obtain ⟨a, ha, h1, _, h3, _⟩ := key m d hd
      rw [h1, h3]
      exact h.used m a ha hm
    · intro m d hd
      obtain ⟨a, ha, _, _, h3, _⟩ := key m d hd
      rw [h3]
      exact h.owned m a ha
    · intro m d hm; simp at hm
    · intro m hm; simp at hm
    · intro m d hm; simp at hm
    · intro m d hd _ hdr
      obtain ⟨a, ha, _, h2, h3, h4⟩ := key m d hd
      rw [h3, h4]
      simp only [Nat.zero_le, and_self, if_true]
      exact h.depth rfl m a ha (by rw [← h2]; exact hdr)
    · intro m d _ hm1 hm2
      have : st.n_seq_cur ≤ m := hm1
      have : m < st.n_seq_cur := hm2
      omega
    · simp
    · intro b hb; simp at hb
  have := draft_seqs_inv params cands hN N 0 _ h0
  simpa [hN] using this

theorem draft_inv_round {N P : Nat} {root : llama_token} {i n0 b0 : Nat} {st : spec_state}
    (h : draft_inv N P root i N [] n0 b0 st) :
    round_inv N P root (i + 1) true st ∧ st.batch_tgt.length ≤ b0 + st.n_seq_cur := by
  constructor
  · refine
      { len := h.len, cur_pos := h.cur_pos, cur_le := h.cur_le, past := h.past,
        fresh := h.fresh, used := h.used, owners := h.owners, owned := h.owned, depth := ?_,
        log_dft := h.log_dft, own_dft := h.own_dft }
    intro _ m d hd hdr
    have hm : m < N := by
      have := (List.getElem?_eq_some.mp hd).1
      rw [h.len] at this
      exact this
    have := h.depth m d hd (by simp) hdr
    have hc : ¬ (N ≤ m ∧ d.skip = false) := fun c => by omega
    rw [if_neg hc] at this
    exact this
  · have h1 := h.count
    have h2 := h.n0_le
    have h3 := h.cur_le
    simp only [List.length_nil] at h1
    have : min N n0 = n0 := by omega
    omega

theorem round_inv_weaken {N P : Nat} {root : llama_token} {i : Nat} {b : Bool}
    {st : spec_state} (h : round_inv N P root i b st) : round_inv N P root 0 false st :=
  { len := h.len, cur_pos := h.cur_pos, cur_le := h.cur_le, past := h.past,
    fresh := h.fresh, used := h.used, owners := h.owners, owned := h.owned,
    depth := fun e => by simp at e, log_dft := h.log_dft, own_dft := h.own_dft }

theorem round_inv_decode {N P : Nat} {root : llama_token} {i : Nat} {b : Bool}
    {st : spec_state} (h : round_inv N P root i b st) :
    round_inv N P root i b
      { st with
        ctx_dft := st.ctx_dft ++ [kv_call.decode st.batch_dft],
        n_past_cur := st.n_past_cur + 1,
        n_drafted := st.n_drafted + 1 } := by
  refine
    { len := h.len, cur_pos := h.cur_pos, cur_le := h.cur_le, past := h.past,
      fresh := h.fresh, used := h.used, owners := h.owners, owned := h.owned,
      depth := h.depth, log_dft := ?_, own_dft := h.own_dft }
  intro c hc y hy
  simp only [List.mem_append, List.mem_singleton] at hc
  rcases hc with hc | hc
  · exact h.log_dft c hc y hy
  · subst hc
    simp only [kv_call_seq_ids, List.mem_flatten, List.mem_map] at hy
    obtain ⟨l, ⟨b1, hb1, rfl⟩, hy⟩ := hy
    exact h.own_dft b1 hb1 y hy

theorem draft_loop_inv (params : gpt_params) (cands : Nat → Nat → List llama_token_data)
    {N P : Nat} {root : llama_token} (hN : params.n_parallel = N) :
    ∀ (todo i : Nat) (st : spec_state), round_inv N P root i true st →
      st.batch_tgt.length ≤ max 1 (params.n_draft - 1) →
      round_inv N P root 0 false (draft_loop params cands todo i st) ∧
      (draft_loop params cands todo i st).batch_tgt.length ≤
        max 1 (params.n_draft - 1) + N := by
  intro todo
  induction todo with
  | zero =>
    intro i st h hb
    simp only [draft_loop]
    exact ⟨round_inv_weaken h, by omega⟩
  | succ todo ih =>
    intro i st h hb
    obtain ⟨h1, h2⟩ := draft_inv_round (draft_step_inv params (cands i) hN h)
    have h3 := h1.cur_le
    simp only [draft_loop]
    split
    · exact ⟨round_inv_weaken h1, by omega⟩
    · split
      · exact ⟨round_inv_weaken (round_inv_decode h1), by simp only []; omega⟩
      · rename_i hlt
        apply ih
        · exact round_inv_decode h1
        · simp only [] at hlt ⊢
          omega

/-! ## Start of a round -/

theorem sync_samplers_length (tgt : llama_sampling_context) :
    ∀ (todo i : Nat) (ds : List seq_draft), (sync_samplers tgt todo i ds).length = ds.length := by
  intro todo
  induction todo with
  | zero => intro i ds; rfl
  | succ todo ih =>
    intro i ds
    simp only [sync_samplers]
    rw [ih]
    split <;> simp

theorem sync_samplers_getElem? (tgt : llama_sampling_context) :
    ∀ (todo i : Nat) (ds : List seq_draft) (m : Nat) (d : seq_draft),
      (sync_samplers tgt todo i ds)[m]? = some d →
      ∃ a, ds[m]? = some a ∧ d.active = a.active ∧ d.drafting = a.drafting ∧
        d.skip = a.skip ∧ d.tokens = a.tokens ∧ d.i_batch_tgt = a.i_batch_tgt ∧
        d.i_batch_dft = a.i_batch_dft := by
  intro todo
  induction todo with
  | zero =>
    intro i ds m d h
    exact ⟨d, h, rfl, rfl, rfl, rfl, rfl, rfl⟩
  | succ todo ih =>
    intro i ds m d h
    simp only [sync_samplers] at h
    obtain ⟨a1, ha1, h1⟩ := ih _ _ _ _ h
    obtain ⟨a2, ha2, h2⟩ := getElem?_modify_some ha1
    have e2 : a1.active = a2.active ∧ a1.drafting = a2.drafting ∧ a1.skip = a2.skip ∧
        a1.tokens = a2.tokens ∧ a1.i_batch_tgt = a2.i_batch_tgt ∧
        a1.i_batch_dft = a2.i_batch_dft := by
      rw [h2]
      split <;> exact ⟨rfl, rfl, rfl, rfl, rfl, rfl⟩
    by_cases hg : tgt.grammar.isSome = true
    · rw [if_pos hg] at ha2
      obtain ⟨a3, ha3, h3⟩ := getElem?_modify_some ha2
      have e3 : a2.active = a3.active ∧ a2.drafting = a3.drafting ∧ a2.skip = a3.skip ∧
          a2.tokens = a3.tokens ∧ a2.i_batch_tgt = a3.i_batch_tgt ∧
          a2.i_batch_dft = a3.i_batch_dft := by
        rw [h3]
        split <;> exact ⟨rfl, rfl, rfl, rfl, rfl, rfl⟩
      refine ⟨a3, ha3, ?_, ?_, ?_, ?_, ?_, ?_⟩
      · rw [h1.1, e2.1, e3.1]
      · rw [h1.2.1, e2.2.1, e3.2.1]
      · rw [h1.2.2.1, e2.2.2.1, e3.2.2.1]
      · rw [h1.2.2.2.1, e2.2.2.2.1, e3.2.2.2.1]
      · rw [h1.2.2.2.2.1, e2.2.2.2.2.1, e3.2.2.2.2.1]
      · rw [h1.2.2.2.2.2, e2.2.2.2.2.2, e3.2.2.2.2.2]
    · rw [if_neg hg] at ha2
      refine ⟨a2, ha2, ?_, ?_, ?_, ?_, ?_, ?_⟩
      · rw [h1.1, e2.1]
      · rw [h1.2.1, e2.2.1]
      · rw [h1.2.2.1, e2.2.2.1]
      · rw [h1.2.2.2.1, e2.2.2.2.1]
      · rw [h1.2.2.2.2.1, e2.2.2.2.2.1]
      · rw [h1.2.2.2.2.2, e2.2.2.2.2.2]

theorem round_init_inv {N : Nat} {inp : List llama_token} {st : spec_state}
    (params : gpt_params) (hN : 1 ≤ N) (h : run_inv N inp st) :
    round_inv N st.n_past_tgt st.id 0 true
      (round_start params st) ∧
    (round_start params st).batch_tgt.length = 1 := by
  obtain ⟨d0, hd0, ht0⟩ := h.pool0
  have hlen : (sync_samplers st.ctx_sampling params.n_parallel 0 st.drafts).length = N := by
    rw [sync_samplers_length, h.len]
  obtain ⟨e0, he0⟩ := getElem?_some_of_lt
    (l := sync_samplers st.ctx_sampling params.n_parallel 0 st.drafts) (m := 0) (by omega)
  have hroot : e0.tokens = [st.id] := by
    obtain ⟨a, ha, h1⟩ := sync_samplers_getElem? _ _ _ _ _ _ he0
    rw [hd0] at ha
    simp only [Option.some.injEq] at ha
    subst ha
    rw [h1.2.2.2.1, ht0]
  have key : ∀ (m : Nat) (d : seq_draft),
      (round_start params st).drafts[m]? = some d →
      ∃ a, st.drafts[m]? = some a ∧ d.tokens = a.tokens ∧
        d.active = decide (m = 0) ∧ d.drafting = decide (m = 0) := by
    intro m d hd
    simp only [round_start, round_init] at hd
    obtain ⟨a1, ha1, h1⟩ := getElem?_modify_some hd
    obtain ⟨a2, ha2, h2⟩ := getElem?_map_some ha1
    obtain ⟨a3, ha3, h3⟩ := sync_samplers_getElem? _ _ _ _ _ _ ha2
    refine ⟨a3, ha3, ?_⟩
    by_cases hm : 0 = m
    · rw [if_pos hm] at h1
      subst h1
      subst h2
      subst hm
      exact ⟨h3.2.2.2.1, by simp, by simp⟩
    · rw [if_neg hm] at h1
      subst h1
      subst h2
      have : ¬ m = 0 := fun e => hm e.symm
      exact ⟨h3.2.2.2.1, by simp [this], by simp [this]⟩
  have hbatch : (round_start params st).batch_tgt =
      [{ token := st.id, pos := st.n_past_tgt, seq_id := [0], logits := true }] := by
    simp [round_start, round_init, he0, hroot]
  refine ⟨?_, by rw [hbatch]; rfl⟩
  refine
    { len := ?_, cur_pos := ?_, cur_le := ?_, past := ?_, fresh := ?_, used := ?_,
      owners := ?_, owned := ?_, depth := ?_, log_dft := ?_, own_dft := ?_ }
  · simp [round_start, round_init, hlen]
  · simp [round_start, round_init]
  · simpa [round_start, round_init] using hN
  · simp [round_start, round_init]
  · intro m d hd hm
    obtain ⟨a, ha, h1, h2, h3⟩ := key m d hd
    have hm0 : ¬ m = 0 := by
      simp only [round_start, round_init] at hm
      omega
    refine ⟨by simp [h2, hm0], by simp [h3, hm0], ?_⟩
    rw [h1]
    exact h.pool m a (by omega) ha
  · intro m d hd hm
    obtain ⟨a, ha, h1, h2, h3⟩ := key m d hd
    have hm0 : m = 0 := by
      simp only [round_start, round_init] at hm
      omega
    subst hm0
    rw [hd0] at ha
    simp only [Option.some.injEq] at ha
    subst ha
    refine ⟨by simp [h2], ?_⟩
    rw [h1, ht0]
    rfl
  · rw [hbatch]
    intro b hb y hy
    simp only [List.mem_singleton] at hb
    subst hb
    simp only [List.mem_singleton] at hy
    simp [round_start, round_init, hy]
  · intro m d hd
    obtain ⟨a, ha, h1, _, _⟩ := key m d hd
    rw [hbatch, h1]
    by_cases hm0 : m = 0
    · subst hm0
      rw [hd0] at ha
      simp only [Option.some.injEq] at ha
      subst ha
      rw [ht0]
      simp [owned_slots, positions_from]
    · rw [h.pool m a (by omega) ha]
      simp [owned_slots, positions_from, hm0]
  · intro _ m d hd hdr
    obtain ⟨a, ha, h1, _, h3⟩ := key m d hd
    have hm0 : m = 0 := by
      by_contra hcon
      rw [h3] at hdr
      simp [hcon] at hdr
    subst hm0
    rw [hd0] at ha
    simp only [Option.some.injEq] at ha
    subst ha
    rw [h1, ht0]
    rfl
  · simpa [round_start, round_init] using h.log_dft
  · simpa [round_start, round_init] using h.own_dft

/-! ## What the draft loop leaves alone -/

theorem draft_frame_refl (st : spec_state) : draft_frame st st :=
  ⟨rfl, rfl, rfl, rfl, rfl, rfl, rfl, rfl, rfl, rfl⟩

theorem draft_frame_trans {a b c : spec_state} (h1 : draft_frame a b) (h2 : draft_frame b c) :
    draft_frame a c := by
  obtain ⟨a1, a2, a3, a4, a5, a6, a7, a8, a9, a10⟩ := h1
  obtain ⟨b1, b2, b3, b4, b5, b6, b7, b8, b9, b10⟩ := h2
  exact ⟨b1.trans a1, b2.trans a2, b3.trans a3, b4.trans a4, b5.trans a5, b6.trans a6,
    b7.trans a7, b8.trans a8, b9.trans a9, b10.trans a10⟩

theorem fork_loop_frame (params : gpt_params) (cur_p : List llama_token_data) (s : Nat) :
    ∀ (todo f : Nat) (st : spec_state) (sa : List Nat),
      draft_frame st (fork_loop params cur_p s todo f st sa).1 := by
  intro todo
  induction todo with
  | zero => intro f st sa; exact draft_frame_refl st
  | succ todo ih =>
    intro f st sa
    simp only [fork_loop]
    split
    · exact draft_frame_trans (by exact ⟨rfl, rfl, rfl, rfl, rfl, rfl, rfl, rfl, rfl, rfl⟩)
        (ih _ _ _)
    · exact draft_frame_refl st

theorem add_drafted_frame (params : gpt_params) (cur_p : List llama_token_data) (i : Nat) :
    ∀ (sa : List Nat) (is : Nat) (st : spec_state),
      draft_frame st (add_drafted params cur_p i is sa st) := by
  intro sa
  induction sa with
  | nil => intro is st; exact draft_frame_refl st
  | cons x rest ih =>
    intro is st
    simp only [add_drafted]
    split
    · exact draft_frame_trans (by exact ⟨rfl, rfl, rfl, rfl, rfl, rfl, rfl, rfl, rfl, rfl⟩)
        (ih _ _)
    · exact draft_frame_trans (by exact ⟨rfl, rfl, rfl, rfl, rfl, rfl, rfl, rfl, rfl, rfl⟩)
        (ih _ _)

theorem draft_seq_frame (params : gpt_params) (cur_p : List llama_token_data) (i s : Nat)
    (st : spec_state) : draft_frame st (draft_seq params cur_p i s st) := by
  unfold draft_seq
  split
  · exact draft_frame_refl st
  · split
    · exact draft_frame_refl st
    · split
      · exact ⟨rfl, rfl, rfl, rfl, rfl, rfl, rfl, rfl, rfl, rfl⟩
      · exact draft_frame_trans (fork_loop_frame _ _ _ _ _ _ _) (add_drafted_frame _ _ _ _ _ _)

theorem draft_seqs_frame (params : gpt_params) (cands : Nat → List llama_token_data) (i : Nat) :
    ∀ (todo s : Nat) (st : spec_state), draft_frame st (draft_seqs params cands i todo s st) := by
  intro todo
  induction todo with
  | zero => intro s st; exact draft_frame_refl st
  | succ todo ih =>
    intro s st
    simp only [draft_seqs]
    exact draft_frame_trans (draft_seq_frame _ _ _ _ _) (ih _ _)

theorem draft_step_frame (params : gpt_params) (cands : Nat → List llama_token_data) (i : Nat)
    (st : spec_state) : draft_frame st (draft_step params cands i st) := by
  unfold draft_step
  exact draft_frame_trans (by exact ⟨rfl, rfl, rfl, rfl, rfl, rfl, rfl, rfl, rfl, rfl⟩)
    (draft_seqs_frame _ _ _ _ _ _)

theorem draft_loop_frame (params : gpt_params) (cands : Nat → Nat → List llama_token_data) :
    ∀ (todo i : Nat) (st : spec_state), draft_frame st (draft_loop params cands todo i st) := by
  intro todo
  induction todo with
  | zero => intro i st; exact draft_frame_refl st
  | succ todo ih =>
    intro i st
    simp only [draft_loop]
    split
    · exact draft_step_frame _ _ _ _
    · split
      · exact draft_frame_trans (draft_step_frame params (cands i) i st)
          (by exact ⟨rfl, rfl, rfl, rfl, rfl, rfl, rfl, rfl, rfl, rfl⟩)
      · refine draft_frame_trans
          (draft_frame_trans (draft_step_frame params (cands i) i st) ?_) (ih _ _)
        exact ⟨rfl, rfl, rfl, rfl, rfl, rfl, rfl, rfl, rfl, rfl⟩

theorem round_start_frame (params : gpt_params) (st : spec_state) :
    draft_frame st (round_start params st) :=
  ⟨rfl, rfl, rfl, rfl, rfl, rfl, rfl, rfl, rfl, rfl⟩

/-! ## The cache model -/

theorem kv_cache_append (l1 l2 : List kv_call) :
    kv_cache (l1 ++ l2) = l2.foldl kv_apply (kv_cache l1) := by
  simp [kv_cache, List.foldl_append]

theorem kv_in_range_open (n : Nat) (pos : Nat) :
    kv_in_range (n : Int) (-1) pos = decide (n ≤ pos) := by
  simp [kv_in_range]

theorem kv_in_range_all (pos : Nat) : kv_in_range (-1) (-1) pos = true := by
  simp [kv_in_range]

theorem kv_seq_rm_cons (k : Nat) (p0 p1 : Int) (c : kv_cell) (cs : List kv_cell) :
    kv_seq_rm k p0 p1 (c :: cs) = kv_seq_rm k p0 p1 [c] ++ kv_seq_rm k p0 p1 cs := by
  have e : c :: cs = [c] ++ cs := rfl
  rw [e]
  simp only [kv_seq_rm, List.map_append, List.filter_append]

theorem kv_seq_keep_append (k : Nat) (a b : List kv_cell) :
    kv_seq_keep k (a ++ b) = kv_seq_keep k a ++ kv_seq_keep k b := by
  simp [kv_seq_keep]

theorem kv_seq_keep_rm_one (k : Nat) (p0 p1 : Int) (c : kv_cell) :
    kv_seq_keep k (kv_seq_rm k p0 p1 [c]) =
      if k ∈ c.seq_id ∧ kv_in_range p0 p1 c.pos = false then [{ c with seq_id := [k] }]
      else [] := by
  by_cases hk : k ∈ c.seq_id
  · by_cases hr : kv_in_range p0 p1 c.pos = true
    · have hnot : k ∉ c.seq_id.filter (fun s => decide (s ≠ k)) := by simp
      by_cases hne : (c.seq_id.filter (fun s => decide (s ≠ k))) = []
      · simp [kv_seq_keep, kv_seq_rm, hk, hr, hne]
      · have hne2 : ¬ List.filter (fun s => !decide (s = k)) c.seq_id = [] := by
          simpa using hne
        simp [kv_seq_keep, kv_seq_rm, hk, hr, hne2]
    · have hne : c.seq_id ≠ [] := fun e => by rw [e] at hk; simp at hk
      have hr2 : kv_in_range p0 p1 c.pos = false := by simpa using hr
      simp [kv_seq_keep, kv_seq_rm, hk, hr2, hne]
  · by_cases hne : c.seq_id = []
    · simp [kv_seq_keep, kv_seq_rm, hk, hne]
    · simp [kv_seq_keep, kv_seq_rm, hk, hne]

theorem kv_seq_keep_rm (k : Nat) (p0 p1 : Int) (cells : List kv_cell) :
    kv_seq_keep k (kv_seq_rm k p0 p1 cells) =
      (cells.filter (fun c => decide (k ∈ c.seq_id) && !kv_in_range p0 p1 c.pos)).map
        (fun c => { c with seq_id := [k] }) := by
  induction cells with
  | nil => simp [kv_seq_keep, kv_seq_rm]
  | cons c cs ih =>
    rw [kv_seq_rm_cons, kv_seq_keep_append, ih, kv_seq_keep_rm_one, List.filter_cons]
    by_cases hk : k ∈ c.seq_id
    · by_cases hr : kv_in_range p0 p1 c.pos = true
      · simp [hk, hr]
      · have hr2 : kv_in_range p0 p1 c.pos = false := by simpa using hr
        simp [hk, hr2]
    · simp [hk]

theorem kv_promote (k : Nat) (cells : List kv_cell) :
    kv_seq_keep 0 (kv_seq_cp k 0 (-1) (-1) (cells.map (fun c => { c with seq_id := [k] }))) =
      cells.map (fun c => { c with seq_id := [0] }) := by
  induction cells with
  | nil => simp [kv_seq_keep, kv_seq_cp]
  | cons c cs ih =>
    have e : kv_seq_cp k 0 (-1) (-1) (List.map (fun c => { c with seq_id := [k] }) (c :: cs)) =
        kv_seq_cp k 0 (-1) (-1) [{ c with seq_id := [k] }] ++
          kv_seq_cp k 0 (-1) (-1) (List.map (fun c => { c with seq_id := [k] }) cs) := by
      simp [kv_seq_cp]
    rw [e, kv_seq_keep_append, ih]
    by_cases hk : k = 0
    · subst hk
      simp [kv_seq_keep, kv_seq_cp]
    · have h0 : ¬ 0 = k := fun e => hk e.symm
      simp [kv_seq_keep, kv_seq_cp, kv_in_range_all, h0]

theorem kv_reconcile_tgt (k n : Nat) (cells : List kv_cell) :
    [kv_call.seq_rm k (n : Int) (-1), kv_call.seq_keep k, kv_call.seq_cp k 0 (-1) (-1),
      kv_call.seq_keep 0].foldl kv_apply cells =
      (cells.filter (fun c => decide (k ∈ c.seq_id) && decide (c.pos < n))).map
        (fun c => { c with seq_id := [0] }) := by
  simp only [List.foldl_cons, List.foldl_nil, kv_apply]
  rw [kv_seq_keep_rm, kv_promote]
  congr 1
  apply List.filter_congr
  intro c _
  rw [kv_in_range_open]
  by_cases h : n ≤ c.pos
  · have : ¬ c.pos < n := by omega
    simp [h, this]
  · have : c.pos < n := by omega
    simp [h, this]

theorem kv_copy_all (cells : List kv_cell) (hc : ∀ c ∈ cells, c.seq_id = [0]) :
    ∀ m : Nat,
      ((List.range' 1 m).map (fun s => kv_call.seq_cp 0 s (-1) (-1))).foldl kv_apply cells =
        cells.map (fun c => { c with seq_id := List.range (m + 1) }) := by
  intro m
  induction m with
  | zero =>
    simp only [List.range'_zero, List.map_nil, List.foldl_nil]
    symm
    conv_rhs => rw [← List.map_id cells]
    apply List.map_congr_left
    intro c hcm
    have := hc c hcm
    cases c
    simp_all [List.range_succ]
  | succ m ih =>
    rw [List.range'_concat, List.map_append, List.foldl_append, ih]
    simp only [List.map_cons, List.map_nil, List.foldl_cons, List.foldl_nil, kv_apply,
      kv_seq_cp, List.map_map]
    apply List.map_congr_left
    intro c _
    have e : 1 + 1 * m = m + 1 := by omega
    simp only [Function.comp, kv_in_range_all, List.mem_range, Nat.zero_lt_succ, true_and, e]
    have h1 : ¬ (m + 1 < m + 1) := by omega
    rw [if_pos h1, ← List.range_succ]

theorem kv_seq_keep_zero (cells : List kv_cell) (hc : ∀ c ∈ cells, c.seq_id = [0]) :
    kv_seq_keep 0 cells = cells := by
  induction cells with
  | nil => simp [kv_seq_keep]
  | cons c cs ih =>
    have h1 := hc c (List.mem_cons_self _ _)
    have h2 := ih (fun x hx => hc x (List.mem_cons_of_mem _ hx))
    have e : kv_seq_keep 0 (c :: cs) = kv_seq_keep 0 [c] ++ kv_seq_keep 0 cs :=
      kv_seq_keep_append 0 [c] cs
    rw [e, h2]
    cases c
    simp_all [kv_seq_keep]

/-! ## Positions -/

theorem positions_from_nil (p : Nat) : positions_from p [] = [] := rfl

theorem positions_from_cons (p : Nat) (t : llama_token) (ts : List llama_token) :
    positions_from p (t :: ts) = (p, t) :: positions_from (p + 1) ts := by
  simp [positions_from, List.range'_succ]

theorem positions_from_app (p : Nat) (a b : List llama_token) :
    positions_from p (a ++ b) = positions_from p a ++ positions_from (p + a.length) b := by
  induction a generalizing p with
  | nil => simp [positions_from_nil]
  | cons t ts ih =>
    simp only [List.cons_append, positions_from_cons, ih, List.length_cons]
    have e : p + 1 + ts.length = p + (ts.length + 1) := by omega
    rw [e]

theorem positions_from_filter (p j : Nat) (toks : List llama_token) :
    (positions_from p toks).filter (fun pt => decide (pt.1 < p + j)) =
      positions_from p (toks.take j) := by
  induction toks generalizing p j with
  | nil => simp [positions_from_nil]
  | cons t ts ih =>
    cases j with
    | zero =>
      simp only [Nat.add_zero, List.take_zero, positions_from_nil]
      rw [List.filter_eq_nil_iff]
      intro x hx
      simp only [positions_from] at hx
      have := List.of_mem_zip hx
      have h1 := (List.mem_range'_1.mp this.1).1
      simp only [decide_eq_true_eq]
      omega
    | succ j =>
      simp only [List.take_succ_cons, positions_from_cons, List.filter_cons]
      have h1 : p < p + (j + 1) := by omega
      simp only [h1, decide_True, if_true]
      have e : p + (j + 1) = p + 1 + j := by omega
      rw [e, ih]

theorem positions_from_pos (p : Nat) (toks : List llama_token) :
    ∀ pt ∈ positions_from p toks, p ≤ pt.1 ∧ pt.1 < p + toks.length := by
  intro pt h
  simp only [positions_from] at h
  have := List.of_mem_zip h
  have h1 := List.mem_range'_1.mp this.1
  omega

theorem enumFrom_positions (toks : List llama_token) :
    ∀ (k p : Nat), (toks.enumFrom k).map (fun it => (p + it.1, it.2)) =
      positions_from (p + k) toks := by
  induction toks with
  | nil => intro k p; simp [positions_from_nil]
  | cons t ts ih =>
    intro k p
    simp only [List.enumFrom_cons, List.map_cons, positions_from_cons]
    rw [ih (k + 1) p]
    rfl

theorem cells_of_get_one (toks : List llama_token) (p s : Nat) :
    (llama_batch_get_one toks p s).map
        (fun b => ({ pos := b.pos, token := b.token, seq_id := b.seq_id } : kv_cell)) =
      (positions_from p toks).map (fun pt => { pos := pt.1, token := pt.2, seq_id := [s] }) := by
  have := enumFrom_positions toks 0 p
  simp only [Nat.add_zero] at this
  rw [← this]
  simp [llama_batch_get_one, List.enum, List.map_map, Function.comp_def]

theorem kv_cache_prompt (params : gpt_params) (inp : List llama_token) :
    kv_cache (init_state params inp).ctx_tgt = cache_of_tokens inp := by
  simp only [init_state, kv_cache, List.foldl_cons, List.foldl_nil, kv_apply, kv_decode,
    List.nil_append, cells_of_get_one, cache_of_tokens]
  rw [← List.map_append]
  congr 1
  have e : positions_from 0 inp =
      positions_from 0 (inp.take (inp.length - 1) ++ inp.drop (inp.length - 1)) := by
    rw [List.take_append_drop]
  rw [e, positions_from_app]
  simp only [Nat.zero_add, List.length_take]
  have : min (inp.length - 1) inp.length = inp.length - 1 := by omega
  rw [this]

theorem cache_of_tokens_seq (toks : List llama_token) :
    ∀ c ∈ cache_of_tokens toks, c.seq_id = [0] ∧ c.pos < toks.length := by
  intro c hc
  simp only [cache_of_tokens, List.mem_map] at hc
  obtain ⟨pt, hpt, rfl⟩ := hc
  have := positions_from_pos 0 toks pt hpt
  exact ⟨rfl, by simpa using this.2⟩

theorem cache_of_tokens_app (a b : List llama_token) :
    cache_of_tokens (a ++ b) = cache_of_tokens a ++
      (positions_from a.length b).map (fun pt => { pos := pt.1, token := pt.2, seq_id := [0] }) := by
  simp [cache_of_tokens, positions_from_app]

/-! ## From one reconciliation to the next -/

theorem take_eq_map_range (l : List llama_token) (f : Nat → llama_token) :
    ∀ k : Nat, (∀ j, j < k → l[j]? = some (f j)) → l.take k = (List.range k).map f := by
  intro k
  induction k with
  | zero => intro _; simp
  | succ k ih =>
    intro h
    rw [List.take_succ, ih (fun j hj => h j (by omega)), h k (by omega), List.range_succ]
    simp

theorem owned_cells_filter (k n : Nat) (batch : List llama_batch_slot) :
    ((batch.map (fun b => ({ pos := b.pos, token := b.token, seq_id := b.seq_id } : kv_cell))).filter
        (fun c => decide (k ∈ c.seq_id) && decide (c.pos < n))).map
        (fun c => { c with seq_id := [0] }) =
      ((owned_slots k batch).filter (fun pt => decide (pt.1 < n))).map
        (fun pt => ({ pos := pt.1, token := pt.2, seq_id := [0] } : kv_cell)) := by
  unfold owned_slots
  induction batch with
  | nil => simp
  | cons b bs ih =>
    simp only [List.map_cons, List.filter_cons]
    by_cases hk : k ∈ b.seq_id
    · by_cases hn : b.pos < n
      · simp only [hk, hn, decide_True, Bool.and_self, if_true, List.map_cons, List.filter_cons]
        rw [ih]
      · simp only [hk, hn, decide_True, decide_False, Bool.and_false, Bool.false_eq_true,
          if_false, if_true, List.map_cons, List.filter_cons]
        rw [ih]
    · simp only [hk, decide_False, Bool.false_and, Bool.false_eq_true, if_false]
      rw [ih]

theorem draft_phase_drafts (params : gpt_params) (cands : Nat → Nat → List llama_token_data)
    (st : spec_state) :
    (draft_phase params cands st).drafts =
      (draft_loop params cands params.n_draft 0 (round_start params st)).drafts.map
        (fun d => if d.active = true then { d with tokens := d.tokens.tail } else d) := rfl

theorem draft_phase_ctx_tgt (params : gpt_params) (cands : Nat → Nat → List llama_token_data)
    (st : spec_state) :
    (draft_phase params cands st).ctx_tgt =
      (draft_loop params cands params.n_draft 0 (round_start params st)).ctx_tgt ++
        [kv_call.seq_keep 0] ++
        (List.range' 1 (params.n_parallel - 1)).map (fun s => kv_call.seq_cp 0 s (-1) (-1)) ++
        [kv_call.decode
          (draft_loop params cands params.n_draft 0 (round_start params st)).batch_tgt] := rfl

theorem kv_cache_eval_target (N : Nat) (hN : 1 ≤ N) (calls : List kv_call)
    (hist : List llama_token) (batch : List llama_batch_slot)
    (hc : kv_cache calls = cache_of_tokens hist) :
    kv_cache (calls ++ [kv_call.seq_keep 0] ++
        (List.range' 1 (N - 1)).map (fun s => kv_call.seq_cp 0 s (-1) (-1)) ++
        [kv_call.decode batch]) =
      (cache_of_tokens hist).map (fun c => { c with seq_id := List.range N }) ++
        batch.map (fun b => { pos := b.pos, token := b.token, seq_id := b.seq_id }) := by
  rw [kv_cache_append, kv_cache_append, kv_cache_append, hc]
  simp only [List.foldl_cons, List.foldl_nil, kv_apply, kv_decode]
  rw [kv_seq_keep_zero _ (fun c h => (cache_of_tokens_seq hist c h).1)]
  rw [kv_copy_all _ (fun c h => (cache_of_tokens_seq hist c h).1)]
  have e : N - 1 + 1 = N := by omega
  rw [e]

theorem kv_cache_reconcile (N : Nat) (k n : Nat) (hk : k < N) (hist : List llama_token)
    (hn : hist.length ≤ n) (batch : List llama_batch_slot) (calls : List kv_call)
    (hc : kv_cache calls =
      (cache_of_tokens hist).map (fun c => { c with seq_id := List.range N }) ++
        batch.map (fun b => { pos := b.pos, token := b.token, seq_id := b.seq_id })) :
    kv_cache (calls ++ [kv_call.seq_rm k (n : Int) (-1), kv_call.seq_keep k,
        kv_call.seq_cp k 0 (-1) (-1), kv_call.seq_keep 0]) =
      cache_of_tokens hist ++
        ((owned_slots k batch).filter (fun pt => decide (pt.1 < n))).map
          (fun pt => ({ pos := pt.1, token := pt.2, seq_id := [0] } : kv_cell)) := by
  rw [kv_cache_append, kv_reconcile_tgt, hc, List.filter_append, List.map_append,
    owned_cells_filter]
  congr 1
  have hall : ∀ c ∈ (cache_of_tokens hist).map (fun c => { c with seq_id := List.range N }),
      (decide (k ∈ c.seq_id) && decide (c.pos < n)) = true := by
    intro c hc
    obtain ⟨c0, hc0, rfl⟩ := List.mem_map.mp hc
    have := (cache_of_tokens_seq hist c0 hc0).2
    have h1 : c0.pos < n := by omega
    simp [hk, h1]
  rw [List.filter_eq_self.mpr hall, List.map_map]
  conv_rhs => rw [← List.map_id (cache_of_tokens hist)]
  apply List.map_congr_left
  intro c hc
  have := (cache_of_tokens_seq hist c hc).1
  cases c
  simp_all

theorem reconcile_pool (v : spec_state) (hlen : 0 < v.drafts.length) :
    (reconcile v).drafts.length = v.drafts.length ∧
    (∃ d, (reconcile v).drafts[0]? = some d ∧ d.tokens = [v.id]) ∧
    (∀ (s : Nat) (d : seq_draft), 0 < s → (reconcile v).drafts[s]? = some d → d.tokens = []) := by
  refine ⟨by simp [reconcile], ?_, ?_⟩
  · obtain ⟨a, ha⟩ := getElem?_some_of_lt hlen
    simp only [reconcile]
    rw [getElem?_modify_eq, List.getElem?_map, ha]
    simp
  · intro s d hs hd
    simp only [reconcile] at hd
    obtain ⟨a1, ha1, h1⟩ := getElem?_modify_some hd
    obtain ⟨a2, _, h2⟩ := getElem?_map_some ha1
    have : ¬ 0 = s := by omega
    rw [if_neg this] at h1
    subst h1
    subst h2
    rfl

theorem out_getLast (out : List llama_token) (sample : Nat → llama_token) (k : Nat) :
    (out ++ (List.range' 0 (k + 1 - 0)).map sample).getLast? = some (sample k) := by
  rw [Nat.sub_zero, List.range'_concat]
  simp [← List.append_assoc]

theorem out_dropLast (out : List llama_token) (sample : Nat → llama_token) (k : Nat) :
    (out ++ (List.range' 0 (k + 1 - 0)).map sample).dropLast =
      out ++ (List.range k).map sample := by
  rw [Nat.sub_zero, List.range'_concat, List.map_append, ← List.append_assoc]
  simp only [List.map_cons, List.map_nil, List.dropLast_concat, List.range_eq_range']

theorem dropLast_append_getLast (out : List llama_token) (x : llama_token)
    (h : out.getLast? = some x) : out.dropLast ++ [x] = out := by
  have hne : out ≠ [] := by
    intro e
    rw [e] at h
    simp at h
  rw [List.getLast?_eq_getLast _ hne] at h
  simp only [Option.some.injEq] at h
  rw [← h]
  exact List.dropLast_append_getLast hne

theorem run_inv_step (params : gpt_params) (cands : Nat → Nat → List llama_token_data)
    (sample : Nat → llama_token) {N : Nat} {inp : List llama_token} {st v : spec_state}
    (hN : params.n_parallel = N) (h1 : 1 ≤ N) (h : run_inv N inp st)
    (hv : verify params sample (draft_phase params cands st) = some v) :
    run_inv N inp (decode_root (reconcile v)) := by
  obtain ⟨R0, hb0⟩ := round_init_inv params h1 h
  obtain ⟨R, _⟩ := draft_loop_inv params cands hN params.n_draft 0 _ R0 (by rw [hb0]; omega)
  obtain ⟨f1, f2, f3, _, _, _, _, _, _, f10⟩ :=
    draft_frame_trans (round_start_frame params st)
      (draft_loop_frame params cands params.n_draft 0 (round_start params st))
  unfold verify at hv
  have hf := verify_loop_frame params sample _ _ _ hv
  have ho := verify_loop_out params sample _ _ _ hv
  have hd := verify_loop_drafts params sample _ _ _ hv
  obtain ⟨hk1, hk2, _⟩ := verify_loop_kept params sample _ _ _ hv
  dsimp only at hf ho hd hk1 hk2
  simp only [Nat.sub_zero, Nat.zero_le, true_implies] at hf hk2
  have hpast : v.n_past_tgt = st.n_past_tgt + 1 + v.i_dft := by
    rw [hf.2.2.1]
    show (draft_loop params cands params.n_draft 0 (round_start params st)).n_past_tgt + 1 +
      v.i_dft = _
    rw [f3]
  have hvlen : v.drafts.length = N := by
    rw [hd, List.length_map, draft_phase_drafts, List.length_map, R.len]
  have hist : (inp ++ st.out.dropLast).length = st.n_past_tgt := by
    have := h.past
    have hne : st.out ≠ [] := by
      intro e
      have := h.root
      rw [e] at this
      simp at this
    have : 0 < st.out.length := List.length_pos.mpr hne
    simp only [List.length_append, List.length_dropLast]
    omega
  -- the kept branch
  have hkeep : ∃ dd, (draft_loop params cands params.n_draft 0
        (round_start params st)).drafts[v.i_keep]? = some dd ∧ v.i_keep < N ∧
      dd.tokens.take (v.i_dft + 1) = st.id :: (List.range v.i_dft).map sample := by
    by_cases hk : v.i_dft = 0
    · have hi := hk1 hk
      obtain ⟨dd, hdd⟩ := getElem?_some_of_lt
        (l := (draft_loop params cands params.n_draft 0 (round_start params st)).drafts)
        (m := 0) (by rw [R.len]; omega)
      have hu := (R.used 0 dd hdd R.cur_pos).2
      refine ⟨dd, by rw [hi]; exact hdd, by rw [hi]; omega, ?_⟩
      rw [hk]
      cases ht : dd.tokens with
      | nil => rw [ht] at hu; simp at hu
      | cons t ts =>
        rw [ht] at hu
        simp only [List.head?_cons, Option.some.injEq] at hu
        simp [hu]
    · obtain ⟨dx, hdx, hact, htok⟩ := hk2 (by omega)
      rw [draft_phase_drafts] at hdx
      obtain ⟨dd, hdd, hdxd⟩ := getElem?_map_some hdx
      have hlt : v.i_keep < (draft_loop params cands params.n_draft 0
          (round_start params st)).drafts.length := (List.getElem?_eq_some.mp hdd).1
      have hda : dd.active = true := by
        by_cases hc : dd.active = true
        · exact hc
        · rw [if_neg hc] at hdxd
          subst hdxd
          exact absurd hact hc
      have hcur : v.i_keep < (draft_loop params cands params.n_draft 0
          (round_start params st)).n_seq_cur := by
        by_contra hcon
        have := (R.fresh _ dd hdd (by omega)).1
        rw [this] at hda
        simp at hda
      have hu := (R.used _ dd hdd hcur).2
      refine ⟨dd, hdd, by rw [← R.len]; exact hlt, ?_⟩
      rw [if_pos hda] at hdxd
      subst hdxd
      simp only at htok
      cases ht : dd.tokens with
      | nil => rw [ht] at hu; simp at hu
      | cons t ts =>
        rw [ht] at hu htok
        simp only [List.head?_cons, Option.some.injEq] at hu
        simp only [List.tail_cons] at htok
        rw [List.take_succ_cons, take_eq_map_range ts sample v.i_dft htok, hu]
  obtain ⟨dd, hdd, hkN, htake⟩ := hkeep
  obtain ⟨p1, p2, p3⟩ := reconcile_pool v (by rw [hvlen]; omega)
  refine
    { len := ?_, cache := ?_, past := ?_, root := ?_, pool0 := ?_, pool := ?_, log_tgt := ?_,
      log_dft := ?_, own_dft := ?_, keep := ?_ }
  · show (reconcile v).drafts.length = N
    rw [p1, hvlen]
  · show kv_cache (v.ctx_tgt ++ _) = cache_of_tokens (inp ++ v.out.dropLast)
    rw [kv_cache_reconcile N v.i_keep v.n_past_tgt hkN (inp ++ st.out.dropLast)
      (by rw [hist, hpast]; omega)
      (draft_loop params cands params.n_draft 0 (round_start params st)).batch_tgt]
    · rw [R.owned _ dd hdd, hpast]
      have e : st.n_past_tgt + 1 + v.i_dft = st.n_past_tgt + (v.i_dft + 1) := by omega
      rw [e, positions_from_filter, htake, ← hist, ← cache_of_tokens_app, ho.1, out_dropLast]
      rw [show (draft_phase params cands st).out = st.out from f2]
      congr 1
      have := dropLast_append_getLast st.out st.id h.root
      rw [List.append_assoc, ← List.singleton_append, ← List.append_assoc st.out.dropLast,
        this]
    · rw [hf.2.2.2.2.2.2.1, draft_phase_ctx_tgt, f1, ← hN]
      exact kv_cache_eval_target params.n_parallel (by omega) st.ctx_tgt _ _ h.cache
  · show v.n_past_tgt + 1 = inp.length + v.out.length
    rw [hpast, ho.1]
    rw [show (draft_phase params cands st).out = st.out from f2]
    have := h.past
    simp only [List.length_append, List.length_map, List.length_range']
    omega
  · show v.out.getLast? = some v.id
    rw [ho.1, ho.2]
    exact out_getLast _ _ _
  · exact p2
  · exact p3
  · show seq_ids_lt N (v.ctx_tgt ++ _)
    rw [hf.2.2.2.2.2.2.1, draft_phase_ctx_tgt, f1]
    intro c hc y hy
    simp only [List.mem_append, List.mem_cons, List.mem_singleton, List.mem_map,
      List.not_mem_nil, or_false] at hc
    rcases hc with (((hc | hc) | ⟨s, hs, hc⟩) | hc) | hc
    · exact h.log_tgt c hc y hy
    · subst hc
      simp only [kv_call_seq_ids, List.mem_singleton] at hy
      omega
    · subst hc
      have := (List.mem_range'_1.mp hs)
      simp only [kv_call_seq_ids, List.mem_cons, List.mem_singleton, List.not_mem_nil,
        or_false] at hy
      rcases hy with hy | hy <;> omega
    · subst hc
      simp only [kv_call_seq_ids, List.mem_flatten, List.mem_map] at hy
      obtain ⟨l, ⟨b1, hb1, rfl⟩, hy⟩ := hy
      have := R.owners b1 hb1 y hy
      have := R.cur_le
      omega
    · rcases hc with hc | hc | hc | hc <;> subst hc <;>
        simp only [kv_call_seq_ids, List.mem_cons, List.mem_singleton, List.not_mem_nil,
          or_false] at hy
      · omega
      · omega
      · rcases hy with hy | hy <;> omega
      · omega
  · show seq_ids_lt N ((v.ctx_dft ++ _) ++ _)
    rw [hf.2.2.2.2.2.2.2.1]
    intro c hc y hy
    simp only [List.mem_append, List.mem_cons, List.mem_singleton, List.not_mem_nil,
      or_false] at hc
    rcases hc with (hc | hc) | hc
    · exact R.log_dft c hc y hy
    · rcases hc with hc | hc | hc <;> subst hc <;>
        simp only [kv_call_seq_ids, List.mem_cons, List.mem_singleton, List.not_mem_nil,
          or_false] at hy
      · omega
      · rcases hy with hy | hy <;> omega
      · omega
    · rcases hc with hc | hc <;> subst hc
      · simp only [kv_call_seq_ids, List.mem_singleton] at hy
        omega
      · simp only [kv_call_seq_ids, reconcile, List.map_cons, List.map_nil,
          List.flatten_cons, List.flatten_nil, List.append_nil, List.mem_singleton] at hy
        omega
  · show owners_lt N (reconcile v).batch_dft
    intro b hb y hy
    simp only [reconcile, List.mem_singleton] at hb
    subst hb
    simp only [List.mem_singleton] at hy
    omega
  · exact hkN

/-! ## Every reconciliation of a run -/

theorem init_state_drafts (params : gpt_params) (inp : List llama_token) :
    (init_state params inp).drafts.length = params.n_parallel ∧
    ∀ d ∈ (init_state params inp).drafts, d.active = false ∧ d.tokens = [] := by
  constructor
  · simp [init_state]
  · intro d hd
    obtain ⟨m, hm⟩ := List.mem_iff_getElem?.mp hd
    simp only [init_state] at hm
    obtain ⟨a, ha, h1⟩ := getElem?_modify_some hm
    have := List.getElem?_mem ha
    rw [List.mem_replicate] at this
    rw [this.2] at h1
    subst h1
    split <;> exact ⟨rfl, rfl⟩

theorem owners_get_one (toks : List llama_token) (p s n : Nat) (hs : s < n) :
    ∀ y ∈ kv_call_seq_ids (kv_call.decode (llama_batch_get_one toks p s)), y < n := by
  intro y hy
  simp only [kv_call_seq_ids, llama_batch_get_one, List.mem_flatten, List.mem_map] at hy
  obtain ⟨l, ⟨b, ⟨it, _, rfl⟩, rfl⟩, hy⟩ := hy
  simp only [List.mem_singleton] at hy
  omega

theorem run_inv_init (params : gpt_params) (sample : Nat → llama_token)
    (inp : List llama_token) {N : Nat} {st : spec_state}
    (hN : params.n_parallel = N) (h1 : 1 ≤ N)
    (hv : verify_reconcile params sample (init_state params inp) = some st) :
    run_inv N inp st := by
  unfold verify_reconcile at hv
  cases hvv : verify params sample (init_state params inp) with
  | none => rw [hvv] at hv; simp at hv
  | some v =>
    rw [hvv] at hv
    simp only [Option.map_some', Option.some.injEq] at hv
    subst hv
    obtain ⟨hlen, hpool⟩ := init_state_drafts params inp
    unfold verify at hvv
    have hf := verify_loop_frame params sample _ _ _ hvv
    have ho := verify_loop_out params sample _ _ _ hvv
    have hd := verify_loop_drafts params sample _ _ _ hvv
    obtain ⟨hk1, hk2, _⟩ := verify_loop_kept params sample _ _ _ hvv
    dsimp only at hf ho hd hk1 hk2
    simp only [Nat.sub_zero, Nat.zero_le, true_implies] at hf hk2
    have hk : v.i_dft = 0 := by
      by_contra hcon
      obtain ⟨d, hd1, hd2, _⟩ := hk2 (by omega)
      have := (hpool d (List.getElem?_mem hd1)).1
      rw [this] at hd2
      simp at hd2
    have hi := hk1 hk
    have hvlen : v.drafts.length = N := by rw [hd, List.length_map, hlen, hN]
    obtain ⟨p1, p2, p3⟩ := reconcile_pool v (by rw [hvlen]; omega)
    have hout : v.out = [sample 0] := by
      rw [ho.1, hk]
      simp [init_state]
    have hpast : v.n_past_tgt = inp.length := by
      rw [hf.2.2.1, hk]
      simp [init_state]
    refine
      { len := ?_, cache := ?_, past := ?_, root := ?_, pool0 := p2, pool := p3,
        log_tgt := ?_, log_dft := ?_, own_dft := ?_, keep := ?_ }
    · show (reconcile v).drafts.length = N
      rw [p1, hvlen]
    · show kv_cache (v.ctx_tgt ++ _) = cache_of_tokens (inp ++ v.out.dropLast)
      rw [kv_cache_append, kv_reconcile_tgt, hf.2.2.2.2.2.2.1, kv_cache_prompt, hout, hi, hpast]
      simp only [List.dropLast_single, List.append_nil]
      have hall : ∀ c ∈ cache_of_tokens inp,
          (decide (0 ∈ c.seq_id) && decide (c.pos < inp.length)) = true := by
        intro c hc
        have := cache_of_tokens_seq inp c hc
        simp [this.1, this.2]
      rw [List.filter_eq_self.mpr hall]
      conv_rhs => rw [← List.map_id (cache_of_tokens inp)]
      apply List.map_congr_left
      intro c hc
      have := (cache_of_tokens_seq inp c hc).1
      cases c
      simp_all
    · show v.n_past_tgt + 1 = inp.length + v.out.length
      rw [hpast, hout]
      rfl
    · show v.out.getLast? = some v.id
      rw [hout, ho.2, hk]
      rfl
    · show seq_ids_lt N (v.ctx_tgt ++ _)
      rw [hf.2.2.2.2.2.2.1, hi]
      intro c hc y hy
      simp only [init_state, List.mem_append, List.mem_cons, List.mem_singleton,
        List.not_mem_nil, or_false] at hc
      rcases hc with (hc | hc) | hc
      · subst hc; exact owners_get_one _ _ _ N (by omega) y hy
      · subst hc; exact owners_get_one _ _ _ N (by omega) y hy
      · rcases hc with hc | hc | hc | hc <;> subst hc <;>
          simp only [kv_call_seq_ids, List.mem_cons, List.mem_singleton, List.not_mem_nil,
            or_false] at hy
        · omega
        · omega
        · rcases hy with hy | hy <;> omega
        · omega
    · show seq_ids_lt N ((v.ctx_dft ++ _) ++ _)
      rw [hf.2.2.2.2.2.2.2.1, hi]
      intro c hc y hy
      simp only [init_state, List.mem_append, List.mem_cons, List.mem_singleton,
        List.not_mem_nil, or_false] at hc
      rcases hc with (hc | hc) | hc
      · subst hc; exact owners_get_one _ _ _ N (by omega) y hy
      · rcases hc with hc | hc | hc <;> subst hc <;>
          simp only [kv_call_seq_ids, List.mem_cons, List.mem_singleton, List.not_mem_nil,
            or_false] at hy
        · omega
        · rcases hy with hy | hy <;> omega
        · omega
      · rcases hc with hc | hc <;> subst hc
        · simp only [kv_call_seq_ids, List.mem_singleton] at hy
          omega
        · simp only [kv_call_seq_ids, reconcile, List.map_cons, List.map_nil,
            List.flatten_cons, List.flatten_nil, List.append_nil, List.mem_singleton] at hy
          omega
    · show owners_lt N (reconcile v).batch_dft
      intro b hb y hy
      simp only [reconcile, List.mem_singleton] at hb
      subst hb
      simp only [List.mem_singleton] at hy
      omega
    · show v.i_keep < N
      rw [hi]
      omega

theorem run_inv_reachable (params : gpt_params) (sample_tgt : Nat → Nat → llama_token)
    (sample_dft : Nat → Nat → Nat → List llama_token_data) (inp : List llama_token)
    (h1 : 1 ≤ params.n_parallel) :
    ∀ (r : Nat) (st : spec_state),
      after_reconcile params sample_tgt sample_dft inp r = some st →
      run_inv params.n_parallel inp st := by
  intro r
  induction r with
  | zero =>
    intro st h
    exact run_inv_init params (sample_tgt 0) inp rfl h1 h
  | succ r ih =>
    intro st h
    simp only [after_reconcile] at h
    cases hp : after_reconcile params sample_tgt sample_dft inp r with
    | none => rw [hp] at h; simp at h
    | some st0 =>
      rw [hp] at h
      simp only at h
      by_cases hdone : generation_done params st0 = true
      · rw [if_pos hdone] at h; simp at h
      · rw [if_neg hdone] at h
        unfold verify_reconcile at h
        cases hvv : verify params (sample_tgt (r + 1)) (draft_phase params (sample_dft r) st0) with
        | none => rw [hvv] at h; simp at h
        | some v =>
          rw [hvv] at h
          simp only [Option.map_some', Option.some.injEq] at h
          subst h
          exact run_inv_step params (sample_dft r) (sample_tgt (r + 1)) rfl h1 (ih st0 hp) hvv

theorem verify_reconcile_total (params : gpt_params) (sample : Nat → llama_token)
    (st : spec_state) : ∃ st1, verify_reconcile params sample st = some st1 := by
  obtain ⟨v, hv⟩ := verify_total params sample st
  exact ⟨_, by rw [verify_reconcile, hv]; rfl⟩

theorem after_reconcile_next (params : gpt_params) (sample_tgt : Nat → Nat → llama_token)
    (sample_dft : Nat → Nat → Nat → List llama_token_data) (inp : List llama_token)
    (r : Nat) (st : spec_state)
    (h : after_reconcile params sample_tgt sample_dft inp r = some st)
    (hdone : generation_done params st = false) :
    ∃ st1, after_reconcile params sample_tgt sample_dft inp (r + 1) = some st1 := by
  simp only [after_reconcile, h, hdone, Bool.false_eq_true, if_false]
  exact verify_reconcile_total _ _ _

theorem after_reconcile_first (params : gpt_params) (sample_tgt : Nat → Nat → llama_token)
    (sample_dft : Nat → Nat → Nat → List llama_token_data) (inp : List llama_token) :
    ∃ st, after_reconcile params sample_tgt sample_dft inp 0 = some st :=
  verify_reconcile_total _ _ _

/-! ## Claims on whole runs -/

theorem after_reconcile_shape (params : gpt_params) (sample_tgt : Nat → Nat → llama_token)
    (sample_dft : Nat → Nat → Nat → List llama_token_data) (inp : List llama_token) :
    ∀ (r : Nat) (st : spec_state),
      after_reconcile params sample_tgt sample_dft inp r = some st →
      ∃ v, st = decode_root (reconcile v) := by
  intro r st h
  have key : ∀ x, verify_reconcile params (sample_tgt r) x = some st →
      ∃ v, st = decode_root (reconcile v) := by
    intro x hx
    unfold verify_reconcile at hx
    cases hv : verify params (sample_tgt r) x with
    | none => rw [hv] at hx; simp at hx
    | some v =>
      rw [hv] at hx
      simp only [Option.map_some', Option.some.injEq] at hx
      exact ⟨v, hx.symm⟩
  cases r with
  | zero => exact key _ h
  | succ r =>
    simp only [after_reconcile] at h
    cases hp : after_reconcile params sample_tgt sample_dft inp r with
    | none => rw [hp] at h; simp at h
    | some st0 =>
      rw [hp] at h
      simp only at h
      by_cases hdone : generation_done params st0 = true
      · rw [if_pos hdone] at h; simp at h
      · rw [if_neg hdone] at h
        exact key _ h

theorem draft_loop_reachable (params : gpt_params) (cands : Nat → Nat → List llama_token_data)
    {inp : List llama_token} {st : spec_state} (h1 : 1 ≤ params.n_parallel)
    (h : run_inv params.n_parallel inp st) (todo : Nat) :
    round_inv params.n_parallel st.n_past_tgt st.id 0 false
        (draft_loop params cands todo 0 (round_start params st)) ∧
    (draft_loop params cands todo 0 (round_start params st)).batch_tgt.length ≤
      max 1 (params.n_draft - 1) + params.n_parallel := by
  obtain ⟨R0, hb0⟩ := round_init_inv params h1 h
  exact draft_loop_inv params cands rfl todo 0 _ R0 (by rw [hb0]; omega)

/-- Claim C3. After every reconciliation of a run with `n_seq_dft >= 1`, the
calls recorded on the target context end with `rm(i_keep, n_past_tgt, end)`,
`keep(i_keep)`, `cp(i_keep, 0)`, `keep(0)`, and under the cell model the target
cache consists of exactly one cell for each position `0 .. n_past_tgt - 1`,
owned by sequence 0 alone, whose tokens are the prompt followed by every token
printed so far except the last one (the earlier roots and the accepted drafted
tokens of the kept branches; the last printed token is the new root, not yet
decoded by the target). -/
theorem target_cache_after_reconcile (params : gpt_params)
    (sample_tgt : Nat → Nat → llama_token)
    (sample_dft : Nat → Nat → Nat → List llama_token_data) (inp : List llama_token)
    (r : Nat) (st : spec_state) (h1 : 1 ≤ params.n_parallel)
    (h : after_reconcile params sample_tgt sample_dft inp r = some st) :
    (∃ calls, st.ctx_tgt = calls ++
      [kv_call.seq_rm st.i_keep (st.n_past_tgt : Int) (-1), kv_call.seq_keep st.i_keep,
       kv_call.seq_cp st.i_keep 0 (-1) (-1), kv_call.seq_keep 0]) ∧
    kv_cache st.ctx_tgt =
      ((List.range st.n_past_tgt).zip (inp ++ st.out.dropLast)).map
        (fun pt => { pos := pt.1, token := pt.2, seq_id := [0] }) ∧
    st.n_past_tgt = (inp ++ st.out.dropLast).length ∧
    (∀ c ∈ kv_cache st.ctx_tgt, c.seq_id = [0]) := by
  have hinv := run_inv_reachable params sample_tgt sample_dft inp h1 r st h
  have hlen : st.n_past_tgt = (inp ++ st.out.dropLast).length := by
    have := hinv.past
    have hne : st.out ≠ [] := by
      intro e
      have := hinv.root
      rw [e] at this
      simp at this
    have : 0 < st.out.length := List.length_pos.mpr hne
    simp only [List.length_append, List.length_dropLast]
    omega
  refine ⟨?_, ?_, hlen, ?_⟩
  · obtain ⟨v, rfl⟩ := after_reconcile_shape params sample_tgt sample_dft inp r st h
    exact ⟨v.ctx_tgt, rfl⟩
  · rw [hinv.cache, hlen]
    simp [cache_of_tokens, positions_from, List.range_eq_range']
  · intro c hc
    rw [hinv.cache] at hc
    exact (cache_of_tokens_seq _ c hc).1

/-- Witness for `target_cache_after_reconcile`: the second reconciliation of a
run with one branch and draft depth 2. -/
theorem target_cache_after_reconcile_witness :
    ∃ st, after_reconcile agree_params agree_sample_tgt agree_sample_dft [1] 1 = some st ∧
      1 ≤ agree_params.n_parallel ∧
      kv_cache st.ctx_tgt =
        ((List.range st.n_past_tgt).zip ([1] ++ st.out.dropLast)).map
          (fun pt => { pos := pt.1, token := pt.2, seq_id := [0] }) := by
  have hs : (after_reconcile agree_params agree_sample_tgt agree_sample_dft [1] 1).isSome
      = true := by decide!
  obtain ⟨st, hst⟩ := Option.isSome_iff_exists.mp hs
  exact ⟨st, hst, by decide,
    (target_cache_after_reconcile agree_params agree_sample_tgt agree_sample_dft [1] 1 st
      (by decide) hst).2.1⟩

/-- Claim C7. In a run with `n_seq_dft >= 1`: every sequence id passed to a
cache call on either context up to and including a reconciliation, and
`i_keep`, is below `n_seq_dft`; in the draft phase that follows, after any
number of depth steps, `1 <= n_seq_cur <= n_seq_dft`, the pool keeps its
`n_seq_dft` slots, at most `n_seq_dft` branches are active, every active or
drafting branch has a slot index below `n_seq_cur`, and the owners of every
slot of both batches and the sequence ids of every draft-cache call are below
`n_seq_dft`; so are the sequence ids of the target-cache calls of the target
evaluation. The fork loop does nothing once `n_seq_cur = n_seq_dft`. -/
theorem seq_ids_in_range (params : gpt_params) (sample_tgt : Nat → Nat → llama_token)
    (sample_dft : Nat → Nat → Nat → List llama_token_data) (inp : List llama_token)
    (r : Nat) (st : spec_state) (h1 : 1 ≤ params.n_parallel)
    (h : after_reconcile params sample_tgt sample_dft inp r = some st) :
    (seq_ids_lt params.n_parallel st.ctx_tgt ∧ seq_ids_lt params.n_parallel st.ctx_dft ∧
      st.i_keep < params.n_parallel) ∧
    (∀ todo : Nat,
      1 ≤ (draft_loop params (sample_dft r) todo 0 (round_start params st)).n_seq_cur ∧
      (draft_loop params (sample_dft r) todo 0 (round_start params st)).n_seq_cur ≤
        params.n_parallel ∧
      (draft_loop params (sample_dft r) todo 0 (round_start params st)).drafts.length =
        params.n_parallel ∧
      ((draft_loop params (sample_dft r) todo 0 (round_start params st)).drafts.filter
        (fun d => d.active)).length ≤ params.n_parallel ∧
      (∀ (s : Nat) (d : seq_draft),
        (draft_loop params (sample_dft r) todo 0 (round_start params st)).drafts[s]? = some d →
        d.active = true ∨ d.drafting = true →
        s < (draft_loop params (sample_dft r) todo 0 (round_start params st)).n_seq_cur) ∧
      owners_lt params.n_parallel
        (draft_loop params (sample_dft r) todo 0 (round_start params st)).batch_tgt ∧
      owners_lt params.n_parallel
        (draft_loop params (sample_dft r) todo 0 (round_start params st)).batch_dft ∧
      seq_ids_lt params.n_parallel
        (draft_loop params (sample_dft r) todo 0 (round_start params st)).ctx_dft) ∧
    seq_ids_lt params.n_parallel (draft_phase params (sample_dft r) st).ctx_tgt ∧
    (∀ (cur_p : List llama_token_data) (s todo f : Nat) (x : spec_state) (sa : List Nat),
      x.n_seq_cur = params.n_parallel → fork_loop params cur_p s todo f x sa = (x, sa)) := by
  have hinv := run_inv_reachable params sample_tgt sample_dft inp h1 r st h
  refine ⟨⟨hinv.log_tgt, hinv.log_dft, hinv.keep⟩, ?_, ?_, ?_⟩
  · intro todo
    obtain ⟨R, _⟩ := draft_loop_reachable params (sample_dft r) h1 hinv todo
    refine ⟨R.cur_pos, R.cur_le, R.len, ?_, ?_, ?_, R.own_dft, R.log_dft⟩
    · rw [← R.len]
      exact List.length_filter_le _ _
    · intro s d hd hor
      by_contra hcon
      have hf := R.fresh s d hd (by omega)
      rcases hor with e | e
      · rw [hf.1] at e; simp at e
      · rw [hf.2.1] at e; simp at e
    · intro b hb y hy
      have := R.owners b hb y hy
      have := R.cur_le
      omega
  · obtain ⟨R, _⟩ := draft_loop_reachable params (sample_dft r) h1 hinv params.n_draft
    obtain ⟨f1, _⟩ :=
      draft_frame_trans (round_start_frame params st)
        (draft_loop_frame params (sample_dft r) params.n_draft 0 (round_start params st))
    rw [draft_phase_ctx_tgt, f1]
    intro c hc y hy
    simp only [List.mem_append, List.mem_cons, List.mem_singleton, List.mem_map,
      List.not_mem_nil, or_false] at hc
    rcases hc with ((hc | hc) | ⟨s, hs, hc⟩) | hc
    · exact hinv.log_tgt c hc y hy
    · subst hc
      simp only [kv_call_seq_ids, List.mem_singleton] at hy
      omega
    · subst hc
      have := (List.mem_range'_1.mp hs)
      simp only [kv_call_seq_ids, List.mem_cons, List.mem_singleton, List.not_mem_nil,
        or_false] at hy
      rcases hy with hy | hy <;> omega
    · subst hc
      simp only [kv_call_seq_ids, List.mem_flatten, List.mem_map] at hy
      obtain ⟨l, ⟨b1, hb1, rfl⟩, hy⟩ := hy
      have := R.owners b1 hb1 y hy
      have := R.cur_le
      omega
  · intro cur_p s todo f x sa hx
    cases todo with
    | zero => rfl
    | succ todo =>
      simp only [fork_loop]
      have : ¬ (x.n_seq_cur < params.n_parallel ∧ (cur_p.getD f ⟨0, 0⟩).p > 0.3) := by
        rintro ⟨c, _⟩
        omega
      rw [if_neg this]

/-- Witness for `seq_ids_in_range`: the first reconciliation of a run with two
branches. -/
theorem seq_ids_in_range_witness :
    ∃ st, after_reconcile fork_params fork_sample_tgt fork_sample_dft [1] 0 = some st ∧
      1 ≤ fork_params.n_parallel ∧
      seq_ids_lt fork_params.n_parallel (draft_phase fork_params (fork_sample_dft 0) st).ctx_tgt := by
  have hs : (after_reconcile fork_params fork_sample_tgt fork_sample_dft [1] 0).isSome
      = true := by decide!
  obtain ⟨st, hst⟩ := Option.isSome_iff_exists.mp hs
  exact ⟨st, hst, by decide,
    (seq_ids_in_range fork_params fork_sample_tgt fork_sample_dft [1] 0 st
      (by decide) hst).2.2.1⟩

/-- Claim C8, amended. In a run with `n_seq_dft >= 1`, on exit from the draft
loop the target batch holds at most `max (n_draft - 1, 1) + n_seq_dft` slots;
with a single branch and `n_draft >= 1` this gives
`batch_tgt.n_tokens - 1 <= n_draft`. The cap is tested at the end of a depth
step: when the target batch holds `n_draft` slots or more after a depth step,
the loop ends with that target batch. -/
theorem draft_budget (params : gpt_params) (sample_tgt : Nat → Nat → llama_token)
    (sample_dft : Nat → Nat → Nat → List llama_token_data) (inp : List llama_token)
    (r : Nat) (st : spec_state) (h1 : 1 ≤ params.n_parallel)
    (h : after_reconcile params sample_tgt sample_dft inp r = some st) :
    (draft_loop params (sample_dft r) params.n_draft 0
        (round_start params st)).batch_tgt.length ≤
      max (params.n_draft - 1) 1 + params.n_parallel ∧
    (params.n_parallel = 1 → 1 ≤ params.n_draft →
      (draft_loop params (sample_dft r) params.n_draft 0
        (round_start params st)).batch_tgt.length - 1 ≤ params.n_draft) ∧
    (∀ (cands : Nat → Nat → List llama_token_data) (todo i : Nat) (x : spec_state),
      params.n_draft ≤ (draft_step params (cands i) i x).batch_tgt.length →
      (draft_loop params cands (todo + 1) i x).batch_tgt =
        (draft_step params (cands i) i x).batch_tgt) := by
  have hinv := run_inv_reachable params sample_tgt sample_dft inp h1 r st h
  obtain ⟨_, hb⟩ := draft_loop_reachable params (sample_dft r) h1 hinv params.n_draft
  refine ⟨by rw [Nat.max_comm]; exact hb, ?_, ?_⟩
  · intro hp hd
    rw [hp] at hb
    omega
  · intro cands todo i x hx
    simp only [draft_loop]
    by_cases hb0 : (draft_step params (cands i) i x).batch_dft.length = 0
    · rw [if_pos hb0]
    · rw [if_neg hb0, if_pos hx]

/-- Witness for `draft_budget`: the first draft phase of a run with two
branches and draft depth 1. -/
theorem draft_budget_witness :
    ∃ st, after_reconcile wide_params fork_sample_tgt wide_sample_dft [1] 0 = some st ∧
      1 ≤ wide_params.n_parallel ∧
      (draft_loop wide_params (wide_sample_dft 0) wide_params.n_draft 0
          (round_start wide_params st)).batch_tgt.length ≤
        max (wide_params.n_draft - 1) 1 + wide_params.n_parallel := by
  have hs : (after_reconcile wide_params fork_sample_tgt wide_sample_dft [1] 0).isSome
      = true := by decide!
  obtain ⟨st, hst⟩ := Option.isSome_iff_exists.mp hs
  exact ⟨st, hst, by decide,
    (draft_budget wide_params fork_sample_tgt wide_sample_dft [1] 0 st (by decide) hst).1⟩

/-- Claim C8, counterexample. Two branches, `n_draft = 1`: the root branch is
split at depth 0 and both branches append their token, so the draft loop ends
with 3 slots in the target batch, that is 2 speculative tokens. -/
theorem draft_budget_exceeded :
    (after_reconcile wide_params fork_sample_tgt wide_sample_dft [1] 0).map
      (fun st =>
        ((draft_loop wide_params (wide_sample_dft 0) wide_params.n_draft 0
          (round_start wide_params st)).batch_tgt.length, wide_params.n_draft)) =
      some (3, 1) := by
  decide!

/-! ## A single branch that agrees with the target -/

theorem draft_seq_single (params : gpt_params) (cur_p : List llama_token_data)
    (i : Nat) (x : spec_state) (d : seq_draft) (hN : params.n_parallel = 1)
    (hq : x.drafts = [d]) (hcur : x.n_seq_cur = 1) (hdr : d.drafting = true)
    (hskip : d.skip = false) (hp : ¬ (cur_p.getD 0 ⟨0, 0⟩).p < 0.4) :
    draft_seq params cur_p i 0 x = add_drafted params cur_p i 0 [0] x := by
  have hfork : fork_loop params cur_p 0 7 1 x [0] = (x, [0]) := by
    simp [fork_loop, hcur, hN]
  have hc : ¬ (d.drafting = false ∨ d.skip = true) := by simp [hdr, hskip]
  unfold draft_seq
  rw [hq]
  simp only [List.getElem?_cons_zero]
  rw [if_neg hc, if_neg hp, hfork]

theorem draft_step_single (params : gpt_params) (cands : Nat → List llama_token_data)
    (i : Nat) (st : spec_state) (d : seq_draft) (hN : params.n_parallel = 1)
    (hq : st.drafts = [d]) (hcur : st.n_seq_cur = 1) (hdr : d.drafting = true)
    (hp : ¬ ((cands 0).getD 0 ⟨0, 0⟩).p < 0.4) :
    ∃ d2, (draft_step params cands i st).drafts = [d2] ∧
      (draft_step params cands i st).n_seq_cur = 1 ∧ d2.active = d.active ∧
      d2.tokens = d.tokens ++ [((cands 0).getD 0 ⟨0, 0⟩).id] ∧
      ((draft_step params cands i st).batch_dft.length ≠ 0 → d2.drafting = true) := by
  have hx := draft_seq_single params (cands 0) i
    { st with batch_dft := [], drafts := st.drafts.map (fun d => { d with skip := false }) }
    { d with skip := false } hN (by simp [hq]) hcur hdr rfl hp
  simp only [draft_step, hN, draft_seqs]
  rw [hx]
  simp only [add_drafted, List.modify, List.modifyTailIdx, List.modifyHead, hq, List.map_cons,
    List.map_nil, List.length_nil]
  split
  · exact ⟨_, rfl, hcur, rfl, rfl, fun h => by simp at h⟩
  · exact ⟨_, rfl, hcur, rfl, rfl, fun _ => hdr⟩

theorem draft_loop_single (params : gpt_params) (cands : Nat → Nat → List llama_token_data)
    (e : Nat → llama_token) (root : llama_token) (hN : params.n_parallel = 1)
    (hagree : ∀ i, ((cands i 0).getD 0 ⟨0, 0⟩).id = e i ∧ ¬ ((cands i 0).getD 0 ⟨0, 0⟩).p < 0.4) :
    ∀ (todo i : Nat) (st : spec_state) (d : seq_draft),
      st.drafts = [d] → st.n_seq_cur = 1 → d.active = true → d.drafting = true →
      d.tokens = root :: (List.range i).map e →
      ∃ (d2 : seq_draft) (D : Nat), (draft_loop params cands todo i st).drafts = [d2] ∧
        d2.active = true ∧ d2.tokens = root :: (List.range D).map e ∧ i ≤ D ∧
        (0 < todo → i < D) := by
  intro todo
  induction todo with
  | zero =>
    intro i st d hq _ ha _ ht
    exact ⟨d, i, hq, ha, ht, Nat.le_refl _, fun h => by omega⟩
  | succ todo ih =>
    intro i st d hq hcur ha hdr ht
    obtain ⟨d2, h1, h2, h3, h4, h5⟩ :=
      draft_step_single params (cands i) i st d hN hq hcur hdr (hagree i).2
    have ht2 : d2.tokens = root :: (List.range (i + 1)).map e := by
      rw [h4, ht, (hagree i).1, List.range_succ]
      simp
    simp only [draft_loop]
    by_cases hb0 : (draft_step params (cands i) i st).batch_dft.length = 0
    · rw [if_pos hb0]
      exact ⟨d2, i + 1, h1, by rw [h3]; exact ha, ht2, by omega, fun _ => by omega⟩
    · rw [if_neg hb0]
      by_cases hge : (draft_step params (cands i) i st).batch_tgt.length ≥ params.n_draft
      · rw [if_pos hge]
        exact ⟨d2, i + 1, h1, by rw [h3]; exact ha, ht2, by omega, fun _ => by omega⟩
      · rw [if_neg hge]
        obtain ⟨d3, D, g1, g2, g3, g4, _⟩ :=
          ih (i + 1)
            { draft_step params (cands i) i st with
              ctx_dft := (draft_step params (cands i) i st).ctx_dft ++
                [kv_call.decode (draft_step params (cands i) i st).batch_dft],
              n_past_cur := (draft_step params (cands i) i st).n_past_cur + 1,
              n_drafted := (draft_step params (cands i) i st).n_drafted + 1 }
            d2 h1 h2 (by rw [h3]; exact ha) (h5 hb0) ht2
        exact ⟨d3, D, g1, g2, g3, by omega, fun _ => by omega⟩

theorem round_start_single (params : gpt_params) {inp : List llama_token} {st : spec_state}
    (h : run_inv 1 inp st) :
    ∃ d, (round_start params st).drafts = [d] ∧ (round_start params st).n_seq_cur = 1 ∧
      d.active = true ∧ d.drafting = true ∧ d.tokens = [st.id] := by
  obtain ⟨R, _⟩ := round_init_inv params (Nat.le_refl 1) h
  have hlen := R.len
  cases hds : (round_start params st).drafts with
  | nil => rw [hds] at hlen; simp at hlen
  | cons d ds =>
    rw [hds] at hlen
    have hds2 : ds = [] := by
      cases ds with
      | nil => rfl
      | cons x xs => simp at hlen
    subst hds2
    have hd0 : (round_start params st).drafts[0]? = some d := by rw [hds]; rfl
    have hcur : (round_start params st).n_seq_cur = 1 := rfl
    refine ⟨d, rfl, hcur, (R.used 0 d hd0 (by rw [hcur]; omega)).1, ?_, ?_⟩
    · simp only [round_start, round_init] at hds
      obtain ⟨a, _, ha⟩ := getElem?_modify_some (show (List.modify _ 0 _)[0]? = some d by
        rw [hds]; rfl)
      rw [if_pos rfl] at ha
      rw [ha]
    · have ho := R.owned 0 d hd0
      have hb : (round_start params st).batch_tgt.length = 1 :=
        (round_init_inv params (Nat.le_refl 1) h).2
      have hl : (owned_slots 0 (round_start params st).batch_tgt).length ≤ 1 := by
        rw [← hb]
        simp only [owned_slots, List.length_map]
        exact List.length_filter_le _ _
      rw [ho, positions_from_length] at hl
      have hu := (R.used 0 d hd0 (by rw [hcur]; omega)).2
      cases ht : d.tokens with
      | nil => rw [ht] at hu; simp at hu
      | cons t ts =>
        rw [ht] at hu hl
        simp only [List.head?_cons, Option.some.injEq] at hu
        simp only [List.length_cons] at hl
        have : ts = [] := List.length_eq_zero.mp (by omega)
        rw [this, hu]

/-- The root slot counts against `n_draft`. One branch, `n_draft = 2`, the draft
proposes 7 with probability 0.9 and the target samples 7, at every depth of
every round: `n_accept` is 1 after the second reconciliation and 2 after the
third, so a round drafts and accepts 1 token, not `n_draft = 2` (the tests of
lines 372 and 400 compare `batch_tgt.n_tokens`, which includes the root, with
`n_draft`). -/
theorem agreement_accepts_fewer_than_n_draft :
    (∀ r i s, ((same_sample_dft r i s).getD 0 ⟨0, 0⟩).id = same_sample_tgt (r + 1) i ∧
      ¬ ((same_sample_dft r i s).getD 0 ⟨0, 0⟩).p < 0.4) ∧
    same_params.n_draft = 2 ∧
    (after_reconcile same_params same_sample_tgt same_sample_dft [1] 1).map
      (fun st => st.n_accept) = some 1 ∧
    (after_reconcile same_params same_sample_tgt same_sample_dft [1] 2).map
      (fun st => st.n_accept) = some 2 := by
  refine ⟨fun r i s => ⟨by simp [same_sample_dft, same_sample_tgt],
    by simp [same_sample_dft]; norm_num⟩, rfl, by decide!, by decide!⟩

/-- Claim C4, evaluation at the failing input. One branch, `n_draft = 2`, prompt
of one token: the single drafted token is not decoded by the draft model (the
target batch reached `n_draft` slots), the target accepts it, and after the
next reconciliation and root decode `n_past_dft = 4` while sequence 0 of the
draft cache holds positions 0, 1 and 3 only. -/
theorem draft_cache_gap_after_full_accept :
    (after_reconcile agree_params agree_sample_tgt agree_sample_dft [1] 1).map
      (fun st => (st.n_past_dft,
        (kv_cache st.ctx_dft).map (fun c => (c.pos, c.token, c.seq_id)))) =
      some (4, [(0, 1, [0]), (1, 5, [0]), (3, 9, [0])]) := by
  decide!

/-- Claim C6, evaluation at the failing input. One branch, `n_draft = 2`: the
run ends with `n_accept = 1` and `n_drafted = 0`. -/
theorem accepted_exceeds_drafted :
    (generate agree_params agree_sample_tgt agree_sample_dft 2 0
        (init_state agree_params [1])).map
      (fun st => (st.n_predict, st.n_accept, st.n_drafted)) = some (3, 1, 0) := by
  decide!

/-- Claim C10, evaluation at the failing input. The drafted token is the
end-of-sequence token and the target samples it: the loop goes on, samples 9
and prints it after the end-of-sequence token. -/
theorem tokens_emitted_after_eos :
    (generate eos_params eos_sample_tgt eos_sample_dft 2 0 (init_state eos_params [1])).map
      (fun st => (st.out, st.has_eos)) = some ([5, 2, 9], true) := by
  decide!

/-! ## The two thresholds of a depth step -/

theorem add_drafted_n_seq_cur (params : gpt_params) (cur_p : List llama_token_data) (i : Nat) :
    ∀ (sa : List Nat) (is : Nat) (st : spec_state),
      (add_drafted params cur_p i is sa st).n_seq_cur = st.n_seq_cur := by
  intro sa
  induction sa with
  | nil => intro is st; rfl
  | cons x rest ih =>
    intro is st
    simp only [add_drafted]
    split
    · rw [ih]
    · rw [ih]

theorem add_drafted_batch_tgt (params : gpt_params) (cur_p : List llama_token_data) (i : Nat) :
    ∀ (sa : List Nat) (is : Nat) (st : spec_state),
      (add_drafted params cur_p i is sa st).batch_tgt = st.batch_tgt ++
        (sa.enumFrom is).map (fun js =>
          { token := (cur_p.getD js.1 ⟨0, 0⟩).id, pos := st.n_past_tgt + i + 1,
            seq_id := [js.2], logits := true }) := by
  intro sa
  induction sa with
  | nil => intro is st; simp [add_drafted]
  | cons x rest ih =>
    intro is st
    simp only [add_drafted]
    split
    · rw [ih]
      simp only [List.enumFrom_cons, List.map_cons, List.append_assoc, List.singleton_append]
    · rw [ih]
      simp only [List.enumFrom_cons, List.map_cons, List.append_assoc, List.singleton_append]

theorem fork_loop_sa (params : gpt_params) (cur_p : List llama_token_data) (s : Nat) :
    ∀ (todo f : Nat) (st : spec_state) (sa : List Nat),
      (∃ rest, (fork_loop params cur_p s todo f st sa).2 = sa ++ rest) ∧
      (fork_loop params cur_p s todo f st sa).1.batch_tgt.length = st.batch_tgt.length := by
  intro todo
  induction todo with
  | zero => intro f st sa; exact ⟨⟨[], by simp [fork_loop]⟩, rfl⟩
  | succ todo ih =>
    intro f st sa
    simp only [fork_loop]
    by_cases hc : st.n_seq_cur < params.n_parallel ∧ (cur_p.getD f ⟨0, 0⟩).p > 0.3
    · rw [if_pos hc]
      obtain ⟨⟨rest, hr⟩, hl⟩ := ih (f + 1) (split_seq s st) (sa ++ [st.n_seq_cur])
      refine ⟨⟨[st.n_seq_cur] ++ rest, by rw [hr, List.append_assoc]⟩, ?_⟩
      rw [hl]
      simp [split_seq]
    · rw [if_neg hc]
      exact ⟨⟨[], by simp⟩, rfl⟩

theorem draft_seq_continue (params : gpt_params) (cur_p : List llama_token_data) (i s : Nat)
    (st : spec_state) (d : seq_draft) (hd : st.drafts[s]? = some d) (hdr : d.drafting = true)
    (hsk : d.skip = false) (hp : ¬ (cur_p.getD 0 ⟨0, 0⟩).p < 0.4) :
    draft_seq params cur_p i s st =
      add_drafted params cur_p i 0 (fork_loop params cur_p s 7 1 st [s]).2
        (fork_loop params cur_p s 7 1 st [s]).1 := by
  unfold draft_seq
  rw [hd]
  simp only []
  have hc : ¬ (d.drafting = false ∨ d.skip = true) := by
    rw [hdr, hsk]; simp
  rw [if_neg hc, if_neg hp]

theorem draft_seq_stop (params : gpt_params) (cur_p : List llama_token_data) (i s : Nat)
    (st : spec_state) (d : seq_draft) (hd : st.drafts[s]? = some d) (hdr : d.drafting = true)
    (hsk : d.skip = false) (hp : (cur_p.getD 0 ⟨0, 0⟩).p < 0.4) :
    draft_seq params cur_p i s st =
      { st with drafts := List.modify (fun d => { d with drafting := false }) s st.drafts } := by
  unfold draft_seq
  rw [hd]
  simp only []
  have hc : ¬ (d.drafting = false ∨ d.skip = true) := by
    rw [hdr, hsk]; simp
  rw [if_neg hc, if_pos hp]

theorem draft_seq_appends (params : gpt_params) (cur_p : List llama_token_data) (i s : Nat)
    (st : spec_state) (d : seq_draft) (hd : st.drafts[s]? = some d) (hdr : d.drafting = true)
    (hsk : d.skip = false) (hp : ¬ (cur_p.getD 0 ⟨0, 0⟩).p < 0.4) :
    ∃ rest, (draft_seq params cur_p i s st).batch_tgt =
      (fork_loop params cur_p s 7 1 st [s]).1.batch_tgt ++
        ({ token := (cur_p.getD 0 ⟨0, 0⟩).id, pos := st.n_past_tgt + i + 1, seq_id := [s],
           logits := true } :: rest) := by
  rw [draft_seq_continue params cur_p i s st d hd hdr hsk hp, add_drafted_batch_tgt]
  obtain ⟨⟨rest, hr⟩, _⟩ := fork_loop_sa params cur_p s 7 1 st [s]
  have hf := (fork_loop_frame params cur_p s 7 1 st [s]).2.2.1
  rw [hr]
  simp only [draft_frame] at hf
  rw [hf]
  simp only [List.singleton_append, List.enumFrom_cons, List.map_cons]
  exact ⟨_, rfl⟩

theorem valid_candidates_ranks (cur_p : List llama_token_data) (hv : valid_candidates cur_p)
    (h0 : ¬ (cur_p.getD 0 ⟨0, 0⟩).p < 0.4) (h1 : (cur_p.getD 1 ⟨0, 0⟩).p > 0.3) :
    ¬ (cur_p.getD 2 ⟨0, 0⟩).p > 0.3 := by
  obtain ⟨hnn, hsum⟩ := hv
  match cur_p, hnn, hsum, h0, h1 with
  | [], _, _, _, _ => simp only [List.getD_nil]; norm_num
  | [a], _, _, _, _ => simp only [List.getD_cons_succ, List.getD_nil]; norm_num
  | [a, b], _, _, _, _ => simp only [List.getD_cons_succ, List.getD_nil]; norm_num
  | a :: b :: c :: rest, hnn, hsum, h0, h1 =>
    simp only [List.getD_cons_succ, List.getD_cons_zero] at h0 h1 ⊢
    simp only [List.map_cons, List.sum_cons] at hsum
    have hr : 0 ≤ (rest.map (fun c => c.p)).sum := by
      apply List.sum_nonneg
      intro x hx
      obtain ⟨y, hy, rfl⟩ := List.mem_map.mp hx
      exact hnn y (by simp [hy])
    intro h2
    have e4 : (0.4 : ℚ) = 2 / 5 := by norm_num
    have e3 : (0.3 : ℚ) = 3 / 10 := by norm_num
    rw [e4] at h0
    rw [e3] at h1 h2
    have h0' : (2 : ℚ) / 5 ≤ a.p := not_lt.mp h0
    linarith

theorem fork_loop_valid (params : gpt_params) (cur_p : List llama_token_data) (s : Nat)
    (st : spec_state) (hv : valid_candidates cur_p) (h0 : ¬ (cur_p.getD 0 ⟨0, 0⟩).p < 0.4) :
    fork_loop params cur_p s 7 1 st [s] = (st, [s]) ∨
    fork_loop params cur_p s 7 1 st [s] = (split_seq s st, [s, st.n_seq_cur]) := by
  by_cases hc : st.n_seq_cur < params.n_parallel ∧ (cur_p.getD 1 ⟨0, 0⟩).p > 0.3
  · right
    have h2 := valid_candidates_ranks cur_p hv h0 hc.2
    have hc2 : ¬ ((split_seq s st).n_seq_cur < params.n_parallel ∧
        (cur_p.getD 2 ⟨0, 0⟩).p > 0.3) := fun c => h2 c.2
    simp only [fork_loop]
    rw [if_pos hc, if_neg hc2]
    rfl
  · left
    simp only [fork_loop]
    rw [if_neg hc]

/-- Claim C12, amended. A drafting branch that the loop over `s` reaches (not
skipped) stops drafting in that depth step exactly when the probability of its
top candidate is below 0.4: then its `drafting` flag is cleared and nothing
else changes, in particular no slot is appended to the target batch. When the
probability is 0.4 or more the branch continues: the target batch receives a
slot owned by the branch that holds the top candidate at position
`n_past_tgt + i + 1`. -/
theorem draft_stops_below_threshold (params : gpt_params) (cur_p : List llama_token_data)
    (i s : Nat) (st : spec_state) (d : seq_draft) (hd : st.drafts[s]? = some d)
    (hdr : d.drafting = true) (hsk : d.skip = false) :
    ((cur_p.getD 0 ⟨0, 0⟩).p < 0.4 →
      draft_seq params cur_p i s st =
        { st with drafts := List.modify (fun d => { d with drafting := false }) s st.drafts }) ∧
    (¬ (cur_p.getD 0 ⟨0, 0⟩).p < 0.4 →
      (draft_seq params cur_p i s st).batch_tgt[st.batch_tgt.length]? =
        some { token := (cur_p.getD 0 ⟨0, 0⟩).id, pos := st.n_past_tgt + i + 1, seq_id := [s],
               logits := true }) ∧
    ((draft_seq params cur_p i s st).batch_tgt.length = st.batch_tgt.length ↔
      (cur_p.getD 0 ⟨0, 0⟩).p < 0.4) := by
  have hl := (fork_loop_sa params cur_p s 7 1 st [s]).2
  refine ⟨fun hp => draft_seq_stop params cur_p i s st d hd hdr hsk hp, ?_, ?_⟩
  · intro hp
    obtain ⟨rest, hr⟩ := draft_seq_appends params cur_p i s st d hd hdr hsk hp
    rw [hr, ← hl, List.getElem?_append_right (Nat.le_refl _)]
    simp
  · constructor
    · intro hlen
      by_contra hp
      obtain ⟨rest, hr⟩ := draft_seq_appends params cur_p i s st d hd hdr hsk hp
      rw [hr, List.length_append, hl, List.length_cons] at hlen
      omega
    · intro hp
      rw [draft_seq_stop params cur_p i s st d hd hdr hsk hp]

/-- Witness for `draft_stops_below_threshold`: branch 0 at the head of depth
step 0, with a top candidate of probability 0.3. -/
theorem draft_stops_below_threshold_witness :
    drafting_state.drafts[0]? = some root_draft ∧
    ((draft_seq fork_params (low_sample_dft 0 0 0) 0 0 drafting_state).batch_tgt.length =
      drafting_state.batch_tgt.length ↔
      ((low_sample_dft 0 0 0).getD 0 ⟨0, 0⟩).p < 0.4) :=
  ⟨rfl, (draft_stops_below_threshold fork_params (low_sample_dft 0 0 0) 0 0 drafting_state
    root_draft rfl rfl rfl).2.2⟩

/-- Claim C12, counterexample. The top candidate of branch 0 has probability
exactly 0.4: the branch keeps drafting and candidate 7 is appended to its
history and to the target batch. -/
theorem draft_continues_at_threshold :
    (top_at_threshold.getD 0 ⟨0, 0⟩).p = 0.4 ∧
    (draft_seq fork_params top_at_threshold 0 0 drafting_state).drafts.map
      (fun d => (d.drafting, d.tokens)) = [(true, [5, 7]), (false, [])] ∧
    (draft_seq fork_params top_at_threshold 0 0 drafting_state).batch_tgt.map
      (fun b => (b.token, b.pos, b.seq_id)) = [(5, 1, [0]), (7, 2, [0])] := by
  decide!

/-! ### The thresholds on `float` values

A `float` in `[1/4, 1/2)` is `n / 2^25` for an integer `n`; every other `float`
is below `1/4` or at least `1/2`. On all of them the tests against the fractions
3/10 and 2/5 agree with the tests against the `double` literals `0.3`
(5404319552844595 / 2^54) and `0.4` (7205759403792794 / 2^54). -/

theorem fork_test_float (n : Int) :
    ((n : ℚ) / 2 ^ 25 > 0.3 ↔ 10066330 ≤ n) ∧
    ((n : ℚ) / 2 ^ 25 > 5404319552844595 / 2 ^ 54 ↔ 10066330 ≤ n) := by
  constructor
  · rw [gt_iff_lt, lt_div_iff₀ (by norm_num)]
    constructor
    · intro h
      have h2 : (100663296 : ℚ) < 10 * n := by
        have e : (0.3 : ℚ) * 2 ^ 25 = 100663296 / 10 := by norm_num
        rw [e] at h
        linarith
      have h3 : (100663296 : Int) < 10 * n := by exact_mod_cast h2
      omega
    · intro h
      have h3 : (10066330 : ℚ) ≤ n := by exact_mod_cast h
      have e : (0.3 : ℚ) * 2 ^ 25 = 100663296 / 10 := by norm_num
      rw [e]
      linarith
  · rw [gt_iff_lt, lt_div_iff₀ (by norm_num)]
    constructor
    · intro h
      have e : (5404319552844595 : ℚ) / 2 ^ 54 * 2 ^ 25 = 5404319552844595 / 536870912 := by
        norm_num
      rw [e, div_lt_iff₀ (by norm_num)] at h
      have h3 : (5404319552844595 : Int) < n * 536870912 := by exact_mod_cast h
      omega
    · intro h
      have h3 : (10066330 : ℚ) ≤ n := by exact_mod_cast h
      have e : (5404319552844595 : ℚ) / 2 ^ 54 * 2 ^ 25 = 5404319552844595 / 536870912 := by
        norm_num
      rw [e, div_lt_iff₀ (by norm_num)]
      linarith

theorem continue_test_float (n : Int) :
    ((n : ℚ) / 2 ^ 25 < 0.4 ↔ n ≤ 13421772) ∧
    ((n : ℚ) / 2 ^ 25 < 7205759403792794 / 2 ^ 54 ↔ n ≤ 13421772) := by
  constructor
  · rw [div_lt_iff₀ (by norm_num)]
    constructor
    · intro h
      have e : (0.4 : ℚ) * 2 ^ 25 = 134217728 / 10 := by norm_num
      rw [e] at h
      have h2 : 10 * (n : ℚ) < 134217728 := by linarith
      have h3 : 10 * n < (134217728 : Int) := by exact_mod_cast h2
      omega
    · intro h
      have h3 : (n : ℚ) ≤ 13421772 := by exact_mod_cast h
      have e : (0.4 : ℚ) * 2 ^ 25 = 134217728 / 10 := by norm_num
      rw [e]
      linarith
  · rw [div_lt_iff₀ (by norm_num)]
    constructor
    · intro h
      have e : (7205759403792794 : ℚ) / 2 ^ 54 * 2 ^ 25 = 7205759403792794 / 536870912 := by
        norm_num
      rw [e, lt_div_iff₀ (by norm_num)] at h
      have h3 : n * 536870912 < (7205759403792794 : Int) := by exact_mod_cast h
      omega
    · intro h
      have h3 : (n : ℚ) ≤ 13421772 := by exact_mod_cast h
      have e : (7205759403792794 : ℚ) / 2 ^ 54 * 2 ^ 25 = 7205759403792794 / 536870912 := by
        norm_num
      rw [e, lt_div_iff₀ (by norm_num)]
      linarith

theorem tests_outside_float_binade (q : ℚ) (h : q < 1 / 4 ∨ 1 / 2 ≤ q) :
    (q > 0.3 ↔ q > 5404319552844595 / 2 ^ 54) ∧ (q < 0.4 ↔ q < 7205759403792794 / 2 ^ 54) := by
  have e3 : (0.3 : ℚ) = 3 / 10 := by norm_num
  have e4 : (0.4 : ℚ) = 2 / 5 := by norm_num
  have d3 : (1 : ℚ) / 4 < 5404319552844595 / 2 ^ 54 ∧ (5404319552844595 : ℚ) / 2 ^ 54 < 1 / 2 := by
    constructor <;> norm_num
  have d4 : (1 : ℚ) / 4 < 7205759403792794 / 2 ^ 54 ∧ (7205759403792794 : ℚ) / 2 ^ 54 < 1 / 2 := by
    constructor <;> norm_num
  rw [e3, e4]
  rcases h with h | h
  · constructor
    · constructor
      · intro c; linarith
      · intro c; linarith [d3.1]
    · constructor
      · intro _; linarith [d4.1]
      · intro _; linarith
  · constructor
    · constructor
      · intro _; linarith [d3.2]
      · intro _; linarith
    · constructor
      · intro c; linarith
      · intro c; linarith [d4.2]

theorem fork_loop_n_seq_cur (params : gpt_params) (cur_p : List llama_token_data) (s : Nat) :
    ∀ (todo f : Nat) (st : spec_state) (sa : List Nat),
      st.n_seq_cur ≤ (fork_loop params cur_p s todo f st sa).1.n_seq_cur := by
  intro todo
  induction todo with
  | zero => intro f st sa; exact Nat.le_refl _
  | succ todo ih =>
    intro f st sa
    simp only [fork_loop]
    by_cases hc : st.n_seq_cur < params.n_parallel ∧ (cur_p.getD f ⟨0, 0⟩).p > 0.3
    · rw [if_pos hc]
      have := ih (f + 1) (split_seq s st) (sa ++ [st.n_seq_cur])
      simp only [split_seq] at this ⊢
      omega
    · rw [if_neg hc]

/-- Claim C13. For a drafting branch that the loop over `s` reaches and that
passes the continuation test: when the probability of its rank-1 candidate is
at most 0.3, in particular when it is exactly 0.3, no fork happens, whatever
the other candidates are: the fork loop returns at once, `n_seq_cur` is
unchanged, the target batch grows by exactly one slot, which holds the rank-0
candidate for branch `s`, the history of `s` grows by that candidate, and no
other branch changes. The threshold is sharp: when the probability is above 0.3
and a slot is free, the branch is split into slot `n_seq_cur`. -/
theorem no_fork_at_threshold (params : gpt_params) (cur_p : List llama_token_data)
    (i s : Nat) (st : spec_state) (d : seq_draft) (hd : st.drafts[s]? = some d)
    (hdr : d.drafting = true) (hsk : d.skip = false)
    (h0 : ¬ (cur_p.getD 0 ⟨0, 0⟩).p < 0.4) :
    ((cur_p.getD 1 ⟨0, 0⟩).p ≤ 0.3 →
      fork_loop params cur_p s 7 1 st [s] = (st, [s]) ∧
      (draft_seq params cur_p i s st).n_seq_cur = st.n_seq_cur ∧
      (draft_seq params cur_p i s st).batch_tgt = st.batch_tgt ++
        [{ token := (cur_p.getD 0 ⟨0, 0⟩).id, pos := st.n_past_tgt + i + 1, seq_id := [s],
           logits := true }] ∧
      (∀ m, m ≠ s → (draft_seq params cur_p i s st).drafts[m]? = st.drafts[m]?) ∧
      (∃ d2, (draft_seq params cur_p i s st).drafts[s]? = some d2 ∧
        d2.tokens = d.tokens ++ [(cur_p.getD 0 ⟨0, 0⟩).id])) ∧
    ((cur_p.getD 1 ⟨0, 0⟩).p > 0.3 → st.n_seq_cur < params.n_parallel →
      (∃ rest, (fork_loop params cur_p s 7 1 st [s]).2 = [s, st.n_seq_cur] ++ rest) ∧
      st.n_seq_cur + 1 ≤ (draft_seq params cur_p i s st).n_seq_cur) := by
  have hs := draft_seq_continue params cur_p i s st d hd hdr hsk h0
  constructor
  · intro h1
    have hf : fork_loop params cur_p s 7 1 st [s] = (st, [s]) := by
      have hc : ¬ (st.n_seq_cur < params.n_parallel ∧ (cur_p.getD 1 ⟨0, 0⟩).p > 0.3) := by
        intro c
        exact absurd c.2 (not_lt.mpr h1)
      simp only [fork_loop]
      rw [if_neg hc]
    rw [hf] at hs
    refine ⟨hf, ?_, ?_, ?_, ?_⟩
    · rw [hs, add_drafted_n_seq_cur]
    · rw [hs, add_drafted_batch_tgt]
      rfl
    · intro m hm
      have hne : ¬ s = m := fun e => hm e.symm
      rw [hs]
      simp only [add_drafted]
      split
      · simp only [add_drafted, getElem?_modify_eq]
        cases st.drafts[m]? with
        | none => rfl
        | some a => simp only [Option.map_some', if_neg hne]
      · simp only [add_drafted, getElem?_modify_eq]
        cases st.drafts[m]? with
        | none => rfl
        | some a => simp only [Option.map_some', if_neg hne]
    · rw [hs]
      simp only [add_drafted]
      split
      · simp only [add_drafted, getElem?_modify_eq, hd, Option.map_some', if_true]
        exact ⟨_, rfl, rfl⟩
      · simp only [add_drafted, getElem?_modify_eq, hd, Option.map_some', if_true]
        exact ⟨_, rfl, rfl⟩
  · intro h1 hfree
    have hc : st.n_seq_cur < params.n_parallel ∧ (cur_p.getD 1 ⟨0, 0⟩).p > 0.3 := ⟨hfree, h1⟩
    have hf : fork_loop params cur_p s 7 1 st [s] =
        fork_loop params cur_p s 6 2 (split_seq s st) ([s] ++ [st.n_seq_cur]) := by
      simp only [fork_loop]
      rw [if_pos hc]
    constructor
    · obtain ⟨⟨rest, hr⟩, _⟩ :=
        fork_loop_sa params cur_p s 6 2 (split_seq s st) ([s] ++ [st.n_seq_cur])
      exact ⟨rest, by rw [hf, hr]; rfl⟩
    · rw [hs, add_drafted_n_seq_cur, hf]
      have := fork_loop_n_seq_cur params cur_p s 6 2 (split_seq s st) ([s] ++ [st.n_seq_cur])
      simp only [split_seq] at this
      exact this

/-- Witness for `no_fork_at_threshold`: branch 0 at the head of depth step 0.
With a rank-1 probability of exactly 0.3, and with the largest `float` below
0.3, the fork loop returns at once; with the `float` nearest to 0.3, which is
above 0.3, the branch is split. -/
theorem no_fork_at_threshold_witness :
    drafting_state.drafts[0]? = some root_draft ∧
    ((fork_at_threshold.getD 1 ⟨0, 0⟩).p = 0.3 ∧
      fork_loop fork_params fork_at_threshold 0 7 1 drafting_state [0] =
        (drafting_state, [0])) ∧
    ((fork_below_threshold.getD 1 ⟨0, 0⟩).p = 10066329 / 2 ^ 25 ∧
      fork_loop fork_params fork_below_threshold 0 7 1 drafting_state [0] =
        (drafting_state, [0])) ∧
    ((fork_above_threshold.getD 1 ⟨0, 0⟩).p = 10066330 / 2 ^ 25 ∧
      drafting_state.n_seq_cur + 1 ≤
        (draft_seq fork_params fork_above_threshold 0 0 drafting_state).n_seq_cur) :=
  ⟨rfl,
    ⟨by decide!,
      ((no_fork_at_threshold fork_params fork_at_threshold 0 0 drafting_state root_draft rfl rfl
        rfl (by decide!)).1 (by decide!)).1⟩,
    ⟨by decide!,
      ((no_fork_at_threshold fork_params fork_below_threshold 0 0 drafting_state root_draft rfl
        rfl rfl (by decide!)).1 (by decide!)).1⟩,
    ⟨by decide!,
      ((no_fork_at_threshold fork_params fork_above_threshold 0 0 drafting_state root_draft rfl
        rfl rfl (by decide!)).2 (by decide!) (by decide)).2⟩⟩

/-! ## Forks of a depth step -/

theorem draft_prelude_inv {N P : Nat} {root : llama_token} {i : Nat} {st : spec_state}
    (h : round_inv N P root i true st) :
    draft_inv N P root i 0 [] st.n_seq_cur st.batch_tgt.length
      { st with batch_dft := [], drafts := st.drafts.map (fun d => { d with skip := false }) } := by
  have key : ∀ (m : Nat) (d : seq_draft),
      (st.drafts.map (fun d : seq_draft => { d with skip := false }))[m]? = some d →
      ∃ a, st.drafts[m]? = some a ∧ d.active = a.active ∧ d.drafting = a.drafting ∧
        d.tokens = a.tokens ∧ d.skip = false := by
    intro m d hd
    obtain ⟨a, ha, hda⟩ := getElem?_map_some hd
    subst hda
    exact ⟨a, ha, rfl, rfl, rfl, rfl⟩
  refine
    { len := ?_, cur_pos := h.cur_pos, cur_le := h.cur_le, past := h.past, fresh := ?_,
      used := ?_, owners := h.owners, owned := ?_, pend_len := ?_,
      pend_nodup := List.nodup_nil, pend_lt := ?_, pend_done := ?_, depth := ?_,
      n0_le := Nat.le_refl _, skipped := ?_, count := ?_, log_dft := h.log_dft,
      own_dft := ?_ }
  · simp [h.len]
  · intro m d hd hm
    obtain ⟨a, ha, h1, h2, h3, _⟩ := key m d hd
    rw [h1, h2, h3]
    exact h.fresh m a ha hm
  · intro m d hd hm
    obtain ⟨a, ha, h1, _, h3, _⟩ := key m d hd
    rw [h1, h3]
    exact h.used m a ha hm
  · intro m d hd
    obtain ⟨a, ha, _, _, h3, _⟩ := key m d hd
    rw [h3]
    exact h.owned m a ha
  · intro m d hm; simp at hm
  · intro m hm; simp at hm
  · intro m d hm; simp at hm
  · intro m d hd _ hdr
    obtain ⟨a, ha, _, h2, h3, h4⟩ := key m d hd
    rw [h3, h4]
    simp only [Nat.zero_le, and_self, if_true]
    exact h.depth rfl m a ha (by rw [← h2]; exact hdr)
  · intro m d _ hm1 hm2
    have : st.n_seq_cur ≤ m := hm1
    have : m < st.n_seq_cur := hm2
    omega
  · simp
  · intro b hb; simp at hb

theorem draft_seq_count (params : gpt_params) (cur_p : List llama_token_data)
    {N P : Nat} {root : llama_token} {i s n0 b0 : Nat} {st : spec_state}
    (h : draft_inv N P root i s [] n0 b0 st) (hv : valid_candidates cur_p)
    (hc : st.n_seq_cur ≤ n0 + min s n0) :
    (draft_seq params cur_p i s st).n_seq_cur ≤ n0 + min (s + 1) n0 := by
  have hmono : n0 + min s n0 ≤ n0 + min (s + 1) n0 := by omega
  cases hd : st.drafts[s]? with
  | none =>
    unfold draft_seq
    rw [hd]
    exact Nat.le_trans hc hmono
  | some d =>
    by_cases hskip : d.drafting = false ∨ d.skip = true
    · unfold draft_seq
      rw [hd]
      simp only []
      rw [if_pos hskip]
      exact Nat.le_trans hc hmono
    · have h1 : d.drafting = true := by
        cases hdd : d.drafting with
        | true => rfl
        | false => exact absurd (Or.inl hdd) hskip
      have h2 : d.skip = false := by
        cases hdd : d.skip with
        | false => rfl
        | true => exact absurd (Or.inr hdd) hskip
      by_cases hp : (cur_p.getD 0 ⟨0, 0⟩).p < 0.4
      · rw [draft_seq_stop params cur_p i s st d hd h1 h2 hp]
        exact Nat.le_trans hc hmono
      · have hsl : s < st.n_seq_cur := by
          by_contra hcon
          have := (h.fresh s d hd (by omega)).2.1
          rw [this] at h1; simp at h1
        have hsn : s < n0 := by
          by_contra hcon
          have := h.skipped s d hd (by omega) hsl
          rw [this] at h2; simp at h2
        rw [draft_seq_continue params cur_p i s st d hd h1 h2 hp, add_drafted_n_seq_cur]
        rcases fork_loop_valid params cur_p s st hv hp with e | e
        · rw [e]
          exact Nat.le_trans hc hmono
        · rw [e]
          simp only [split_seq]
          omega

theorem draft_seqs_count (params : gpt_params) (cands : Nat → List llama_token_data)
    {N P : Nat} {root : llama_token} {i n0 b0 : Nat} (hN : params.n_parallel = N)
    (hv : ∀ m, valid_candidates (cands m)) :
    ∀ (todo s : Nat) (st : spec_state), draft_inv N P root i s [] n0 b0 st →
      st.n_seq_cur ≤ n0 + min s n0 →
      (draft_seqs params cands i todo s st).n_seq_cur ≤ n0 + min (s + todo) n0 := by
  intro todo
  induction todo with
  | zero => intro s st _ hc; simpa [draft_seqs] using hc
  | succ todo ih =>
    intro s st h hc
    simp only [draft_seqs]
    have := ih (s + 1) _ (draft_seq_inv params (cands s) hN h)
      (draft_seq_count params (cands s) h (hv s) hc)
    have e : s + 1 + todo = s + (todo + 1) := by omega
    rw [e] at this
    exact this

theorem draft_step_count (params : gpt_params) (cands : Nat → List llama_token_data)
    {N P : Nat} {root : llama_token} {i : Nat} {st : spec_state}
    (hN : params.n_parallel = N) (hv : ∀ m, valid_candidates (cands m))
    (h : round_inv N P root i true st) :
    (draft_step params cands i st).n_seq_cur ≤ 2 * st.n_seq_cur := by
  unfold draft_step
  have := draft_seqs_count params cands hN hv params.n_parallel 0 _ (draft_prelude_inv h)
    (by simp)
  omega

theorem draft_loop_count (params : gpt_params) (cands : Nat → Nat → List llama_token_data)
    {N P : Nat} {root : llama_token} (hN : params.n_parallel = N)
    (hv : ∀ i m, valid_candidates (cands i m)) :
    ∀ (todo i : Nat) (st : spec_state), round_inv N P root i true st →
      (draft_loop params cands todo i st).n_seq_cur ≤ 2 ^ todo * st.n_seq_cur := by
  intro todo
  induction todo with
  | zero => intro i st _; simp [draft_loop]
  | succ todo ih =>
    intro i st h
    have h1 := (draft_inv_round (draft_step_inv params (cands i) hN h)).1
    have hc := draft_step_count params (cands i) hN (hv i) h
    have hpow : 2 ^ (todo + 1) = 2 ^ todo * 2 := pow_succ 2 todo
    have hone : 1 ≤ 2 ^ todo := Nat.one_le_two_pow
    have hbig : 2 * st.n_seq_cur ≤ 2 ^ (todo + 1) * st.n_seq_cur := by
      rw [hpow]
      calc 2 * st.n_seq_cur = 1 * (2 * st.n_seq_cur) := by omega
        _ ≤ 2 ^ todo * (2 * st.n_seq_cur) := Nat.mul_le_mul_right _ hone
        _ = 2 ^ todo * 2 * st.n_seq_cur := by rw [Nat.mul_assoc]
    simp only [draft_loop]
    split
    · exact Nat.le_trans hc hbig
    · split
      · exact Nat.le_trans hc hbig
      · have := ih (i + 1) _ (round_inv_decode h1)
        simp only [] at this
        calc _ ≤ 2 ^ todo * (draft_step params (cands i) i st).n_seq_cur := this
          _ ≤ 2 ^ todo * (2 * st.n_seq_cur) := Nat.mul_le_mul_left _ hc
          _ = 2 ^ (todo + 1) * st.n_seq_cur := by rw [hpow, Nat.mul_assoc]

theorem draft_loop_head (params : gpt_params) (cands : Nat → Nat → List llama_token_data) :
    ∀ (k i : Nat) (st x : spec_state), draft_head params cands k i st = some x →
      ∀ m, draft_loop params cands (k + m) i st = draft_loop params cands m (i + k) x := by
  intro k
  induction k with
  | zero =>
    intro i st x h m
    simp only [draft_head, Option.some.injEq] at h
    subst h
    simp
  | succ k ih =>
    intro i st x h m
    simp only [draft_head] at h
    have e : k + 1 + m = (k + m) + 1 := by omega
    rw [e]
    simp only [draft_loop]
    by_cases h1 : (draft_step params (cands i) i st).batch_dft.length = 0
    · rw [if_pos h1] at h; simp at h
    · rw [if_neg h1] at h ⊢
      by_cases h2 : (draft_step params (cands i) i st).batch_tgt.length ≥ params.n_draft
      · rw [if_pos h2] at h; simp at h
      · rw [if_neg h2] at h ⊢
        rw [ih (i + 1) _ x h m]
        have e2 : i + 1 + k = i + (k + 1) := by omega
        rw [e2]

theorem draft_head_inv (params : gpt_params) (cands : Nat → Nat → List llama_token_data)
    {N P : Nat} {root : llama_token} (hN : params.n_parallel = N) :
    ∀ (k i : Nat) (st x : spec_state), round_inv N P root i true st →
      draft_head params cands k i st = some x → round_inv N P root (i + k) true x := by
  intro k
  induction k with
  | zero =>
    intro i st x h hx
    simp only [draft_head, Option.some.injEq] at hx
    subst hx
    exact h
  | succ k ih =>
    intro i st x h hx
    have h1 := (draft_inv_round (draft_step_inv params (cands i) hN h)).1
    simp only [draft_head] at hx
    by_cases c1 : (draft_step params (cands i) i st).batch_dft.length = 0
    · rw [if_pos c1] at hx; simp at hx
    · rw [if_neg c1] at hx
      by_cases c2 : (draft_step params (cands i) i st).batch_tgt.length ≥ params.n_draft
      · rw [if_pos c2] at hx; simp at hx
      · rw [if_neg c2] at hx
        have := ih (i + 1) _ x (round_inv_decode h1) hx
        have e : i + 1 + k = i + (k + 1) := by omega
        rw [e] at this
        exact this

/-- Claim C20. When every candidate list of a round has non-negative
probabilities that sum to at most 1: for a branch that passes the continuation
test the fork test cannot succeed for both rank 1 and rank 2, so the fork loop
either does nothing or splits the branch once, into slot `n_seq_cur`, and
`n_seq_cur` grows by at most 1. In a run with `n_seq_dft >= 1`, every depth
step of the round at most doubles `n_seq_cur`, and after `todo` depth steps
`n_seq_cur` is at most `2 ^ todo`. -/
theorem one_fork_per_depth_step (params : gpt_params) (sample_tgt : Nat → Nat → llama_token)
    (sample_dft : Nat → Nat → Nat → List llama_token_data) (inp : List llama_token)
    (r : Nat) (st : spec_state) (h1 : 1 ≤ params.n_parallel)
    (h : after_reconcile params sample_tgt sample_dft inp r = some st)
    (hv : ∀ i s, valid_candidates (sample_dft r i s)) :
    (∀ (i s : Nat) (y : spec_state), ¬ ((sample_dft r i s).getD 0 ⟨0, 0⟩).p < 0.4 →
      ¬ (((sample_dft r i s).getD 1 ⟨0, 0⟩).p > 0.3 ∧
        ((sample_dft r i s).getD 2 ⟨0, 0⟩).p > 0.3) ∧
      (fork_loop params (sample_dft r i s) s 7 1 y [s] = (y, [s]) ∨
        fork_loop params (sample_dft r i s) s 7 1 y [s] =
          (split_seq s y, [s, y.n_seq_cur])) ∧
      (fork_loop params (sample_dft r i s) s 7 1 y [s]).1.n_seq_cur ≤ y.n_seq_cur + 1) ∧
    (∀ (k : Nat) (x : spec_state),
      draft_head params (sample_dft r) k 0 (round_start params st) = some x →
      (draft_step params (sample_dft r k) k x).n_seq_cur ≤ 2 * x.n_seq_cur) ∧
    (∀ todo,
      (draft_loop params (sample_dft r) todo 0 (round_start params st)).n_seq_cur ≤
        2 ^ todo) := by
  have hrun := run_inv_reachable params sample_tgt sample_dft inp h1 r st h
  have hstart := (round_init_inv params h1 hrun).1
  refine ⟨?_, ?_, ?_⟩
  · intro i s y h0
    have hf := fork_loop_valid params (sample_dft r i s) s y (hv i s) h0
    refine ⟨fun c => valid_candidates_ranks _ (hv i s) h0 c.1 c.2, hf, ?_⟩
    rcases hf with e | e
    · rw [e]; exact Nat.le_succ _
    · rw [e]; exact Nat.le_refl _
  · intro k x hx
    have hk := draft_head_inv params (sample_dft r) rfl k 0 _ x hstart hx
    exact draft_step_count params (sample_dft r k) rfl (hv k) (by simpa using hk)
  · intro todo
    have := draft_loop_count params (sample_dft r) rfl hv todo 0 _ hstart
    have hone : (round_start params st).n_seq_cur = 1 := rfl
    rw [hone, Nat.mul_one] at this
    exact this

/-- Witness for `one_fork_per_depth_step`: the first round of a run with two
slots; every candidate list has the probabilities 0.5, 0.35 and 0.15, so branch
0 is split at depth 0 and `n_seq_cur` is 2 after one depth step. -/
theorem one_fork_per_depth_step_witness :
    ∃ st, after_reconcile fork_params fork_sample_tgt (fun _ _ _ => split_candidates) [1] 0 =
        some st ∧
      1 ≤ fork_params.n_parallel ∧ valid_candidates split_candidates ∧
      (draft_loop fork_params (fun _ _ => split_candidates) 1 0
        (round_start fork_params st)).n_seq_cur ≤ 2 ^ 1 := by
  have hs : (after_reconcile fork_params fork_sample_tgt (fun _ _ _ => split_candidates)
      [1] 0).isSome = true := by decide!
  obtain ⟨st, hst⟩ := Option.isSome_iff_exists.mp hs
  have hv : valid_candidates split_candidates := ⟨by decide!, by decide!⟩
  exact ⟨st, hst, by decide, hv,
    (one_fork_per_depth_step fork_params fork_sample_tgt (fun _ _ _ => split_candidates) [1] 0
      st (by decide) hst (fun _ _ => hv)).2.2 1⟩

/-! ## Progress of a run -/

theorem after_reconcile_zero (params : gpt_params) (sample_tgt : Nat → Nat → llama_token)
    (sample_dft : Nat → Nat → Nat → List llama_token_data) (inp : List llama_token)
    (st : spec_state) (h : after_reconcile params sample_tgt sample_dft inp 0 = some st) :
    ∃ v, verify params (sample_tgt 0) (init_state params inp) = some v ∧
      st = decode_root (reconcile v) := by
  simp only [after_reconcile, verify_reconcile] at h
  cases hvv : verify params (sample_tgt 0) (init_state params inp) with
  | none => rw [hvv] at h; simp at h
  | some v =>
    rw [hvv] at h
    simp only [Option.map_some', Option.some.injEq] at h
    exact ⟨v, rfl, h.symm⟩

theorem after_reconcile_succ (params : gpt_params) (sample_tgt : Nat → Nat → llama_token)
    (sample_dft : Nat → Nat → Nat → List llama_token_data) (inp : List llama_token)
    (r : Nat) (st : spec_state)
    (h : after_reconcile params sample_tgt sample_dft inp (r + 1) = some st) :
    ∃ st0 v, after_reconcile params sample_tgt sample_dft inp r = some st0 ∧
      generation_done params st0 = false ∧
      verify params (sample_tgt (r + 1)) (draft_phase params (sample_dft r) st0) = some v ∧
      st = decode_root (reconcile v) := by
  simp only [after_reconcile] at h
  cases hp : after_reconcile params sample_tgt sample_dft inp r with
  | none => rw [hp] at h; simp at h
  | some st0 =>
    rw [hp] at h
    simp only at h
    by_cases hdone : generation_done params st0 = true
    · rw [if_pos hdone] at h; simp at h
    · rw [if_neg hdone] at h
      unfold verify_reconcile at h
      cases hvv : verify params (sample_tgt (r + 1)) (draft_phase params (sample_dft r) st0) with
      | none => rw [hvv] at h; simp at h
      | some v =>
        rw [hvv] at h
        simp only [Option.map_some', Option.some.injEq] at h
        exact ⟨st0, v, rfl, by simpa using hdone, hvv, h.symm⟩

theorem verify_loop_reads_length (params : gpt_params) (sample : Nat → llama_token) :
    ∀ (fuel : Nat) (st v : spec_state), verify_loop params sample fuel st = some v →
      v.tgt_reads.length = st.tgt_reads.length + (v.i_dft - st.i_dft) + 1 := by
  intro fuel
  induction fuel with
  | zero => intro st v h; simp [verify_loop] at h
  | succ fuel ih =>
    intro st v h
    simp only [verify_loop] at h
    by_cases hm : (verify_step params (sample st.i_dft) st).2 = true
    · rw [if_pos hm] at h
      have hle := (verify_loop_frame params sample _ _ _ h).1
      have := ih _ _ h
      simp only [verify_step, List.length_append, List.length_singleton] at this hle
      omega
    · rw [if_neg hm] at h
      simp only [Option.some.injEq] at h
      subst h
      simp [verify_step]

theorem le_foldr_max (l : List Nat) (x : Nat) (h : x ∈ l) : x ≤ l.foldr max 0 := by
  induction l with
  | nil => simp at h
  | cons a as ih =>
    simp only [List.foldr_cons]
    rcases List.mem_cons.mp h with e | e
    · rw [e]; exact Nat.le_max_left _ _
    · exact Nat.le_trans (ih e) (Nat.le_max_right _ _)

theorem verify_accepted_le (params : gpt_params) (sample : Nat → llama_token)
    (x v : spec_state) (h : verify params sample x = some v) :
    ∃ n, v.i_dft ≤ n ∧ (n = 0 ∨ ∃ d ∈ x.drafts, d.active = true ∧ d.tokens.length = n) := by
  unfold verify at h
  by_cases hk : 0 < v.i_dft
  · obtain ⟨d, hd, hact, htok⟩ := (verify_loop_kept params sample _ _ _ h).2.1 hk
    simp only at hd
    refine ⟨d.tokens.length, ?_, Or.inr ⟨d, List.getElem?_mem hd, hact, rfl⟩⟩
    have := htok (v.i_dft - 1) (Nat.zero_le _) (by omega)
    have := tokens_lt_of_getElem? this
    omega
  · exact ⟨0, by omega, Or.inl rfl⟩

theorem verify_counts (params : gpt_params) (sample : Nat → llama_token)
    (x v : spec_state) (h : verify params sample x = some v) :
    v.i_dft ≤ longest_active x.drafts ∧
    v.tgt_reads.length = x.tgt_reads.length + (v.i_dft + 1) ∧
    v.out.length = x.out.length + (v.i_dft + 1) ∧
    v.n_predict = x.n_predict + (v.i_dft + 1) ∧
    v.n_accept = x.n_accept + v.i_dft ∧
    v.n_past_tgt = x.n_past_tgt + v.i_dft ∧
    v.n_past_dft = x.n_past_dft + v.i_dft := by
  obtain ⟨n, hn, hcase⟩ := verify_accepted_le params sample x v h
  unfold verify at h
  have hf := verify_loop_frame params sample _ _ _ h
  have ho := (verify_loop_out params sample _ _ _ h).1
  have hr := verify_loop_reads_length params sample _ _ _ h
  simp only [Nat.sub_zero] at hf ho hr
  refine ⟨?_, by omega, ?_, by omega, hf.2.1, hf.2.2.1, hf.2.2.2.1⟩
  · rcases hcase with e | ⟨d, hd, hact, hlen⟩
    · omega
    · apply Nat.le_trans hn
      apply le_foldr_max
      rw [List.mem_map]
      exact ⟨d, List.mem_filter.mpr ⟨hd, by simpa using hact⟩, hlen⟩
  · rw [ho]
    simp

theorem draft_phase_counts (params : gpt_params) (cands : Nat → Nat → List llama_token_data)
    (st : spec_state) :
    (draft_phase params cands st).n_predict = st.n_predict ∧
    (draft_phase params cands st).n_accept = st.n_accept ∧
    (draft_phase params cands st).has_eos = st.has_eos ∧
    (draft_phase params cands st).out = st.out ∧
    (draft_phase params cands st).tgt_reads = st.tgt_reads ∧
    (draft_phase params cands st).n_past_dft = st.n_past_dft ∧
    (draft_phase params cands st).n_past_tgt = st.n_past_tgt + 1 := by
  have hf := draft_frame_trans (round_start_frame params st)
    (draft_loop_frame params cands params.n_draft 0 (round_start params st))
  simp only [draft_frame] at hf
  obtain ⟨_, h2, h3, h4, h5, h6, h7, _, h9, _⟩ := hf
  refine ⟨h6, h5, h7, h2, h9, h4, ?_⟩
  show _ + 1 = _
  rw [h3]

theorem after_reconcile_counts (params : gpt_params) (sample_tgt : Nat → Nat → llama_token)
    (sample_dft : Nat → Nat → Nat → List llama_token_data) (inp : List llama_token) :
    ∀ (r : Nat) (st : spec_state),
      after_reconcile params sample_tgt sample_dft inp r = some st →
      st.n_predict = st.n_accept + (r + 1) := by
  intro r
  induction r with
  | zero =>
    intro st h
    obtain ⟨v, hv, rfl⟩ := after_reconcile_zero params sample_tgt sample_dft inp st h
    have hc := verify_counts params _ _ _ hv
    show v.n_predict = v.n_accept + 1
    rw [hc.2.2.2.1, hc.2.2.2.2.1]
    simp only [init_state]
    omega
  | succ r ih =>
    intro st h
    obtain ⟨st0, v, h0, _, hv, rfl⟩ := after_reconcile_succ params sample_tgt sample_dft inp r st h
    have hc := verify_counts params _ _ _ hv
    have hd := draft_phase_counts params (sample_dft r) st0
    have := ih st0 h0
    show v.n_predict = v.n_accept + (r + 1 + 1)
    rw [hc.2.2.2.1, hc.2.2.2.2.1, hd.1, hd.2.1]
    omega

theorem verify_reconcile_counts (params : gpt_params) (sample : Nat → llama_token)
    (x st1 : spec_state) (h : verify_reconcile params sample x = some st1) :
    ∃ v, verify params sample x = some v ∧ st1 = decode_root (reconcile v) ∧
      st1.n_predict = x.n_predict + (v.i_dft + 1) := by
  unfold verify_reconcile at h
  cases hvv : verify params sample x with
  | none => rw [hvv] at h; simp at h
  | some v =>
    rw [hvv] at h
    simp only [Option.map_some', Option.some.injEq] at h
    subst h
    exact ⟨v, rfl, rfl, (verify_counts params sample x v hvv).2.2.2.1⟩

theorem generate_total (params : gpt_params) (sample_tgt : Nat → Nat → llama_token)
    (sample_dft : Nat → Nat → Nat → List llama_token_data) :
    ∀ (fuel r : Nat) (x : spec_state), r ≤ x.n_predict → 0 < fuel →
      params.n_predict.toNat + 1 ≤ r + fuel →
      ∃ st, generate params sample_tgt sample_dft fuel r x = some st := by
  intro fuel
  induction fuel with
  | zero => intro r x _ h; omega
  | succ fuel ih =>
    intro r x hr _ hB
    obtain ⟨st1, hst1⟩ := verify_reconcile_total params (sample_tgt r) x
    obtain ⟨v, _, _, hn⟩ := verify_reconcile_counts params _ x st1 hst1
    simp only [generate]
    rw [hst1]
    simp only
    by_cases hdone : generation_done params st1 = true
    · rw [if_pos hdone]
      exact ⟨st1, rfl⟩
    · rw [if_neg hdone]
      have hle : ¬ ((st1.n_predict : Int) > params.n_predict) := by
        intro c
        apply hdone
        simp [generation_done, c]
      have hd := (draft_phase_counts params (sample_dft r) st1).1
      apply ih
      · rw [hd]; omega
      · omega
      · omega

theorem after_reconcile_rounds (params : gpt_params) (sample_tgt : Nat → Nat → llama_token)
    (sample_dft : Nat → Nat → Nat → List llama_token_data) (inp : List llama_token)
    (r : Nat) (st : spec_state)
    (h : after_reconcile params sample_tgt sample_dft inp r = some st) :
    r ≤ params.n_predict.toNat := by
  cases r with
  | zero => exact Nat.zero_le _
  | succ r =>
    obtain ⟨st0, v, h0, hdone, _, _⟩ :=
      after_reconcile_succ params sample_tgt sample_dft inp r st h
    have hc := after_reconcile_counts params sample_tgt sample_dft inp r st0 h0
    have hle : ¬ ((st0.n_predict : Int) > params.n_predict) := by
      intro c
      simp [generation_done, c] at hdone
    omega

/-- Claim C19. The verification loop of every round returns; the number of
tokens it accepts (`i_dft` on exit) is at most the longest token history of an
active branch, it samples the target once more than that (`tgt_reads` grows by
`i_dft + 1`), and it prints and counts exactly `i_dft + 1` tokens while
`n_accept` grows by `i_dft`. After the reconciliation of outer iteration `r`,
that is after `r + 1` rounds, `n_predict = n_accept + (r + 1)`. No outer
iteration beyond number `max (n_predict budget, 0)` is entered, and the outer
loop ends within `max (budget, 0) + 1` iterations, whatever the two models
return. -/
theorem round_progress (params : gpt_params) (sample_tgt : Nat → Nat → llama_token)
    (sample_dft : Nat → Nat → Nat → List llama_token_data) (inp : List llama_token) :
    (∀ (sample : Nat → llama_token) (x : spec_state),
      ∃ v, verify params sample x = some v ∧
        v.i_dft ≤ longest_active x.drafts ∧
        v.tgt_reads.length = x.tgt_reads.length + (v.i_dft + 1) ∧
        v.out.length = x.out.length + (v.i_dft + 1) ∧
        v.n_predict = x.n_predict + (v.i_dft + 1) ∧
        v.n_accept = x.n_accept + v.i_dft) ∧
    (∀ (r : Nat) (st : spec_state),
      after_reconcile params sample_tgt sample_dft inp r = some st →
      st.n_predict = st.n_accept + (r + 1) ∧ r ≤ params.n_predict.toNat) ∧
    (∃ st, generate params sample_tgt sample_dft (params.n_predict.toNat + 1) 0
      (init_state params inp) = some st) := by
  refine ⟨?_, ?_, ?_⟩
  · intro sample x
    obtain ⟨v, hv⟩ := verify_total params sample x
    have hc := verify_counts params sample x v hv
    exact ⟨v, hv, hc.1, hc.2.1, hc.2.2.1, hc.2.2.2.1, hc.2.2.2.2.1⟩
  · intro r st h
    exact ⟨after_reconcile_counts params sample_tgt sample_dft inp r st h,
      after_reconcile_rounds params sample_tgt sample_dft inp r st h⟩
  · exact generate_total params sample_tgt sample_dft _ 0 _ (Nat.zero_le _) (by omega) (by omega)

/-- Witness for `round_progress`: after the second reconciliation of a run with
one branch, two rounds are complete and `n_predict = n_accept + 2`. -/
theorem round_progress_witness :
    ∃ st, after_reconcile agree_params agree_sample_tgt agree_sample_dft [1] 1 = some st ∧
      st.n_predict = st.n_accept + (1 + 1) := by
  have hs : (after_reconcile agree_params agree_sample_tgt agree_sample_dft [1] 1).isSome =
      true := by decide!
  obtain ⟨st, hst⟩ := Option.isSome_iff_exists.mp hs
  exact ⟨st, hst,
    ((round_progress agree_params agree_sample_tgt agree_sample_dft [1]).2.1 1 st hst).1⟩

/-! ## Target cursors in the draft loop -/

theorem split_seq_cur {N P : Nat} {root : llama_token} {i sp : Nat} {pending : List Nat}
    {n0 b0 : Nat} {st : spec_state} {s : Nat}
    (h : draft_inv N P root i sp pending n0 b0 st) (c : cursor_inv P i sp pending st)
    (hs : s ∈ pending) (hlt : st.n_seq_cur < N) :
    cursor_inv P i sp (pending ++ [st.n_seq_cur]) (split_seq s st) := by
  have hsl := h.pend_lt s hs
  obtain ⟨dp, hp⟩ := getElem?_some_of_lt (l := st.drafts) (m := s) (by rw [h.len]; omega)
  obtain ⟨dc, hdc⟩ := getElem?_some_of_lt (l := st.drafts) (m := st.n_seq_cur)
    (by rw [h.len]; omega)
  have hfresh : ∀ b ∈ st.batch_tgt, st.n_seq_cur ∉ b.seq_id := by
    intro b hb hx
    exact Nat.lt_irrefl _ (h.owners b hb _ hx)
  -- the pool after the split
  have key : ∀ (m : Nat) (d : seq_draft), (split_seq s st).drafts[m]? = some d →
      (st.n_seq_cur = m ∧ d.tokens = dp.tokens ∧ d.i_batch_tgt = dp.i_batch_tgt) ∨
      (¬ st.n_seq_cur = m ∧ st.drafts[m]? = some d) := by
    intro m d hd
    simp only [split_seq] at hd
    obtain ⟨a, ha, hda⟩ := getElem?_modify_some hd
    by_cases hxc : st.n_seq_cur = m
    · rw [if_pos hxc, hp] at hda
      subst hda
      exact Or.inl ⟨hxc, rfl, rfl⟩
    · rw [if_neg hxc] at hda
      subst hda
      exact Or.inr ⟨hxc, ha⟩
  have keep : ∀ (m : Nat) (d : seq_draft), ¬ st.n_seq_cur = m → st.drafts[m]? = some d →
      (split_seq s st).drafts[m]? = some d := by
    intro m d hne hd
    simp only [split_seq]
    rw [getElem?_modify_eq, hd]
    simp only [Option.map_some', if_neg hne]
  have child : ∃ d, (split_seq s st).drafts[st.n_seq_cur]? = some d ∧
      d.i_batch_tgt = dp.i_batch_tgt := by
    simp only [split_seq]
    rw [getElem?_modify_eq, hdc, hp]
    simp only [Option.map_some', if_true]
    exact ⟨_, rfl, rfl⟩
  -- the target batch after the split
  have bkey : ∀ (t : Nat) (b : llama_batch_slot), st.batch_tgt[t]? = some b →
      (split_seq s st).batch_tgt[t]? =
        some (if s ∈ b.seq_id then { b with seq_id := b.seq_id ++ [st.n_seq_cur] } else b) := by
    intro t b hb
    simp only [split_seq]
    rw [List.getElem?_map, hb]
    rfl
  have bkey2 : ∀ (t : Nat) (b1 : llama_batch_slot), (split_seq s st).batch_tgt[t]? = some b1 →
      ∃ b, st.batch_tgt[t]? = some b ∧
        b1 = if s ∈ b.seq_id then { b with seq_id := b.seq_id ++ [st.n_seq_cur] } else b := by
    intro t b1 hb1
    simp only [split_seq] at hb1
    exact getElem?_map_some hb1
  refine
    { cur_len := ?_, cur_slot := ?_, own_cur := ?_, own_nodup := ?_, tok_le := ?_,
      dft_tgt := ?_, past_cur := c.past_cur }
  · intro m d hd
    rcases key m d hd with ⟨_, e1, e2⟩ | ⟨_, ha⟩
    · rw [e1, e2]; exact c.cur_len s dp hp
    · exact c.cur_len m d ha
  · intro m d k t hd hk
    rcases key m d hd with ⟨e0, e1, e2⟩ | ⟨_, ha⟩
    · rw [e2] at hk
      obtain ⟨b, hb, hpos, htok, hsb⟩ := c.cur_slot s dp k t hp hk
      refine ⟨_, bkey t b hb, ?_, ?_, ?_⟩
      · rw [if_pos hsb]; exact hpos
      · rw [if_pos hsb, e1]; exact htok
      · rw [if_pos hsb, ← e0]; simp
    · obtain ⟨b, hb, hpos, htok, hmb⟩ := c.cur_slot m d k t ha hk
      refine ⟨_, bkey t b hb, ?_, ?_, ?_⟩
      · split
        · exact hpos
        · exact hpos
      · split
        · exact htok
        · exact htok
      · split
        · exact List.mem_append_left _ hmb
        · exact hmb
  · intro t b1 y hb1 hy
    obtain ⟨b, hb, rfl⟩ := bkey2 t b1 hb1
    have old : y ∈ b.seq_id → ∃ d, (split_seq s st).drafts[y]? = some d ∧ t ∈ d.i_batch_tgt := by
      intro hyb
      obtain ⟨d, hd, ht⟩ := c.own_cur t b y hb hyb
      have hyl := h.owners b (List.getElem?_mem hb) y hyb
      exact ⟨d, keep y d (by omega) hd, ht⟩
    by_cases hsb : s ∈ b.seq_id
    · rw [if_pos hsb] at hy
      simp only [List.mem_append, List.mem_singleton] at hy
      rcases hy with hy | hy
      · exact old hy
      · obtain ⟨d, hd, ht⟩ := c.own_cur t b s hb hsb
        rw [hp] at hd
        simp only [Option.some.injEq] at hd
        subst hd
        obtain ⟨dn, hdn, hcur⟩ := child
        rw [hy]
        exact ⟨dn, hdn, by rw [hcur]; exact ht⟩
    · rw [if_neg hsb] at hy
      exact old hy
  · intro b1 hb1
    simp only [split_seq] at hb1
    obtain ⟨b, hb, rfl⟩ := List.mem_map.mp hb1
    have hn := c.own_nodup b hb
    by_cases hsb : s ∈ b.seq_id
    · rw [if_pos hsb]
      refine ⟨?_, by simp⟩
      show (b.seq_id ++ [st.n_seq_cur]).Nodup
      rw [List.nodup_append]
      refine ⟨hn.1, by simp, ?_⟩
      intro a ha hb2
      simp only [List.mem_singleton] at hb2
      subst hb2
      exact hfresh b hb ha
    · rw [if_neg hsb]
      exact hn
  · intro m d hd
    rcases key m d hd with ⟨_, e1, _⟩ | ⟨_, ha⟩
    · rw [e1]; exact c.tok_le s dp hp
    · exact c.tok_le m d ha
  · intro b hb
    have hb0 : b ∈ st.batch_dft := hb
    obtain ⟨hmem, hown⟩ := c.dft_tgt b hb0
    have hsb : ¬ s ∈ b.seq_id := fun e => (hown s e).1 hs
    refine ⟨?_, ?_⟩
    · simp only [split_seq]
      exact List.mem_map.mpr ⟨b, hmem, by rw [if_neg hsb]⟩
    · intro y hy
      have hyl := h.owners b hmem y hy
      obtain ⟨h1, h2⟩ := hown y hy
      refine ⟨?_, ?_⟩
      · simp only [List.mem_append, List.mem_singleton, not_or]
        exact ⟨h1, by omega⟩
      · rcases h2 with h2 | ⟨d, hd, hsk⟩
        · exact Or.inl h2
        · exact Or.inr ⟨d, keep y d (by omega) hd, hsk⟩

theorem fork_loop_cur (params : gpt_params) (cur_p : List llama_token_data) (s : Nat)
    {N P : Nat} {root : llama_token} {i sp n0 b0 : Nat} (hN : params.n_parallel = N) :
    ∀ (todo f : Nat) (st : spec_state) (sa : List Nat),
      draft_inv N P root i sp sa n0 b0 st → cursor_inv P i sp sa st → s ∈ sa →
      cursor_inv P i sp (fork_loop params cur_p s todo f st sa).2
        (fork_loop params cur_p s todo f st sa).1 := by
  intro todo
  induction todo with
  | zero => intro f st sa _ c _; simpa [fork_loop] using c
  | succ todo ih =>
    intro f st sa h c hs
    simp only [fork_loop]
    by_cases hc : st.n_seq_cur < params.n_parallel ∧ (cur_p.getD f ⟨0, 0⟩).p > 0.3
    · rw [if_pos hc]
      apply ih
      · exact split_seq_inv h hs (by rw [← hN]; exact hc.1)
      · exact split_seq_cur h c hs (by rw [← hN]; exact hc.1)
      · exact List.mem_append_left _ hs
    · rw [if_neg hc]
      exact c

theorem add_one_cur {N P : Nat} {root : llama_token} {i sp : Nat} {x : Nat} {rest : List Nat}
    {n0 b0 : Nat} {st : spec_state}
    (h : draft_inv N P root i sp (x :: rest) n0 b0 st)
    (c : cursor_inv P i sp (x :: rest) st) (id : llama_token)
    (dr : Bool → Bool) (ib : Nat → Nat) (bd : List llama_batch_slot)
    (hbd : ∀ b ∈ bd, b ∈ st.batch_dft ∨
      b = { token := id, pos := st.n_past_tgt + i + 1, seq_id := [x], logits := true }) :
    cursor_inv P i sp rest
      { st with
        drafts := List.modify
          (fun d => { d with drafting := dr d.drafting, i_batch_dft := ib d.i_batch_dft }) x
          (List.modify (fun d =>
            { d with
              tokens := d.tokens ++ [id],
              ctx_sampling := llama_sampling_accept d.ctx_sampling id,
              i_batch_tgt := d.i_batch_tgt ++ [st.batch_tgt.length] }) x st.drafts),
        batch_tgt := st.batch_tgt ++
          [{ token := id, pos := st.n_past_tgt + i + 1, seq_id := [x], logits := true }],
        batch_dft := bd } := by
  have hxl := h.pend_lt x (List.mem_cons_self _ _)
  have hnd := List.nodup_cons.mp h.pend_nodup
  obtain ⟨dx, hdx⟩ := getElem?_some_of_lt (l := st.drafts) (m := x)
    (by rw [h.len]; have := h.cur_le; omega)
  have hxlen := h.pend_len x dx (List.mem_cons_self _ _) hdx
  have hxcur := c.cur_len x dx hdx
  have key : ∀ (m : Nat) (d : seq_draft),
      (List.modify
          (fun d => { d with drafting := dr d.drafting, i_batch_dft := ib d.i_batch_dft }) x
          (List.modify (fun d =>
            { d with
              tokens := d.tokens ++ [id],
              ctx_sampling := llama_sampling_accept d.ctx_sampling id,
              i_batch_tgt := d.i_batch_tgt ++ [st.batch_tgt.length] }) x st.drafts))[m]? = some d →
      ∃ a, st.drafts[m]? = some a ∧ d.skip = a.skip ∧
        (x = m → d.tokens = a.tokens ++ [id] ∧
          d.i_batch_tgt = a.i_batch_tgt ++ [st.batch_tgt.length]) ∧ (¬ x = m → d = a) := by
    intro m d hd
    obtain ⟨a1, ha1, hd1⟩ := getElem?_modify_some hd
    obtain ⟨a, ha, hd2⟩ := getElem?_modify_some ha1
    refine ⟨a, ha, ?_⟩
    by_cases hxm : x = m
    · rw [if_pos hxm] at hd1 hd2
      subst hd2
      subst hd1
      exact ⟨rfl, fun _ => ⟨rfl, rfl⟩, fun hne => absurd hxm hne⟩
    · rw [if_neg hxm] at hd1 hd2
      subst hd2
      subst hd1
      exact ⟨rfl, fun e => absurd e hxm, fun _ => rfl⟩
  have keyr : ∀ (m : Nat) (a : seq_draft), st.drafts[m]? = some a →
      ∃ d, (List.modify
          (fun d => { d with drafting := dr d.drafting, i_batch_dft := ib d.i_batch_dft }) x
          (List.modify (fun d =>
            { d with
              tokens := d.tokens ++ [id],
              ctx_sampling := llama_sampling_accept d.ctx_sampling id,
              i_batch_tgt := d.i_batch_tgt ++ [st.batch_tgt.length] }) x st.drafts))[m]? = some d ∧
        d.skip = a.skip ∧
        (x = m → d.i_batch_tgt = a.i_batch_tgt ++ [st.batch_tgt.length]) ∧
        (¬ x = m → d = a) := by
    intro m a ha
    rw [getElem?_modify_eq, getElem?_modify_eq, ha]
    simp only [Option.map_some']
    by_cases hxm : x = m
    · simp only [if_pos hxm]
      exact ⟨_, rfl, rfl, fun _ => rfl, fun hne => absurd hxm hne⟩
    · simp only [if_neg hxm]
      exact ⟨_, rfl, rfl, fun e => absurd e hxm, fun _ => rfl⟩
  have bold : ∀ (t : Nat) (b : llama_batch_slot), st.batch_tgt[t]? = some b →
      (st.batch_tgt ++
        [{ token := id, pos := st.n_past_tgt + i + 1, seq_id := [x], logits := true }])[t]? =
        some b := by
    intro t b hb
    rw [List.getElem?_append_left (List.getElem?_eq_some.mp hb).1]
    exact hb
  have bnew : (st.batch_tgt ++
        [{ token := id, pos := st.n_past_tgt + i + 1, seq_id := [x],
           logits := true }])[st.batch_tgt.length]? =
        some { token := id, pos := st.n_past_tgt + i + 1, seq_id := [x], logits := true } := by
    simp
  refine
    { cur_len := ?_, cur_slot := ?_, own_cur := ?_, own_nodup := ?_, tok_le := ?_,
      dft_tgt := ?_, past_cur := c.past_cur }
  · intro m d hd
    obtain ⟨a, ha, _, h4, h5⟩ := key m d hd
    by_cases hxm : x = m
    · rw [(h4 hxm).1, (h4 hxm).2, List.length_append, List.length_append, c.cur_len m a ha]
      rfl
    · rw [h5 hxm]; exact c.cur_len m a ha
  · intro m d k t hd hk
    obtain ⟨a, ha, _, h4, h5⟩ := key m d hd
    by_cases hxm : x = m
    · rw [(h4 hxm).2] at hk
      rw [(h4 hxm).1]
      have hax : a = dx := by
        rw [← hxm, hdx] at ha
        exact (Option.some.inj ha).symm
      by_cases hkl : k < a.i_batch_tgt.length
      · rw [List.getElem?_append_left hkl] at hk
        obtain ⟨b, hb, hpos, htok, hmb⟩ := c.cur_slot m a k t ha hk
        refine ⟨b, bold t b hb, hpos, ?_, hmb⟩
        have := tokens_lt_of_getElem? htok
        rw [List.getElem?_append_left this]
        exact htok
      · rw [List.getElem?_append_right (by omega)] at hk
        have hk0 : k - a.i_batch_tgt.length = 0 := by
          by_contra hne
          rw [List.getElem?_eq_none (by simp; omega)] at hk
          simp at hk
        rw [hk0] at hk
        simp only [List.getElem?_cons_zero, Option.some.injEq] at hk
        subst hk
        have hk1 : k = a.tokens.length := by
          rw [hax] at hkl hk0 ⊢
          omega
        refine ⟨_, bnew, ?_, ?_, ?_⟩
        · show st.n_past_tgt + i + 1 = P + k
          rw [h.past, hk1, hax]
          omega
        · show (a.tokens ++ [id])[k]? = some id
          rw [hk1]
          simp
        · show m ∈ [x]
          rw [hxm]
          exact List.mem_singleton_self _
    · rw [h5 hxm] at hk ⊢
      obtain ⟨b, hb, hpos, htok, hmb⟩ := c.cur_slot m a k t ha hk
      exact ⟨b, bold t b hb, hpos, htok, hmb⟩
  · intro t b y hb hy
    by_cases htl : t < st.batch_tgt.length
    · have hb0 : st.batch_tgt[t]? = some b := by
        rw [← hb]
        exact (List.getElem?_append_left htl).symm
      obtain ⟨a, ha, ht⟩ := c.own_cur t b y hb0 hy
      obtain ⟨d, hd, _, h3, h4⟩ := keyr y a ha
      refine ⟨d, hd, ?_⟩
      by_cases hxy : x = y
      · rw [h3 hxy]; exact List.mem_append_left _ ht
      · rw [h4 hxy]; exact ht
    · have hb1 : (st.batch_tgt ++
          [{ token := id, pos := st.n_past_tgt + i + 1, seq_id := [x],
             logits := true }])[t]? = some b := hb
      rw [List.getElem?_append_right (by omega)] at hb1
      have ht0 : t - st.batch_tgt.length = 0 := by
        by_contra hne
        rw [List.getElem?_eq_none (by simp; omega)] at hb1
        simp at hb1
      rw [ht0] at hb1
      simp only [List.getElem?_cons_zero, Option.some.injEq] at hb1
      subst hb1
      simp only [List.mem_singleton] at hy
      subst hy
      obtain ⟨d, hd, _, h3, _⟩ := keyr y dx hdx
      refine ⟨d, hd, ?_⟩
      rw [h3 rfl]
      have : t = st.batch_tgt.length := by omega
      rw [this]
      simp
  · intro b hb
    have hb1 : b ∈ st.batch_tgt ++
        [{ token := id, pos := st.n_past_tgt + i + 1, seq_id := [x], logits := true }] := hb
    simp only [List.mem_append, List.mem_singleton] at hb1
    rcases hb1 with hb1 | hb1
    · exact c.own_nodup b hb1
    · subst hb1
      simp
  · intro m d hd
    obtain ⟨a, ha, _, h4, h5⟩ := key m d hd
    by_cases hxm : x = m
    · rw [(h4 hxm).1, List.length_append]
      have := h.pend_len m a (by rw [← hxm]; exact List.mem_cons_self _ _) ha
      simp only [List.length_singleton]
      omega
    · rw [h5 hxm]; exact c.tok_le m a ha
  · intro b hb
    have hb0 : b ∈ bd := hb
    have hskip : ∀ y, (y < sp ∨ ∃ d, st.drafts[y]? = some d ∧ d.skip = true) →
        (y < sp ∨ ∃ d, (List.modify
          (fun d => { d with drafting := dr d.drafting, i_batch_dft := ib d.i_batch_dft }) x
          (List.modify (fun d =>
            { d with
              tokens := d.tokens ++ [id],
              ctx_sampling := llama_sampling_accept d.ctx_sampling id,
              i_batch_tgt := d.i_batch_tgt ++ [st.batch_tgt.length] }) x st.drafts))[y]? = some d ∧
          d.skip = true) := by
      intro y hy
      rcases hy with hy | ⟨a, ha, hsk⟩
      · exact Or.inl hy
      · obtain ⟨d, hd, h2, _, _⟩ := keyr y a ha
        exact Or.inr ⟨d, hd, by rw [h2]; exact hsk⟩
    rcases hbd b hb0 with hb1 | hb1
    · obtain ⟨hmem, hown⟩ := c.dft_tgt b hb1
      refine ⟨List.mem_append_left _ hmem, ?_⟩
      intro y hy
      obtain ⟨h1, h2⟩ := hown y hy
      exact ⟨fun e => h1 (List.mem_cons_of_mem _ e), hskip y h2⟩
    · subst hb1
      refine ⟨List.mem_append_right _ (List.mem_singleton_self _), ?_⟩
      intro y hy
      simp only [List.mem_singleton] at hy
      subst hy
      refine ⟨hnd.1, hskip y ?_⟩
      rcases h.pend_done y dx (List.mem_cons_self _ _) hdx with e | e
      · exact Or.inl e
      · exact Or.inr ⟨dx, hdx, e⟩

theorem add_drafted_cur (params : gpt_params) (cur_p : List llama_token_data)
    {N P : Nat} {root : llama_token} {i sp n0 b0 : Nat} :
    ∀ (sa : List Nat) (is : Nat) (st : spec_state),
      draft_inv N P root i sp sa n0 b0 st → cursor_inv P i sp sa st →
      cursor_inv P i sp [] (add_drafted params cur_p i is sa st) := by
  intro sa
  induction sa with
  | nil => intro is st _ c; simpa [add_drafted] using c
  | cons x rest ih =>
    intro is st h c
    have hxl := h.pend_lt x (List.mem_cons_self _ _)
    have hcl := h.cur_le
    simp only [add_drafted]
    split
    · apply ih
      · exact add_one_inv h _ (fun _ => false) (by simp) (fun n => n) st.batch_dft h.own_dft
      · exact add_one_cur h c _ (fun _ => false) (fun n => n) st.batch_dft
          (fun b hb => Or.inl hb)
    · apply ih
      · refine add_one_inv h _ (fun b => b) (fun _ e => e) (fun _ => st.batch_dft.length) _ ?_
        intro b hb y hy
        simp only [List.mem_append, List.mem_singleton] at hb
        rcases hb with hb | hb
        · exact h.own_dft b hb y hy
        · subst hb
          simp only [List.mem_singleton] at hy
          omega
      · refine add_one_cur h c _ (fun b => b) (fun _ => st.batch_dft.length) _ ?_
        intro b hb
        simp only [List.mem_append, List.mem_singleton] at hb
        rcases hb with hb | hb
        · exact Or.inl hb
        · right
          rw [hb]
          have e : st.n_past_cur = st.n_past_tgt + i + 1 := by
            rw [c.past_cur, h.past]
            omega
          simp only [e]

theorem cursor_inv_advance {P i s : Nat} {st : spec_state} (c : cursor_inv P i s [] st) :
    cursor_inv P i (s + 1) [] st :=
  { cur_len := c.cur_len, cur_slot := c.cur_slot, own_cur := c.own_cur,
    own_nodup := c.own_nodup, tok_le := c.tok_le,
    dft_tgt := fun b hb =>
      ⟨(c.dft_tgt b hb).1, fun x hx =>
        ⟨((c.dft_tgt b hb).2 x hx).1,
          ((c.dft_tgt b hb).2 x hx).2.elim (fun e => Or.inl (Nat.lt_succ_of_lt e)) Or.inr⟩⟩,
    past_cur := c.past_cur }

theorem cursor_inv_start {P i s : Nat} {st : spec_state} {d : seq_draft}
    (c : cursor_inv P i s [] st) (hd : st.drafts[s]? = some d) (h2 : d.skip = false) :
    cursor_inv P i (s + 1) [s] st := by
  refine
    { cur_len := c.cur_len, cur_slot := c.cur_slot, own_cur := c.own_cur,
      own_nodup := c.own_nodup, tok_le := c.tok_le, dft_tgt := ?_, past_cur := c.past_cur }
  intro b hb
  obtain ⟨hmem, hown⟩ := c.dft_tgt b hb
  refine ⟨hmem, ?_⟩
  intro x hx
  obtain ⟨_, h3⟩ := hown x hx
  refine ⟨?_, h3.elim (fun e => Or.inl (Nat.lt_succ_of_lt e)) Or.inr⟩
  simp only [List.mem_singleton]
  intro e
  subst e
  rcases h3 with h3 | ⟨a, ha, hsk⟩
  · omega
  · rw [hd] at ha
    simp only [Option.some.injEq] at ha
    subst ha
    rw [h2] at hsk
    simp at hsk

theorem cursor_inv_stop {P i sp : Nat} {st : spec_state} (c : cursor_inv P i sp [] st)
    (s : Nat) :
    cursor_inv P i sp []
      { st with drafts := List.modify (fun d => { d with drafting := false }) s st.drafts } := by
  have key : ∀ (m : Nat) (d : seq_draft),
      (List.modify (fun d : seq_draft => { d with drafting := false }) s st.drafts)[m]? = some d →
      ∃ a, st.drafts[m]? = some a ∧ d.tokens = a.tokens ∧ d.i_batch_tgt = a.i_batch_tgt := by
    intro m d hd
    obtain ⟨a, ha, hda⟩ := getElem?_modify_some hd
    refine ⟨a, ha, ?_⟩
    by_cases hsm : s = m
    · rw [if_pos hsm] at hda
      subst hda
      exact ⟨rfl, rfl⟩
    · rw [if_neg hsm] at hda
      subst hda
      exact ⟨rfl, rfl⟩
  have keyr : ∀ (m : Nat) (a : seq_draft), st.drafts[m]? = some a →
      ∃ d, (List.modify (fun d : seq_draft => { d with drafting := false }) s st.drafts)[m]? =
          some d ∧ d.skip = a.skip ∧ d.i_batch_tgt = a.i_batch_tgt := by
    intro m a ha
    rw [getElem?_modify_eq, ha]
    simp only [Option.map_some']
    by_cases hsm : s = m
    · simp only [if_pos hsm]
      exact ⟨_, rfl, rfl, rfl⟩
    · simp only [if_neg hsm]
      exact ⟨_, rfl, rfl, rfl⟩
  refine
    { cur_len := ?_, cur_slot := ?_, own_cur := ?_, own_nodup := c.own_nodup, tok_le := ?_,
      dft_tgt := ?_, past_cur := c.past_cur }
  · intro m d hd
    obtain ⟨a, ha, h1, h2⟩ := key m d hd
    rw [h1, h2]
    exact c.cur_len m a ha
  · intro m d k t hd hk
    obtain ⟨a, ha, h1, h2⟩ := key m d hd
    rw [h2] at hk
    rw [h1]
    exact c.cur_slot m a k t ha hk
  · intro t b y hb hy
    obtain ⟨a, ha, ht⟩ := c.own_cur t b y hb hy
    obtain ⟨d, hd, _, h2⟩ := keyr y a ha
    exact ⟨d, hd, by rw [h2]; exact ht⟩
  · intro m d hd
    obtain ⟨a, ha, h1, _⟩ := key m d hd
    rw [h1]
    exact c.tok_le m a ha
  · intro b hb
    obtain ⟨hmem, hown⟩ := c.dft_tgt b hb
    refine ⟨hmem, ?_⟩
    intro x hx
    obtain ⟨h1, h2⟩ := hown x hx
    refine ⟨h1, ?_⟩
    rcases h2 with h2 | ⟨a, ha, hsk⟩
    · exact Or.inl h2
    · obtain ⟨d, hd, h3, _⟩ := keyr x a ha
      exact Or.inr ⟨d, hd, by rw [h3]; exact hsk⟩

theorem draft_seq_cur (params : gpt_params) (cur_p : List llama_token_data)
    {N P : Nat} {root : llama_token} {i s n0 b0 : Nat} {st : spec_state}
    (hN : params.n_parallel = N) (h : draft_inv N P root i s [] n0 b0 st)
    (c : cursor_inv P i s [] st) :
    cursor_inv P i (s + 1) [] (draft_seq params cur_p i s st) := by
  unfold draft_seq
  cases hd : st.drafts[s]? with
  | none =>
    simp only []
    exact cursor_inv_advance c
  | some d =>
    simp only []
    by_cases hc : d.drafting = false ∨ d.skip = true
    · rw [if_pos hc]
      exact cursor_inv_advance c
    · rw [if_neg hc]
      have h1 : d.drafting = true := by
        cases hdd : d.drafting with
        | true => rfl
        | false => exact absurd (Or.inl hdd) hc
      have h2 : d.skip = false := by
        cases hdd : d.skip with
        | false => rfl
        | true => exact absurd (Or.inr hdd) hc
      split
      · exact cursor_inv_advance (cursor_inv_stop c s)
      · apply add_drafted_cur
        · apply fork_loop_inv params cur_p s hN
          · exact draft_inv_start h hd h1 h2
          · simp
        · apply fork_loop_cur params cur_p s hN
          · exact draft_inv_start h hd h1 h2
          · exact cursor_inv_start c hd h2
          · simp

theorem draft_seqs_cur (params : gpt_params) (cands : Nat → List llama_token_data)
    {N P : Nat} {root : llama_token} {i n0 b0 : Nat} (hN : params.n_parallel = N) :
    ∀ (todo s : Nat) (st : spec_state), draft_inv N P root i s [] n0 b0 st →
      cursor_inv P i s [] st →
      cursor_inv P i (s + todo) [] (draft_seqs params cands i todo s st) := by
  intro todo
  induction todo with
  | zero => intro s st _ c; simpa [draft_seqs] using c
  | succ todo ih =>
    intro s st h c
    simp only [draft_seqs]
    have := ih (s + 1) _ (draft_seq_inv params (cands s) hN h)
      (draft_seq_cur params (cands s) hN h c)
    have e : s + 1 + todo = s + (todo + 1) := by omega
    rw [e] at this
    exact this

theorem draft_prelude_cur {P i : Nat} {st : spec_state} (c : round_cur P (i + 1) st)
    (hp : st.n_past_cur = P + 1 + i) :
    cursor_inv P i 0 []
      { st with batch_dft := [], drafts := st.drafts.map (fun d => { d with skip := false }) } := by
  have key : ∀ (m : Nat) (d : seq_draft),
      (st.drafts.map (fun d : seq_draft => { d with skip := false }))[m]? = some d →
      ∃ a, st.drafts[m]? = some a ∧ d.tokens = a.tokens ∧ d.i_batch_tgt = a.i_batch_tgt := by
    intro m d hd
    obtain ⟨a, ha, hda⟩ := getElem?_map_some hd
    subst hda
    exact ⟨a, ha, rfl, rfl⟩
  have keyr : ∀ (m : Nat) (a : seq_draft), st.drafts[m]? = some a →
      ∃ d, (st.drafts.map (fun d : seq_draft => { d with skip := false }))[m]? = some d ∧
        d.i_batch_tgt = a.i_batch_tgt := by
    intro m a ha
    rw [List.getElem?_map, ha]
    exact ⟨_, rfl, rfl⟩
  refine
    { cur_len := ?_, cur_slot := ?_, own_cur := ?_, own_nodup := c.own_nodup, tok_le := ?_,
      dft_tgt := ?_, past_cur := hp }
  · intro m d hd
    obtain ⟨a, ha, h1, h2⟩ := key m d hd
    rw [h1, h2]
    exact c.cur_len m a ha
  · intro m d k t hd hk
    obtain ⟨a, ha, h1, h2⟩ := key m d hd
    rw [h2] at hk
    rw [h1]
    exact c.cur_slot m a k t ha hk
  · intro t b y hb hy
    obtain ⟨a, ha, ht⟩ := c.own_cur t b y hb hy
    obtain ⟨d, hd, h2⟩ := keyr y a ha
    exact ⟨d, hd, by rw [h2]; exact ht⟩
  · intro m d hd
    obtain ⟨a, ha, h1, _⟩ := key m d hd
    rw [h1]
    have := c.tok_le m a ha
    omega
  · intro b hb
    simp at hb

theorem draft_step_cur (params : gpt_params) (cands : Nat → List llama_token_data)
    {N P : Nat} {root : llama_token} {i : Nat} {st : spec_state}
    (hN : params.n_parallel = N) (h : round_inv N P root i true st)
    (c : round_cur P (i + 1) st) (hp : st.n_past_cur = P + 1 + i) :
    cursor_inv P i N [] (draft_step params cands i st) := by
  unfold draft_step
  have := draft_seqs_cur params cands hN N 0 _ (draft_prelude_inv h) (draft_prelude_cur c hp)
  simpa [hN] using this

theorem cursor_inv_round {P i sp : Nat} {st : spec_state} (c : cursor_inv P i sp [] st) :
    round_cur P (i + 2) st :=
  { cur_len := c.cur_len, cur_slot := c.cur_slot, own_cur := c.own_cur,
    own_nodup := c.own_nodup, tok_le := c.tok_le,
    dft_tgt := fun b hb => (c.dft_tgt b hb).1 }

theorem round_cur_mono {P L L1 : Nat} {st : spec_state} (c : round_cur P L st) (hL : L ≤ L1) :
    round_cur P L1 st :=
  { cur_len := c.cur_len, cur_slot := c.cur_slot, own_cur := c.own_cur,
    own_nodup := c.own_nodup, tok_le := fun s d hd => Nat.le_trans (c.tok_le s d hd) hL,
    dft_tgt := c.dft_tgt }

theorem round_cur_decode {P L : Nat} {st : spec_state} (c : round_cur P L st) :
    round_cur P L
      { st with
        ctx_dft := st.ctx_dft ++ [kv_call.decode st.batch_dft],
        n_past_cur := st.n_past_cur + 1,
        n_drafted := st.n_drafted + 1 } :=
  { cur_len := c.cur_len, cur_slot := c.cur_slot, own_cur := c.own_cur,
    own_nodup := c.own_nodup, tok_le := c.tok_le, dft_tgt := c.dft_tgt }

theorem draft_loop_cur (params : gpt_params) (cands : Nat → Nat → List llama_token_data)
    {N P : Nat} {root : llama_token} (hN : params.n_parallel = N) :
    ∀ (todo i : Nat) (st : spec_state), round_inv N P root i true st →
      round_cur P (i + 1) st → st.n_past_cur = P + 1 + i →
      round_cur P (i + todo + 1) (draft_loop params cands todo i st) := by
  intro todo
  induction todo with
  | zero =>
    intro i st _ c _
    simp only [draft_loop]
    exact c
  | succ todo ih =>
    intro i st h c hp
    have h1 := (draft_inv_round (draft_step_inv params (cands i) hN h)).1
    have c0 := draft_step_cur params (cands i) hN h c hp
    have c1 := cursor_inv_round c0
    have hp1 := c0.past_cur
    simp only [draft_loop]
    split
    · exact round_cur_mono c1 (by omega)
    · split
      · exact round_cur_mono (round_cur_decode c1) (by omega)
      · have := ih (i + 1) _ (round_inv_decode h1) (round_cur_decode c1)
          (by simp only []; omega)
        have e : i + 1 + todo + 1 = i + (todo + 1) + 1 := by omega
        rw [e] at this
        exact this

/-! ## Cursors and positions from one reconciliation to the next -/

theorem reconcile_cur (v : spec_state) (hv : v.n_past_dft = v.n_past_tgt) :
    run_cur (decode_root (reconcile v)) := by
  refine { cursors := ?_, past_dft := ?_, root_slot := ?_ }
  · intro s d hd
    simp only [decode_root, reconcile] at hd
    obtain ⟨a1, ha1, h1⟩ := getElem?_modify_some hd
    obtain ⟨a2, _, h2⟩ := getElem?_map_some ha1
    subst h2
    by_cases hs : 0 = s
    · rw [if_pos hs] at h1
      subst h1
      rw [if_pos hs.symm]
      rfl
    · rw [if_neg hs] at h1
      subst h1
      rw [if_neg (fun e => hs e.symm)]
  · show v.n_past_dft + 1 = v.n_past_tgt + 1
    rw [hv]
  · show [({ token := v.id, pos := v.n_past_dft, seq_id := [0], logits := true } :
      llama_batch_slot)] = [{ token := v.id, pos := v.n_past_tgt, seq_id := [0], logits := true }]
    rw [hv]

theorem run_cur_reachable (params : gpt_params) (sample_tgt : Nat → Nat → llama_token)
    (sample_dft : Nat → Nat → Nat → List llama_token_data) (inp : List llama_token) :
    ∀ (r : Nat) (st : spec_state),
      after_reconcile params sample_tgt sample_dft inp r = some st → run_cur st := by
  intro r
  induction r with
  | zero =>
    intro st h
    obtain ⟨v, hv, rfl⟩ := after_reconcile_zero params sample_tgt sample_dft inp st h
    have hc := verify_counts params _ _ _ hv
    apply reconcile_cur
    rw [hc.2.2.2.2.2.1, hc.2.2.2.2.2.2]
    rfl
  | succ r ih =>
    intro st h
    obtain ⟨st0, v, h0, _, hv, rfl⟩ := after_reconcile_succ params sample_tgt sample_dft inp r st h
    have hc := verify_counts params _ _ _ hv
    have hd := draft_phase_counts params (sample_dft r) st0
    have c0 := ih st0 h0
    apply reconcile_cur
    rw [hc.2.2.2.2.2.1, hc.2.2.2.2.2.2, hd.2.2.2.2.2.1, hd.2.2.2.2.2.2, c0.past_dft]

theorem round_start_cur {N : Nat} {inp : List llama_token} {st : spec_state}
    (params : gpt_params) (hN : 1 ≤ N) (hP : params.n_parallel = N) (h : run_inv N inp st)
    (c : run_cur st) :
    round_cur st.n_past_tgt (0 + 1) (round_start params st) ∧
    (round_start params st).n_past_cur = st.n_past_tgt + 1 + 0 := by
  obtain ⟨d0, hd0, ht0⟩ := h.pool0
  have hlen : (sync_samplers st.ctx_sampling params.n_parallel 0 st.drafts).length = N := by
    rw [sync_samplers_length, h.len]
  obtain ⟨e0, he0⟩ := getElem?_some_of_lt
    (l := sync_samplers st.ctx_sampling params.n_parallel 0 st.drafts) (m := 0) (by omega)
  have hroot : e0.tokens = [st.id] := by
    obtain ⟨a, ha, h1⟩ := sync_samplers_getElem? _ _ _ _ _ _ he0
    rw [hd0] at ha
    simp only [Option.some.injEq] at ha
    subst ha
    rw [h1.2.2.2.1, ht0]
  have key : ∀ (m : Nat) (d : seq_draft),
      (round_start params st).drafts[m]? = some d →
      ∃ a, st.drafts[m]? = some a ∧ d.tokens = a.tokens ∧ d.i_batch_tgt = a.i_batch_tgt := by
    intro m d hd
    simp only [round_start, round_init] at hd
    obtain ⟨a1, ha1, h1⟩ := getElem?_modify_some hd
    obtain ⟨a2, ha2, h2⟩ := getElem?_map_some ha1
    obtain ⟨a3, ha3, h3⟩ := sync_samplers_getElem? _ _ _ _ _ _ ha2
    refine ⟨a3, ha3, ?_⟩
    by_cases hm : 0 = m
    · rw [if_pos hm] at h1
      subst h1
      subst h2
      exact ⟨h3.2.2.2.1, h3.2.2.2.2.1⟩
    · rw [if_neg hm] at h1
      subst h1
      subst h2
      exact ⟨h3.2.2.2.1, h3.2.2.2.2.1⟩
  have hlen2 : (round_start params st).drafts.length = N := by
    simp [round_start, round_init, hlen]
  have hbatch : (round_start params st).batch_tgt =
      [{ token := st.id, pos := st.n_past_tgt, seq_id := [0], logits := true }] := by
    simp [round_start, round_init, he0, hroot]
  have hdft : (round_start params st).batch_dft = st.batch_dft := rfl
  have hcur : (round_start params st).n_past_cur = st.n_past_dft := rfl
  refine ⟨?_, by rw [hcur, c.past_dft]⟩
  refine
    { cur_len := ?_, cur_slot := ?_, own_cur := ?_, own_nodup := ?_, tok_le := ?_,
      dft_tgt := ?_ }
  · intro m d hd
    obtain ⟨a, ha, h1, h2⟩ := key m d hd
    rw [h1, h2, c.cursors m a ha]
    by_cases hm : m = 0
    · subst hm
      rw [hd0] at ha
      simp only [Option.some.injEq] at ha
      subst ha
      rw [ht0]
      rfl
    · rw [if_neg hm, h.pool m a (by omega) ha]
      rfl
  · intro m d k t hd hk
    obtain ⟨a, ha, h1, h2⟩ := key m d hd
    rw [h2, c.cursors m a ha] at hk
    by_cases hm : m = 0
    · subst hm
      rw [if_pos rfl] at hk
      rw [hd0] at ha
      simp only [Option.some.injEq] at ha
      subst ha
      have hk0 : k = 0 := by
        by_contra hne
        rw [List.getElem?_eq_none (by simp; omega)] at hk
        simp at hk
      subst hk0
      simp only [List.getElem?_cons_zero, Option.some.injEq] at hk
      subst hk
      rw [hbatch, h1, ht0]
      exact ⟨_, rfl, rfl, rfl, List.mem_singleton_self _⟩
    · rw [if_neg hm] at hk
      simp at hk
  · intro t b y hb hy
    rw [hbatch] at hb
    have ht0' : t = 0 := by
      by_contra hne
      rw [List.getElem?_eq_none (by simp; omega)] at hb
      simp at hb
    subst ht0'
    simp only [List.getElem?_cons_zero, Option.some.injEq] at hb
    subst hb
    simp only [List.mem_singleton] at hy
    subst hy
    obtain ⟨d, hd⟩ := getElem?_some_of_lt (l := (round_start params st).drafts) (m := 0)
      (by rw [hlen2]; omega)
    obtain ⟨a, ha, _, h2⟩ := key 0 d hd
    refine ⟨d, hd, ?_⟩
    rw [h2, c.cursors 0 a ha]
    simp
  · intro b hb
    rw [hbatch] at hb
    simp only [List.mem_singleton] at hb
    subst hb
    simp
  · intro m d hd
    obtain ⟨a, ha, h1, _⟩ := key m d hd
    rw [h1]
    by_cases hm : m = 0
    · subst hm
      rw [hd0] at ha
      simp only [Option.some.injEq] at ha
      subst ha
      rw [ht0]
      simp
    · rw [h.pool m a (by omega) ha]
      simp
  · intro b hb
    rw [hdft, c.root_slot] at hb
    rw [hbatch]
    exact hb

theorem draft_loop_cur_reachable (params : gpt_params)
    (cands : Nat → Nat → List llama_token_data) {inp : List llama_token} {st : spec_state}
    (h1 : 1 ≤ params.n_parallel) (h : run_inv params.n_parallel inp st) (c : run_cur st)
    (todo : Nat) :
    round_cur st.n_past_tgt (todo + 1)
      (draft_loop params cands todo 0 (round_start params st)) := by
  obtain ⟨c1, c2⟩ := round_start_cur params h1 rfl h c
  have := draft_loop_cur params cands rfl todo 0 _ (round_init_inv params h1 h).1 c1 c2
  simpa using this

theorem draft_head_cur (params : gpt_params) (cands : Nat → Nat → List llama_token_data)
    {N P : Nat} {root : llama_token} (hN : params.n_parallel = N) :
    ∀ (k i : Nat) (st x : spec_state), round_inv N P root i true st →
      round_cur P (i + 1) st → st.n_past_cur = P + 1 + i →
      draft_head params cands k i st = some x →
      round_cur P (i + k + 1) x ∧ x.n_past_cur = P + 1 + (i + k) := by
  intro k
  induction k with
  | zero =>
    intro i st x _ c hp hx
    simp only [draft_head, Option.some.injEq] at hx
    subst hx
    exact ⟨c, hp⟩
  | succ k ih =>
    intro i st x h c hp hx
    have h1 := (draft_inv_round (draft_step_inv params (cands i) hN h)).1
    have c0 := draft_step_cur params (cands i) hN h c hp
    have c1 := cursor_inv_round c0
    have hp1 := c0.past_cur
    simp only [draft_head] at hx
    by_cases e1 : (draft_step params (cands i) i st).batch_dft.length = 0
    · rw [if_pos e1] at hx; simp at hx
    · rw [if_neg e1] at hx
      by_cases e2 : (draft_step params (cands i) i st).batch_tgt.length ≥ params.n_draft
      · rw [if_pos e2] at hx; simp at hx
      · rw [if_neg e2] at hx
        have := ih (i + 1) _ x (round_inv_decode h1) (round_cur_decode c1)
          (by simp only []; omega) hx
        have e : i + 1 + k = i + (k + 1) := by omega
        rw [e] at this
        exact this

theorem owners_ok_of_cur {N : Nat} {st : spec_state}
    (hlt : owners_lt N st.batch_tgt)
    (cur_slot : ∀ (s : Nat) (d : seq_draft) (k t : Nat), st.drafts[s]? = some d →
      d.i_batch_tgt[k]? = some t → ∃ b, st.batch_tgt[t]? = some b ∧ s ∈ b.seq_id)
    (own_cur : ∀ (t : Nat) (b : llama_batch_slot) (s : Nat), st.batch_tgt[t]? = some b →
      s ∈ b.seq_id → ∃ d, st.drafts[s]? = some d ∧ t ∈ d.i_batch_tgt)
    (own_nodup : ∀ b ∈ st.batch_tgt, b.seq_id.Nodup ∧ b.seq_id ≠ []) :
    owners_ok N st := by
  constructor
  · intro t b s hb
    constructor
    · intro hs
      exact own_cur t b s hb hs
    · rintro ⟨d, hd, ht⟩
      obtain ⟨k, hk⟩ := List.getElem?_of_mem ht
      obtain ⟨b1, hb1, hs⟩ := cur_slot s d k t hd hk
      rw [hb] at hb1
      simp only [Option.some.injEq] at hb1
      subst hb1
      exact hs
  · intro b hb
    have hn := own_nodup b hb
    refine ⟨hn.2, hn.1, ?_⟩
    have h1 : b.seq_id.toFinset.card = b.seq_id.length := List.toFinset_card_of_nodup hn.1
    have h2 : b.seq_id.toFinset ⊆ Finset.range N := by
      intro x hx
      rw [List.mem_toFinset] at hx
      exact Finset.mem_range.mpr (hlt b hb x hx)
    have h3 := Finset.card_le_card h2
    rw [Finset.card_range] at h3
    omega

theorem owners_ok_draft {N P : Nat} {root : llama_token} {i sp : Nat} {pending : List Nat}
    {n0 b0 : Nat} {st : spec_state} (h : draft_inv N P root i sp pending n0 b0 st)
    (c : cursor_inv P i sp pending st) :
    owners_ok N st ∧ owners_lt st.n_seq_cur st.batch_tgt := by
  refine ⟨owners_ok_of_cur ?_ ?_ c.own_cur c.own_nodup, h.owners⟩
  · intro b hb y hy
    exact Nat.lt_of_lt_of_le (h.owners b hb y hy) h.cur_le
  · intro s d k t hd hk
    obtain ⟨b, hb, _, _, hs⟩ := c.cur_slot s d k t hd hk
    exact ⟨b, hb, hs⟩

theorem owners_ok_round {N P L : Nat} {root : llama_token} {i : Nat} {a : Bool}
    {st : spec_state} (h : round_inv N P root i a st) (c : round_cur P L st) :
    owners_ok N st ∧ owners_lt st.n_seq_cur st.batch_tgt := by
  refine ⟨owners_ok_of_cur ?_ ?_ c.own_cur c.own_nodup, h.owners⟩
  · intro b hb y hy
    exact Nat.lt_of_lt_of_le (h.owners b hb y hy) h.cur_le
  · intro s d k t hd hk
    obtain ⟨b, hb, _, _, hs⟩ := c.cur_slot s d k t hd hk
    exact ⟨b, hb, hs⟩

/-! ## Claims on cursors, owners and positions -/

theorem split_seq_owners (s : Nat) (x : spec_state)
    (hx : owners_lt x.n_seq_cur x.batch_tgt) :
    (split_seq s x).batch_tgt.length = x.batch_tgt.length ∧
    ∀ (t : Nat) (b : llama_batch_slot), x.batch_tgt[t]? = some b →
      ∃ b1, (split_seq s x).batch_tgt[t]? = some b1 ∧
        (x.n_seq_cur ∈ b1.seq_id ↔ s ∈ b.seq_id) ∧
        ∀ y, y ≠ x.n_seq_cur → (y ∈ b1.seq_id ↔ y ∈ b.seq_id) := by
  refine ⟨by simp [split_seq], ?_⟩
  intro t b hb
  have hfresh : x.n_seq_cur ∉ b.seq_id := fun e =>
    Nat.lt_irrefl _ (hx b (List.getElem?_mem hb) _ e)
  refine ⟨_, by simp only [split_seq]; rw [List.getElem?_map, hb]; rfl, ?_, ?_⟩
  · by_cases hsb : s ∈ b.seq_id
    · simp only [if_pos hsb]
      simp [hsb]
    · simp only [if_neg hsb]
      exact ⟨fun e => absurd e hfresh, fun e => absurd e hsb⟩
  · intro y hy
    by_cases hsb : s ∈ b.seq_id
    · simp only [if_pos hsb]
      simp [hy]
    · simp only [if_neg hsb]

/-- Claim C16. In a run with `n_seq_dft >= 1`, shared-prefix ownership
(`owners_ok`: a branch owns a slot of the target batch exactly when the slot
occurs in its target cursors; every owner list is non-empty, free of
duplicates and of length at most `n_seq_dft`) holds, with every owner below
`n_seq_cur`, in the draft loop of every round: after any number of depth steps,
and inside every depth step the loop reaches, after the loop over `s` has
handled any number `n` of branches. A split of branch `s` in a state whose
owners are below `n_seq_cur` keeps the slots of the target batch and makes the
new branch `n_seq_cur` an owner of exactly the slots that `s` owned, all other
owners being unchanged. -/
theorem owners_match_cursors (params : gpt_params) (sample_tgt : Nat → Nat → llama_token)
    (sample_dft : Nat → Nat → Nat → List llama_token_data) (inp : List llama_token)
    (r : Nat) (st : spec_state) (h1 : 1 ≤ params.n_parallel)
    (h : after_reconcile params sample_tgt sample_dft inp r = some st) :
    (∀ todo : Nat,
      owners_ok params.n_parallel
        (draft_loop params (sample_dft r) todo 0 (round_start params st)) ∧
      owners_lt (draft_loop params (sample_dft r) todo 0 (round_start params st)).n_seq_cur
        (draft_loop params (sample_dft r) todo 0 (round_start params st)).batch_tgt) ∧
    (∀ (k n : Nat) (x : spec_state),
      draft_head params (sample_dft r) k 0 (round_start params st) = some x →
      owners_ok params.n_parallel
        (draft_seqs params (sample_dft r k) k n 0
          { x with batch_dft := [], drafts := x.drafts.map (fun d => { d with skip := false }) }) ∧
      owners_lt
        (draft_seqs params (sample_dft r k) k n 0
          { x with batch_dft := [],
                   drafts := x.drafts.map (fun d => { d with skip := false }) }).n_seq_cur
        (draft_seqs params (sample_dft r k) k n 0
          { x with batch_dft := [],
                   drafts := x.drafts.map (fun d => { d with skip := false }) }).batch_tgt) ∧
    (∀ (s : Nat) (x : spec_state), owners_lt x.n_seq_cur x.batch_tgt →
      (split_seq s x).batch_tgt.length = x.batch_tgt.length ∧
      ∀ (t : Nat) (b : llama_batch_slot), x.batch_tgt[t]? = some b →
        ∃ b1, (split_seq s x).batch_tgt[t]? = some b1 ∧
          (x.n_seq_cur ∈ b1.seq_id ↔ s ∈ b.seq_id) ∧
          ∀ y, y ≠ x.n_seq_cur → (y ∈ b1.seq_id ↔ y ∈ b.seq_id)) := by
  have hrun := run_inv_reachable params sample_tgt sample_dft inp h1 r st h
  have hcur := run_cur_reachable params sample_tgt sample_dft inp r st h
  have hstart := (round_init_inv params h1 hrun).1
  obtain ⟨cstart, pstart⟩ := round_start_cur params h1 rfl hrun hcur
  refine ⟨?_, ?_, split_seq_owners⟩
  · intro todo
    exact owners_ok_round (draft_loop_reachable params (sample_dft r) h1 hrun todo).1
      (draft_loop_cur_reachable params (sample_dft r) h1 hrun hcur todo)
  · intro k n x hx
    have hk := draft_head_inv params (sample_dft r) rfl k 0 _ x hstart hx
    obtain ⟨ck, pk⟩ := draft_head_cur params (sample_dft r) rfl k 0 _ x hstart cstart pstart hx
    rw [Nat.zero_add] at hk ck pk
    have hi := draft_seqs_inv params (sample_dft r k) rfl n 0 _ (draft_prelude_inv hk)
    have hc := draft_seqs_cur params (sample_dft r k) rfl n 0 _ (draft_prelude_inv hk)
      (draft_prelude_cur ck pk)
    exact owners_ok_draft hi hc

/-- Witness for `owners_match_cursors`: the first round of a run with two
branches, after two depth steps. -/
theorem owners_match_cursors_witness :
    ∃ st, after_reconcile fork_params fork_sample_tgt fork_sample_dft [1] 0 = some st ∧
      1 ≤ fork_params.n_parallel ∧
      owners_ok fork_params.n_parallel
        (draft_loop fork_params (fork_sample_dft 0) 2 0 (round_start fork_params st)) := by
  have hs : (after_reconcile fork_params fork_sample_tgt fork_sample_dft [1] 0).isSome =
      true := by decide!
  obtain ⟨st, hst⟩ := Option.isSome_iff_exists.mp hs
  exact ⟨st, hst, by decide,
    ((owners_match_cursors fork_params fork_sample_tgt fork_sample_dft [1] 0 st (by decide)
      hst).1 2).1⟩

/-- Claim C17. In a run with `n_seq_dft >= 1`: when a drafting phase starts
(right after a reconciliation) `n_past_dft = n_past_tgt + 1`. After any number
of depth steps of the draft loop, every branch has as many target cursors as
history tokens, the slot named by cursor `k` of a branch has position
`n_past_tgt + k` and holds token `k` of the branch history (the root for
`k = 0`), and every slot of the draft batch is also a slot of the target batch,
with the same token, position and owner; at the head of depth step `k`,
`n_past_cur = n_past_tgt + k + 1`. When the verification that follows
starts, `n_past_dft = n_past_tgt`; both grow by one with each accepted token
and are equal when it ends. They are equal before the first verification as
well. -/
theorem positions_aligned (params : gpt_params) (sample_tgt : Nat → Nat → llama_token)
    (sample_dft : Nat → Nat → Nat → List llama_token_data) (inp : List llama_token)
    (r : Nat) (st : spec_state) (h1 : 1 ≤ params.n_parallel)
    (h : after_reconcile params sample_tgt sample_dft inp r = some st) :
    st.n_past_dft = st.n_past_tgt + 1 ∧
    (∀ todo : Nat,
      (∀ (s : Nat) (d : seq_draft),
        (draft_loop params (sample_dft r) todo 0 (round_start params st)).drafts[s]? = some d →
        d.i_batch_tgt.length = d.tokens.length ∧
        ∀ (k t : Nat), d.i_batch_tgt[k]? = some t →
          ∃ b, (draft_loop params (sample_dft r) todo 0
              (round_start params st)).batch_tgt[t]? = some b ∧
            b.pos = (draft_loop params (sample_dft r) todo 0
              (round_start params st)).n_past_tgt + k ∧
            d.tokens[k]? = some b.token) ∧
      (∀ b ∈ (draft_loop params (sample_dft r) todo 0 (round_start params st)).batch_dft,
        b ∈ (draft_loop params (sample_dft r) todo 0 (round_start params st)).batch_tgt)) ∧
    (∀ (k : Nat) (x : spec_state),
      draft_head params (sample_dft r) k 0 (round_start params st) = some x →
      x.n_past_cur = x.n_past_tgt + k + 1) ∧
    (draft_phase params (sample_dft r) st).n_past_dft =
      (draft_phase params (sample_dft r) st).n_past_tgt ∧
    (∀ v, verify params (sample_tgt (r + 1)) (draft_phase params (sample_dft r) st) = some v →
      v.n_past_tgt = (draft_phase params (sample_dft r) st).n_past_tgt + v.i_dft ∧
      v.n_past_dft = (draft_phase params (sample_dft r) st).n_past_dft + v.i_dft ∧
      v.n_past_dft = v.n_past_tgt) ∧
    (init_state params inp).n_past_dft = (init_state params inp).n_past_tgt := by
  have hrun := run_inv_reachable params sample_tgt sample_dft inp h1 r st h
  have hcur := run_cur_reachable params sample_tgt sample_dft inp r st h
  have hd := draft_phase_counts params (sample_dft r) st
  have heq : (draft_phase params (sample_dft r) st).n_past_dft =
      (draft_phase params (sample_dft r) st).n_past_tgt := by
    rw [hd.2.2.2.2.2.1, hd.2.2.2.2.2.2, hcur.past_dft]
  have hstart := (round_init_inv params h1 hrun).1
  obtain ⟨cstart, pstart⟩ := round_start_cur params h1 rfl hrun hcur
  refine ⟨hcur.past_dft, ?_, ?_, heq, ?_, rfl⟩
  · intro todo
    have R := (draft_loop_reachable params (sample_dft r) h1 hrun todo).1
    have C := draft_loop_cur_reachable params (sample_dft r) h1 hrun hcur todo
    refine ⟨?_, C.dft_tgt⟩
    intro s d hds
    refine ⟨C.cur_len s d hds, ?_⟩
    intro k t hk
    obtain ⟨b, hb, hpos, htok, _⟩ := C.cur_slot s d k t hds hk
    exact ⟨b, hb, by rw [R.past]; exact hpos, htok⟩
  · intro k x hx
    have hk := draft_head_inv params (sample_dft r) rfl k 0 _ x hstart hx
    obtain ⟨_, pk⟩ := draft_head_cur params (sample_dft r) rfl k 0 _ x hstart cstart pstart hx
    rw [pk, hk.past]
    omega
  · intro v hv
    have hc := verify_counts params _ _ _ hv
    refine ⟨hc.2.2.2.2.2.1, hc.2.2.2.2.2.2, ?_⟩
    rw [hc.2.2.2.2.2.1, hc.2.2.2.2.2.2, heq]

/-- Witness for `positions_aligned`: the first round of a run with two
branches. -/
theorem positions_aligned_witness :
    ∃ st, after_reconcile fork_params fork_sample_tgt fork_sample_dft [1] 0 = some st ∧
      1 ≤ fork_params.n_parallel ∧ st.n_past_dft = st.n_past_tgt + 1 := by
  have hs : (after_reconcile fork_params fork_sample_tgt fork_sample_dft [1] 0).isSome =
      true := by decide!
  obtain ⟨st, hst⟩ := Option.isSome_iff_exists.mp hs
  exact ⟨st, hst, by decide,
    (positions_aligned fork_params fork_sample_tgt fork_sample_dft [1] 0 st (by decide) hst).1⟩

/-! ## The lookups of the verification loop -/

theorem verify_loop_reads (params : gpt_params) (sample : Nat → llama_token) (n : Nat) :
    ∀ (fuel : Nat) (y v : spec_state), verify_loop params sample fuel y = some v →
      (∀ d ∈ y.drafts, (d.active = true → d.i_batch_tgt.length = d.tokens.length + 1) ∧
        ∀ t ∈ d.i_batch_tgt, t < n) →
      (∃ d, y.drafts[y.i_keep]? = some d ∧ y.i_dft < d.i_batch_tgt.length) →
      ∃ reads, v.tgt_reads = y.tgt_reads ++ reads ∧ ∀ rd ∈ reads, ∃ t, rd = some t ∧ t < n := by
  intro fuel
  induction fuel with
  | zero => intro y v h; simp [verify_loop] at h
  | succ fuel ih =>
    intro y v h hpool hkeep
    obtain ⟨d, hd, hlt⟩ := hkeep
    have hread : (y.drafts[y.i_keep]?).bind (fun d => d.i_batch_tgt[y.i_dft]?) =
        some (d.i_batch_tgt[y.i_dft]) := by
      rw [hd]
      simp [List.getElem?_eq_getElem hlt]
    have htn : d.i_batch_tgt[y.i_dft] < n :=
      (hpool d (List.getElem?_mem hd)).2 _ (List.getElem_mem hlt)
    simp only [verify_loop] at h
    by_cases hm : (verify_step params (sample y.i_dft) y).2 = true
    · rw [if_pos hm] at h
      have hp2 : ∀ d ∈ (verify_step params (sample y.i_dft) y).1.drafts,
          (d.active = true → d.i_batch_tgt.length = d.tokens.length + 1) ∧
          ∀ t ∈ d.i_batch_tgt, t < n := by
        intro d1 hd1
        rw [verify_step_drafts, match_scan_drafts] at hd1
        obtain ⟨a, ha, rfl⟩ := List.mem_map.mp hd1
        have hpa := hpool a ha
        split
        · exact ⟨fun e => by simp at e, hpa.2⟩
        · exact hpa
      have hk2 : ∃ d, (verify_step params (sample y.i_dft) y).1.drafts[
          (verify_step params (sample y.i_dft) y).1.i_keep]? = some d ∧
          y.i_dft + 1 < d.i_batch_tgt.length := by
        rw [verify_step_snd] at hm
        rcases match_scan_keep (sample y.i_dft) y.i_dft y.drafts 0 y.i_keep false with
          ⟨_, h2, _⟩ | ⟨_, _, ⟨d1, h3, h4, h5⟩, _⟩
        · rw [h2] at hm; simp at hm
        · rw [Nat.sub_zero] at h3
          refine ⟨d1, ?_, ?_⟩
          · rw [verify_step_drafts, match_scan_drafts, List.getElem?_map]
            show Option.map _ (y.drafts[(match_scan (sample y.i_dft) y.i_dft 0 y.drafts
              y.i_keep false).2.1]?) = some d1
            rw [h3]
            simp only [Option.map_some', Option.some.injEq]
            rw [if_neg (fun c => c.2 h5)]
          · have := (hpool d1 (List.getElem?_mem h3)).1 h4
            have := tokens_lt_of_getElem? h5
            omega
      obtain ⟨reads, hr, hall⟩ := ih _ _ h hp2 hk2
      simp only [verify_step] at hr
      rw [hread] at hr
      refine ⟨some (d.i_batch_tgt[y.i_dft]) :: reads, ?_, ?_⟩
      · rw [hr, List.append_assoc]
        rfl
      · intro rd hrd
        rcases List.mem_cons.mp hrd with e | e
        · exact ⟨_, e, htn⟩
        · exact hall rd e
    · rw [if_neg hm] at h
      simp only [Option.some.injEq] at h
      subst h
      refine ⟨[some (d.i_batch_tgt[y.i_dft])], ?_, ?_⟩
      · simp only [verify_step]
        rw [hread]
      · intro rd hrd
        simp only [List.mem_singleton] at hrd
        exact ⟨_, hrd, htn⟩

theorem last_decoded_append (calls : List kv_call) (b : List llama_batch_slot) :
    last_decoded (calls ++ [kv_call.decode b]) = b := by
  simp [last_decoded, List.foldl_append]

theorem draft_phase_pool (params : gpt_params) (cands : Nat → Nat → List llama_token_data)
    {inp : List llama_token} {st : spec_state} (h1 : 1 ≤ params.n_parallel)
    (h : run_inv params.n_parallel inp st) (c : run_cur st) :
    (∀ d ∈ (draft_phase params cands st).drafts,
      (d.active = true → d.i_batch_tgt.length = d.tokens.length + 1) ∧
      (d.active = true → d.tokens.length ≤ params.n_draft) ∧
      ∀ t ∈ d.i_batch_tgt, t < (draft_phase params cands st).batch_tgt.length) ∧
    (∃ d, (draft_phase params cands st).drafts[0]? = some d ∧ 0 < d.i_batch_tgt.length) := by
  have R := (draft_loop_reachable params cands h1 h params.n_draft).1
  have C := draft_loop_cur_reachable params cands h1 h c params.n_draft
  have hb : (draft_phase params cands st).batch_tgt =
      (draft_loop params cands params.n_draft 0 (round_start params st)).batch_tgt := rfl
  have hne : ∀ (s : Nat) (a : seq_draft),
      (draft_loop params cands params.n_draft 0 (round_start params st)).drafts[s]? = some a →
      a.active = true → 1 ≤ a.tokens.length := by
    intro s a ha hact
    have hs : s < (draft_loop params cands params.n_draft 0
        (round_start params st)).n_seq_cur := by
      by_contra hcon
      have := (R.fresh s a ha (by omega)).1
      rw [this] at hact
      simp at hact
    have hu := (R.used s a ha hs).2
    cases hta : a.tokens with
    | nil => rw [hta] at hu; simp at hu
    | cons x xs => simp
  constructor
  · intro d hd
    rw [draft_phase_drafts] at hd
    obtain ⟨a, ha, rfl⟩ := List.mem_map.mp hd
    obtain ⟨s, hs⟩ := List.getElem?_of_mem ha
    have hlen := C.cur_len s a hs
    have htok := C.tok_le s a hs
    have hval : ∀ t ∈ a.i_batch_tgt, t < (draft_phase params cands st).batch_tgt.length := by
      intro t ht
      obtain ⟨k, hk⟩ := List.getElem?_of_mem ht
      obtain ⟨b, hbt, _⟩ := C.cur_slot s a k t hs hk
      rw [hb]
      exact (List.getElem?_eq_some.mp hbt).1
    by_cases hact : a.active = true
    · have := hne s a hs hact
      rw [if_pos hact]
      refine ⟨fun _ => ?_, fun _ => ?_, hval⟩
      · simp only [List.length_tail]
        omega
      · simp only [List.length_tail]
        omega
    · rw [if_neg hact]
      exact ⟨fun e => absurd e hact, fun e => absurd e hact, hval⟩
  · obtain ⟨a, ha⟩ := getElem?_some_of_lt
      (l := (draft_loop params cands params.n_draft 0 (round_start params st)).drafts) (m := 0)
      (by rw [R.len]; omega)
    have hact := (R.used 0 a ha (by have := R.cur_pos; omega)).1
    have := hne 0 a ha hact
    have hlen := C.cur_len 0 a ha
    rw [draft_phase_drafts, List.getElem?_map, ha]
    refine ⟨_, rfl, ?_⟩
    simp only [if_pos hact]
    omega

theorem init_state_pool (params : gpt_params) (inp : List llama_token)
    (h1 : 1 ≤ params.n_parallel) :
    (∀ d ∈ (init_state params inp).drafts, d.active = false ∧ ∀ t ∈ d.i_batch_tgt, t < 1) ∧
    (∃ d, (init_state params inp).drafts[0]? = some d ∧ 0 < d.i_batch_tgt.length) := by
  constructor
  · intro d hd
    obtain ⟨m, hm⟩ := List.getElem?_of_mem hd
    simp only [init_state] at hm
    obtain ⟨a, ha, hda⟩ := getElem?_modify_some hm
    have hrep := List.eq_of_mem_replicate (List.getElem?_mem ha)
    subst hrep
    by_cases h0 : 0 = m
    · rw [if_pos h0] at hda
      subst hda
      exact ⟨rfl, by simp⟩
    · rw [if_neg h0] at hda
      subst hda
      exact ⟨rfl, by simp⟩
  · simp only [init_state]
    rw [getElem?_modify_eq]
    have : (List.replicate params.n_parallel
        ({ active := false, drafting := false, skip := false, i_batch_dft := 0,
           i_batch_tgt := [], tokens := [], ctx_sampling := draft_sampler_init } :
          seq_draft))[0]? = some _ := List.getElem?_replicate_of_lt (by omega)
    rw [this]
    simp

theorem longest_active_nil (ds : List seq_draft) (h : ∀ d ∈ ds, d.active = false) :
    longest_active ds = 0 := by
  unfold longest_active
  have : ds.filter (fun d => d.active) = [] := by
    rw [List.filter_eq_nil_iff]
    intro d hd
    rw [h d hd]
    simp
  rw [this]
  rfl

/-- Claim C18. In a run with `n_seq_dft >= 1`: once the root placeholder is
erased at the end of a drafting phase, every active branch has one target
cursor more than history tokens, and the target batch is the batch of the last
decode recorded on the target context. In the verification that follows, each
of the `i_dft + 1` lookups `drafts[i_keep].i_batch_tgt[i_dft]` (the one after
the last accepted token included) is inside the cursor vector and yields an
index below the number of slots of that batch. For a non-empty prompt the very
first verification makes one lookup, which yields index 0, and the batch
decoded last holds 1 slot. -/
theorem cursor_lookups_in_bounds (params : gpt_params) (sample_tgt : Nat → Nat → llama_token)
    (sample_dft : Nat → Nat → Nat → List llama_token_data) (inp : List llama_token)
    (r : Nat) (st : spec_state) (h1 : 1 ≤ params.n_parallel)
    (h : after_reconcile params sample_tgt sample_dft inp r = some st) :
    (∀ d ∈ (draft_phase params (sample_dft r) st).drafts, d.active = true →
      d.i_batch_tgt.length = d.tokens.length + 1) ∧
    last_decoded (draft_phase params (sample_dft r) st).ctx_tgt =
      (draft_phase params (sample_dft r) st).batch_tgt ∧
    (∀ v, verify params (sample_tgt (r + 1)) (draft_phase params (sample_dft r) st) = some v →
      ∃ reads, v.tgt_reads = (draft_phase params (sample_dft r) st).tgt_reads ++ reads ∧
        reads.length = v.i_dft + 1 ∧
        ∀ rd ∈ reads, ∃ t, rd = some t ∧
          t < (last_decoded (draft_phase params (sample_dft r) st).ctx_tgt).length) ∧
    (inp ≠ [] → ∀ v, verify params (sample_tgt 0) (init_state params inp) = some v →
      v.tgt_reads = [some 0] ∧ (last_decoded (init_state params inp).ctx_tgt).length = 1) := by
  have hrun := run_inv_reachable params sample_tgt sample_dft inp h1 r st h
  have hcur := run_cur_reachable params sample_tgt sample_dft inp r st h
  obtain ⟨hpool, hkeep⟩ := draft_phase_pool params (sample_dft r) h1 hrun hcur
  have hlast : last_decoded (draft_phase params (sample_dft r) st).ctx_tgt =
      (draft_phase params (sample_dft r) st).batch_tgt := by
    rw [draft_phase_ctx_tgt, last_decoded_append]
    rfl
  refine ⟨fun d hd => (hpool d hd).1, hlast, ?_, ?_⟩
  · intro v hv
    have hc := (verify_counts params _ _ _ hv).2.1
    unfold verify at hv
    obtain ⟨reads, hr, hall⟩ := verify_loop_reads params _
      (draft_phase params (sample_dft r) st).batch_tgt.length _ _ _ hv
      (fun d hd => ⟨(hpool d hd).1, (hpool d hd).2.2⟩) hkeep
    refine ⟨reads, hr, ?_, ?_⟩
    · have hr2 : v.tgt_reads = (draft_phase params (sample_dft r) st).tgt_reads ++ reads := hr
      rw [hr2, List.length_append] at hc
      omega
    · rw [hlast]
      exact hall
  · intro hne v hv
    obtain ⟨hp0, hk0⟩ := init_state_pool params inp h1
    have hc := verify_counts params _ _ _ hv
    have hz : v.i_dft = 0 := by
      have := hc.1
      rw [longest_active_nil _ (fun d hd => (hp0 d hd).1)] at this
      omega
    have hlen := hc.2.1
    unfold verify at hv
    obtain ⟨reads, hr, hall⟩ := verify_loop_reads params _ 1 _ _ _ hv
      (fun d hd => ⟨fun e => by rw [(hp0 d hd).1] at e; simp at e, (hp0 d hd).2⟩) hk0
    have hr2 : v.tgt_reads = [] ++ reads := hr
    rw [List.nil_append] at hr2
    constructor
    · rw [hr2]
      rw [hr2, hz] at hlen
      have hl1 : reads.length = 1 := by
        simpa [init_state] using hlen
      match reads, hl1, hall with
      | [rd], _, hall =>
        obtain ⟨t, ht, ht1⟩ := hall rd (List.mem_singleton_self _)
        have : t = 0 := by omega
        rw [ht, this]
    · have : (init_state params inp).ctx_tgt =
          [kv_call.decode (llama_batch_get_one (inp.take (inp.length - 1)) 0 0)] ++
          [kv_call.decode
            (llama_batch_get_one (inp.drop (inp.length - 1)) (inp.length - 1) 0)] := rfl
      rw [this, last_decoded_append]
      have hpos : 0 < inp.length := List.length_pos.mpr hne
      simp only [llama_batch_get_one, List.length_map, List.enum_length, List.length_drop]
      omega

/-- Witness for `cursor_lookups_in_bounds`: the verification of the first
round of a run with two branches. -/
theorem cursor_lookups_in_bounds_witness :
    ∃ st, after_reconcile fork_params fork_sample_tgt fork_sample_dft [1] 0 = some st ∧
      1 ≤ fork_params.n_parallel ∧
      ∀ d ∈ (draft_phase fork_params (fork_sample_dft 0) st).drafts, d.active = true →
        d.i_batch_tgt.length = d.tokens.length + 1 := by
  have hs : (after_reconcile fork_params fork_sample_tgt fork_sample_dft [1] 0).isSome =
      true := by decide!
  obtain ⟨st, hst⟩ := Option.isSome_iff_exists.mp hs
  exact ⟨st, hst, by decide,
    (cursor_lookups_in_bounds fork_params fork_sample_tgt fork_sample_dft [1] 0 st (by decide)
      hst).1⟩

/-! ## The token budget -/

theorem draft_loop_one (params : gpt_params) (cands : Nat → Nat → List llama_token_data)
    (i : Nat) (x : spec_state) :
    (draft_loop params cands 1 i x).drafts = (draft_step params (cands i) i x).drafts ∧
    (draft_loop params cands 1 i x).n_seq_cur = (draft_step params (cands i) i x).n_seq_cur := by
  simp only [draft_loop]
  split
  · exact ⟨rfl, rfl⟩
  · split
    · exact ⟨rfl, rfl⟩
    · exact ⟨rfl, rfl⟩

theorem draft_step_single_stop (params : gpt_params) (cands : Nat → List llama_token_data)
    (i : Nat) (st : spec_state) (d : seq_draft) (hN : params.n_parallel = 1)
    (hq : st.drafts = [d]) (hdr : d.drafting = true)
    (hp : ((cands 0).getD 0 ⟨0, 0⟩).p < 0.4) :
    ∃ d2, (draft_step params cands i st).drafts = [d2] ∧
      (draft_step params cands i st).n_seq_cur = st.n_seq_cur ∧ d2.active = d.active ∧
      d2.tokens = d.tokens := by
  unfold draft_step
  rw [hN]
  simp only [draft_seqs, hq, List.map_cons, List.map_nil]
  have hs := draft_seq_stop params (cands 0) i 0
    { st with batch_dft := [], drafts := [{ d with skip := false }] } { d with skip := false }
    rfl hdr rfl hp
  rw [hs]
  exact ⟨_, rfl, rfl, rfl, rfl⟩

theorem single_round_drafts (params : gpt_params) (cands : Nat → Nat → List llama_token_data)
    {inp : List llama_token} {st : spec_state} (hN : params.n_parallel = 1)
    (hd : params.n_draft = 1) (h : run_inv 1 inp st) :
    ∃ d, (draft_loop params cands params.n_draft 0 (round_start params st)).drafts = [d] ∧
      (draft_loop params cands params.n_draft 0 (round_start params st)).n_seq_cur = 1 ∧
      d.active = true ∧
      d.tokens = if ((cands 0 0).getD 0 ⟨0, 0⟩).p < 0.4 then [st.id]
        else [st.id, ((cands 0 0).getD 0 ⟨0, 0⟩).id] := by
  obtain ⟨d0, hq, hcur, hact, hdr, htok⟩ := round_start_single params h
  rw [hd]
  obtain ⟨e1, e2⟩ := draft_loop_one params cands 0 (round_start params st)
  rw [e1, e2]
  by_cases hp : ((cands 0 0).getD 0 ⟨0, 0⟩).p < 0.4
  · obtain ⟨d2, h1, h2, h3, h4⟩ :=
      draft_step_single_stop params (cands 0) 0 _ d0 hN hq hdr hp
    refine ⟨d2, h1, by rw [h2, hcur], by rw [h3, hact], ?_⟩
    rw [if_pos hp, h4, htok]
  · obtain ⟨d2, h1, h2, h3, h4, _⟩ :=
      draft_step_single params (cands 0) 0 _ d0 hN hq hcur hdr hp
    refine ⟨d2, h1, h2, by rw [h3, hact], ?_⟩
    rw [if_neg hp, h4, htok]
    rfl

theorem verify_single (params : gpt_params) (sample : Nat → llama_token) (x v : spec_state)
    (d : seq_draft) (hq : x.drafts = [d]) (hact : d.active = true)
    (hv : verify params sample x = some v) :
    (d.tokens = [sample 0] → v.i_dft = 1) ∧
    ((d.tokens = [] ∨ ∃ t, d.tokens = [t] ∧ t ≠ sample 0) → v.i_dft = 0) ∧
    v.out = x.out ++ (List.range (v.i_dft + 1)).map sample ∧
    v.n_accept = x.n_accept + v.i_dft ∧
    (reconcile v).drafts.map (fun b => b.tokens) = [[sample v.i_dft]] := by
  have hc := verify_counts params sample x v hv
  unfold verify at hv
  have hk := verify_loop_kept params sample _ _ _ hv
  have ho := verify_loop_out params sample _ _ _ hv
  have hdr := verify_loop_drafts params sample _ _ _ hv
  simp only [Nat.sub_zero] at hk ho
  obtain ⟨_, hk2, hk3⟩ := hk
  have hmem : d ∈ x.drafts := by rw [hq]; exact List.mem_singleton_self _
  have hone : ∀ a, x.drafts[v.i_keep]? = some a → a = d := by
    intro a ha
    have := List.getElem?_mem ha
    rw [hq] at this
    exact List.mem_singleton.mp this
  refine ⟨?_, ?_, ?_, hc.2.2.2.2.1, ?_⟩
  · intro ht
    by_contra hne
    by_cases hz : v.i_dft = 0
    · have := hk3 d hmem hact (fun j _ hj => by omega)
      rw [hz, ht] at this
      exact this rfl
    · obtain ⟨a, ha, _, hall⟩ := hk2 (by omega)
      have := hall 1 (Nat.zero_le _) (by omega)
      rw [hone a ha, ht] at this
      simp at this
  · intro hcase
    by_contra hne
    obtain ⟨a, ha, _, hall⟩ := hk2 (by omega)
    have := hall 0 (Nat.le_refl _) (by omega)
    rw [hone a ha] at this
    rcases hcase with e | ⟨t, e, hte⟩
    · rw [e] at this
      simp at this
    · rw [e] at this
      simp only [List.getElem?_cons_zero, Option.some.injEq] at this
      exact hte this
  · rw [ho.1, List.range_eq_range']
  · simp only [reconcile]
    rw [hdr]
    simp only [hq, List.map_cons, List.map_nil, ho.2]
    rfl

/-- Claim C14, amended. With `n_draft = 1` and `n_seq_dft = 1`, in every round
there is no fork (`n_seq_cur` stays 1) and the single branch drafts at most one
token: when the probability of the top candidate at depth 0 is 0.4 or more its
history after the draft loop is the root followed by that candidate, otherwise
it is the root alone. In the verification that follows, if a token was drafted
and the first target sample equals it, it is accepted (`n_accept` grows by 1)
and the second target sample becomes the only token of the new root; in every
other case nothing is accepted, the first target sample is the only token
printed and it becomes the only token of the new root. -/
theorem single_token_rounds (params : gpt_params) (sample_tgt : Nat → Nat → llama_token)
    (sample_dft : Nat → Nat → Nat → List llama_token_data) (inp : List llama_token)
    (r : Nat) (st : spec_state) (hN : params.n_parallel = 1) (hd : params.n_draft = 1)
    (h : after_reconcile params sample_tgt sample_dft inp r = some st) :
    (∃ d, (draft_loop params (sample_dft r) params.n_draft 0 (round_start params st)).drafts =
        [d] ∧
      (draft_loop params (sample_dft r) params.n_draft 0 (round_start params st)).n_seq_cur =
        1 ∧
      d.tokens = if ((sample_dft r 0 0).getD 0 ⟨0, 0⟩).p < 0.4 then [st.id]
        else [st.id, ((sample_dft r 0 0).getD 0 ⟨0, 0⟩).id]) ∧
    (∀ v, verify params (sample_tgt (r + 1)) (draft_phase params (sample_dft r) st) = some v →
      ((¬ ((sample_dft r 0 0).getD 0 ⟨0, 0⟩).p < 0.4 ∧
          sample_tgt (r + 1) 0 = ((sample_dft r 0 0).getD 0 ⟨0, 0⟩).id) →
        v.i_dft = 1 ∧ v.n_accept = st.n_accept + 1 ∧
        v.out = st.out ++ [((sample_dft r 0 0).getD 0 ⟨0, 0⟩).id, sample_tgt (r + 1) 1] ∧
        (reconcile v).drafts.map (fun b => b.tokens) = [[sample_tgt (r + 1) 1]]) ∧
      (¬ (¬ ((sample_dft r 0 0).getD 0 ⟨0, 0⟩).p < 0.4 ∧
          sample_tgt (r + 1) 0 = ((sample_dft r 0 0).getD 0 ⟨0, 0⟩).id) →
        v.i_dft = 0 ∧ v.n_accept = st.n_accept ∧
        v.out = st.out ++ [sample_tgt (r + 1) 0] ∧
        (reconcile v).drafts.map (fun b => b.tokens) = [[sample_tgt (r + 1) 0]])) := by
  have hrun : run_inv 1 inp st := by
    have := run_inv_reachable params sample_tgt sample_dft inp (by omega) r st h
    rw [hN] at this
    exact this
  obtain ⟨d, hD, hcur, hact, htok⟩ := single_round_drafts params (sample_dft r) hN hd hrun
  refine ⟨⟨d, hD, hcur, htok⟩, ?_⟩
  intro v hv
  have hq : (draft_phase params (sample_dft r) st).drafts = [{ d with tokens := d.tokens.tail }] := by
    rw [draft_phase_drafts, hD]
    simp [hact]
  have hc := draft_phase_counts params (sample_dft r) st
  obtain ⟨v1, v2, v3, v4, v5⟩ := verify_single params (sample_tgt (r + 1)) _ v _ hq hact hv
  rw [hc.2.2.2.1] at v3
  rw [hc.2.1] at v4
  constructor
  · rintro ⟨hp, he⟩
    rw [if_neg hp] at htok
    have hi : v.i_dft = 1 := by
      apply v1
      show d.tokens.tail = _
      rw [htok, he]
      rfl
    rw [hi] at v3 v4 v5
    refine ⟨hi, v4, ?_, v5⟩
    rw [v3, ← he]
    rfl
  · intro hcase
    have hi : v.i_dft = 0 := by
      apply v2
      show d.tokens.tail = [] ∨ ∃ t, d.tokens.tail = [t] ∧ t ≠ _
      by_cases hp : ((sample_dft r 0 0).getD 0 ⟨0, 0⟩).p < 0.4
      · rw [if_pos hp] at htok
        left
        rw [htok]
        rfl
      · rw [if_neg hp] at htok
        right
        refine ⟨_, by rw [htok]; rfl, ?_⟩
        intro e
        exact hcase ⟨hp, e.symm⟩
    rw [hi] at v3 v4 v5
    exact ⟨hi, v4, by rw [v3]; rfl, v5⟩

/-- Witness for `single_token_rounds`: the first round of a run with one branch
and `n_draft = 1`. -/
theorem single_token_rounds_witness :
    ∃ st, after_reconcile eos_params eos_sample_tgt eos_sample_dft [1] 0 = some st ∧
      eos_params.n_parallel = 1 ∧ eos_params.n_draft = 1 ∧
      (draft_loop eos_params (eos_sample_dft 0) eos_params.n_draft 0
        (round_start eos_params st)).n_seq_cur = 1 := by
  have hs : (after_reconcile eos_params eos_sample_tgt eos_sample_dft [1] 0).isSome =
      true := by decide!
  obtain ⟨st, hst⟩ := Option.isSome_iff_exists.mp hs
  obtain ⟨_, _, hc, _⟩ :=
    (single_token_rounds eos_params eos_sample_tgt eos_sample_dft [1] 0 st rfl rfl hst).1
  exact ⟨st, hst, rfl, rfl, hc⟩

/-- Claim C14, counterexample. One branch, `n_draft = 1`, and a draft whose top
candidate has probability 0.3: after the draft loop of the first round the
history of the branch is the root 5 alone, no token has been drafted, and the
target batch holds the root only. -/
theorem round_drafts_no_token :
    eos_params.n_parallel = 1 ∧ eos_params.n_draft = 1 ∧
    (after_reconcile eos_params fork_sample_tgt low_sample_dft [1] 0).map
      (fun st =>
        ((draft_loop eos_params (low_sample_dft 0) eos_params.n_draft 0
          (round_start eos_params st)).drafts.map (fun d => d.tokens),
         (draft_loop eos_params (low_sample_dft 0) eos_params.n_draft 0
          (round_start eos_params st)).batch_tgt.map (fun b => b.token))) =
      some ([[5]], [5]) := by
  decide!

/-- Claim C15, evaluation at the failing input. Two branches, no grammar; the
target has accepted 5, the draft proposes 7 at depth 0 and splits branch 0 at
depth 1 into the candidates 8 and 9. At the end of the drafting phase branch 0
has the history 7, 8 and its sampler has accepted 5, 7, 8, while the sampler of
its child (history 7, 9) has accepted 5, 9: the 7 that the parent accepted
before the split is missing. -/
theorem fork_drops_sampler_history :
    (after_reconcile fork_params fork_sample_tgt fork_sample_dft [1] 0).map
      (fun st =>
        (draft_phase fork_params (fork_sample_dft 0) st).drafts.map
          (fun d => (d.tokens, d.ctx_sampling.prev))) =
      some [([7, 8], [5, 7, 8]), ([7, 9], [5, 9])] := by
  decide!

/-! ## Agreement between the draft and the target -/

theorem split_seq_zero (s : Nat) (st : spec_state) (h : 1 ≤ st.n_seq_cur) :
    (split_seq s st).drafts[0]? = st.drafts[0]? ∧
    (split_seq s st).batch_tgt.length = st.batch_tgt.length ∧
    1 ≤ (split_seq s st).n_seq_cur := by
  refine ⟨?_, by simp [split_seq], by simp only [split_seq]; omega⟩
  simp only [split_seq]
  rw [getElem?_modify_eq]
  have hne : ¬ st.n_seq_cur = 0 := by omega
  cases st.drafts[0]? with
  | none => rfl
  | some a => simp only [Option.map_some', if_neg hne]

theorem fork_loop_zero (params : gpt_params) (cur_p : List llama_token_data) (s : Nat) :
    ∀ (todo f : Nat) (st : spec_state) (sa : List Nat), 1 ≤ st.n_seq_cur →
      (fork_loop params cur_p s todo f st sa).1.drafts[0]? = st.drafts[0]? ∧
      (fork_loop params cur_p s todo f st sa).1.batch_tgt.length = st.batch_tgt.length ∧
      1 ≤ (fork_loop params cur_p s todo f st sa).1.n_seq_cur ∧
      ∃ rest, (fork_loop params cur_p s todo f st sa).2 = sa ++ rest ∧ ∀ x ∈ rest, 1 ≤ x := by
  intro todo
  induction todo with
  | zero =>
    intro f st sa h
    exact ⟨rfl, rfl, h, [], by simp [fork_loop], by simp⟩
  | succ todo ih =>
    intro f st sa h
    simp only [fork_loop]
    by_cases hc : st.n_seq_cur < params.n_parallel ∧ (cur_p.getD f ⟨0, 0⟩).p > 0.3
    · rw [if_pos hc]
      obtain ⟨z1, z2, z3⟩ := split_seq_zero s st h
      obtain ⟨a1, a2, a3, rest, a4, a5⟩ := ih (f + 1) (split_seq s st) (sa ++ [st.n_seq_cur]) z3
      refine ⟨by rw [a1, z1], by rw [a2, z2], a3, [st.n_seq_cur] ++ rest,
        by rw [a4, List.append_assoc], ?_⟩
      intro x hx
      simp only [List.singleton_append, List.mem_cons] at hx
      rcases hx with e | e
      · omega
      · exact a5 x e
    · rw [if_neg hc]
      exact ⟨rfl, rfl, h, [], by simp, by simp⟩

theorem add_drafted_zero (params : gpt_params) (cur_p : List llama_token_data) (i : Nat) :
    ∀ (sa : List Nat) (is : Nat) (st : spec_state), (∀ x ∈ sa, 1 ≤ x) →
      (add_drafted params cur_p i is sa st).drafts[0]? = st.drafts[0]? ∧
      st.batch_tgt.length ≤ (add_drafted params cur_p i is sa st).batch_tgt.length := by
  intro sa
  induction sa with
  | nil => intro is st _; exact ⟨rfl, Nat.le_refl _⟩
  | cons x rest ih =>
    intro is st h
    have hx : ¬ x = 0 := by
      have := h x (List.mem_cons_self _ _)
      omega
    have hrest : ∀ y ∈ rest, 1 ≤ y := fun y hy => h y (List.mem_cons_of_mem _ hy)
    simp only [add_drafted]
    split
    · obtain ⟨a1, a2⟩ := ih (is + 1) _ hrest
      refine ⟨?_, ?_⟩
      · rw [a1]
        simp only [getElem?_modify_eq]
        cases st.drafts[0]? with
        | none => rfl
        | some a => simp only [Option.map_some', if_neg hx]
      · refine Nat.le_trans ?_ a2
        simp
    · obtain ⟨a1, a2⟩ := ih (is + 1) _ hrest
      refine ⟨?_, ?_⟩
      · rw [a1]
        simp only [getElem?_modify_eq]
        cases st.drafts[0]? with
        | none => rfl
        | some a => simp only [Option.map_some', if_neg hx]
      · refine Nat.le_trans ?_ a2
        simp

theorem add_drafted_head_zero (params : gpt_params) (cur_p : List llama_token_data)
    (i is : Nat) (rest : List Nat) (st : spec_state) (d : seq_draft)
    (hrest : ∀ x ∈ rest, 1 ≤ x) (hd : st.drafts[0]? = some d) :
    ∃ d2, (add_drafted params cur_p i is (0 :: rest) st).drafts[0]? = some d2 ∧
      d2.tokens = d.tokens ++ [(cur_p.getD is ⟨0, 0⟩).id] ∧ d2.active = d.active ∧
      (d2.drafting = d.drafting ∨
        params.n_draft ≤ (add_drafted params cur_p i is (0 :: rest) st).batch_tgt.length) := by
  simp only [add_drafted]
  split
  · rename_i heq
    obtain ⟨a1, a2⟩ := add_drafted_zero params cur_p i rest (is + 1)
      { st with
        drafts := List.modify (fun d => { d with drafting := false }) 0
          (List.modify (fun d =>
            { d with
              tokens := d.tokens ++ [(cur_p.getD is ⟨0, 0⟩).id],
              ctx_sampling := llama_sampling_accept d.ctx_sampling (cur_p.getD is ⟨0, 0⟩).id,
              i_batch_tgt := d.i_batch_tgt ++ [st.batch_tgt.length] }) 0 st.drafts),
        batch_tgt := st.batch_tgt ++
          [{ token := (cur_p.getD is ⟨0, 0⟩).id, pos := st.n_past_tgt + i + 1, seq_id := [0],
             logits := true }] } hrest
    refine ⟨{ d with
        drafting := false,
        tokens := d.tokens ++ [(cur_p.getD is ⟨0, 0⟩).id],
        ctx_sampling := llama_sampling_accept d.ctx_sampling (cur_p.getD is ⟨0, 0⟩).id,
        i_batch_tgt := d.i_batch_tgt ++ [st.batch_tgt.length] }, ?_, rfl, rfl, Or.inr ?_⟩
    · rw [a1]
      simp only [getElem?_modify_eq, hd, Option.map_some', if_true]
    · refine Nat.le_trans ?_ a2
      rw [← heq]
  · obtain ⟨a1, _⟩ := add_drafted_zero params cur_p i rest (is + 1)
      { st with
        drafts := List.modify (fun d => { d with i_batch_dft := st.batch_dft.length }) 0
          (List.modify (fun d =>
            { d with
              tokens := d.tokens ++ [(cur_p.getD is ⟨0, 0⟩).id],
              ctx_sampling := llama_sampling_accept d.ctx_sampling (cur_p.getD is ⟨0, 0⟩).id,
              i_batch_tgt := d.i_batch_tgt ++ [st.batch_tgt.length] }) 0 st.drafts),
        batch_tgt := st.batch_tgt ++
          [{ token := (cur_p.getD is ⟨0, 0⟩).id, pos := st.n_past_tgt + i + 1, seq_id := [0],
             logits := true }],
        batch_dft := st.batch_dft ++
          [{ token := (cur_p.getD is ⟨0, 0⟩).id, pos := st.n_past_cur, seq_id := [0],
             logits := true }] } hrest
    refine ⟨{ d with
        i_batch_dft := st.batch_dft.length,
        tokens := d.tokens ++ [(cur_p.getD is ⟨0, 0⟩).id],
        ctx_sampling := llama_sampling_accept d.ctx_sampling (cur_p.getD is ⟨0, 0⟩).id,
        i_batch_tgt := d.i_batch_tgt ++ [st.batch_tgt.length] }, ?_, rfl, rfl, Or.inl rfl⟩
    rw [a1]
    simp only [getElem?_modify_eq, hd, Option.map_some', if_true]

theorem draft_seq_zero (params : gpt_params) (cur_p : List llama_token_data) (i s : Nat)
    (st : spec_state) (hs : 1 ≤ s) (h : 1 ≤ st.n_seq_cur) :
    (draft_seq params cur_p i s st).drafts[0]? = st.drafts[0]? ∧
    st.batch_tgt.length ≤ (draft_seq params cur_p i s st).batch_tgt.length ∧
    1 ≤ (draft_seq params cur_p i s st).n_seq_cur := by
  have hne : ¬ s = 0 := by omega
  unfold draft_seq
  cases hd : st.drafts[s]? with
  | none => exact ⟨rfl, Nat.le_refl _, h⟩
  | some d =>
    simp only []
    by_cases hc : d.drafting = false ∨ d.skip = true
    · rw [if_pos hc]
      exact ⟨rfl, Nat.le_refl _, h⟩
    · rw [if_neg hc]
      split
      · refine ⟨?_, Nat.le_refl _, h⟩
        simp only [getElem?_modify_eq]
        cases st.drafts[0]? with
        | none => rfl
        | some a => simp only [Option.map_some', if_neg hne]
      · obtain ⟨f1, f2, f3, rest, f4, f5⟩ := fork_loop_zero params cur_p s 7 1 st [s] h
        have hall : ∀ x ∈ (fork_loop params cur_p s 7 1 st [s]).2, 1 ≤ x := by
          intro x hx
          rw [f4] at hx
          simp only [List.singleton_append, List.mem_cons] at hx
          rcases hx with e | e
          · omega
          · exact f5 x e
        obtain ⟨a1, a2⟩ := add_drafted_zero params cur_p i _ 0 _ hall
        refine ⟨by rw [a1, f1], by rw [← f2]; exact a2, ?_⟩
        rw [add_drafted_n_seq_cur]
        exact f3

theorem draft_seqs_zero (params : gpt_params) (cands : Nat → List llama_token_data) (i : Nat) :
    ∀ (todo s : Nat) (st : spec_state), 1 ≤ s → 1 ≤ st.n_seq_cur →
      (draft_seqs params cands i todo s st).drafts[0]? = st.drafts[0]? ∧
      st.batch_tgt.length ≤ (draft_seqs params cands i todo s st).batch_tgt.length ∧
      1 ≤ (draft_seqs params cands i todo s st).n_seq_cur := by
  intro todo
  induction todo with
  | zero => intro s st _ h; exact ⟨rfl, Nat.le_refl _, h⟩
  | succ todo ih =>
    intro s st hs h
    simp only [draft_seqs]
    obtain ⟨z1, z2, z3⟩ := draft_seq_zero params (cands s) i s st hs h
    obtain ⟨a1, a2, a3⟩ := ih (s + 1) _ (by omega) z3
    exact ⟨by rw [a1, z1], Nat.le_trans z2 a2, a3⟩

theorem draft_step_agree (params : gpt_params) (cands : Nat → List llama_token_data)
    (i : Nat) (x : spec_state) (d : seq_draft) (hN : 1 ≤ params.n_parallel)
    (hcur : 1 ≤ x.n_seq_cur) (hd : x.drafts[0]? = some d) (hdr : d.drafting = true)
    (hp : ¬ ((cands 0).getD 0 ⟨0, 0⟩).p < 0.4) :
    ∃ d2, (draft_step params cands i x).drafts[0]? = some d2 ∧
      d2.tokens = d.tokens ++ [((cands 0).getD 0 ⟨0, 0⟩).id] ∧ d2.active = d.active ∧
      (d2.drafting = true ∨ params.n_draft ≤ (draft_step params cands i x).batch_tgt.length) := by
  obtain ⟨n, hn⟩ : ∃ n, params.n_parallel = n + 1 := ⟨params.n_parallel - 1, by omega⟩
  obtain ⟨y, hydef⟩ : ∃ y : spec_state, y =
      { x with batch_dft := [], drafts := x.drafts.map (fun d => { d with skip := false }) } :=
    ⟨_, rfl⟩
  have hstep : draft_step params cands i x =
      draft_seqs params cands i n 1 (draft_seq params (cands 0) i 0 y) := by
    unfold draft_step
    rw [hn, hydef]
    rfl
  have hy : y.drafts[0]? = some { d with skip := false } := by
    rw [hydef]
    show (x.drafts.map (fun d => { d with skip := false }))[0]? = _
    rw [List.getElem?_map, hd]
    rfl
  have hycur : 1 ≤ y.n_seq_cur := by
    rw [hydef]
    exact hcur
  rw [hstep, draft_seq_continue params (cands 0) i 0 y _ hy hdr rfl hp]
  obtain ⟨f1, f2, f3, rest, f4, f5⟩ := fork_loop_zero params (cands 0) 0 7 1 y [0] hycur
  rw [f4]
  obtain ⟨d2, g1, g2, g3, g4⟩ := add_drafted_head_zero params (cands 0) i 0 rest
    (fork_loop params (cands 0) 0 7 1 y [0]).1 { d with skip := false } f5
    (by rw [f1]; exact hy)
  have hc2 : 1 ≤ (add_drafted params (cands 0) i 0 ([0] ++ rest)
      (fork_loop params (cands 0) 0 7 1 y [0]).1).n_seq_cur := by
    rw [add_drafted_n_seq_cur]
    exact f3
  obtain ⟨z1, z2, _⟩ := draft_seqs_zero params cands i n 1 _ (Nat.le_refl _) hc2
  refine ⟨d2, by rw [z1]; exact g1, g2, g3, ?_⟩
  rcases g4 with e | e
  · left
    rw [e]
    exact hdr
  · right
    exact Nat.le_trans e z2

theorem draft_loop_agree (params : gpt_params) (cands : Nat → Nat → List llama_token_data)
    (e : Nat → llama_token) {N P : Nat} {root : llama_token} (hN : params.n_parallel = N)
    (h1 : 1 ≤ N)
    (hagree : ∀ i, ((cands i 0).getD 0 ⟨0, 0⟩).id = e i ∧ ¬ ((cands i 0).getD 0 ⟨0, 0⟩).p < 0.4) :
    ∀ (todo i : Nat) (x : spec_state) (d : seq_draft), round_inv N P root i true x →
      round_cur P (i + 1) x → x.n_past_cur = P + 1 + i → x.drafts[0]? = some d →
      d.active = true → d.drafting = true → d.tokens = root :: (List.range i).map e →
      ∃ (d2 : seq_draft) (D : Nat),
        (draft_loop params cands todo i x).drafts[0]? = some d2 ∧ d2.active = true ∧
        d2.tokens = root :: (List.range D).map e ∧ i ≤ D ∧ (0 < todo → i < D) ∧
        ∀ (s : Nat) (a : seq_draft), (draft_loop params cands todo i x).drafts[s]? = some a →
          a.tokens.length ≤ D + 1 := by
  intro todo
  induction todo with
  | zero =>
    intro i x d _ c _ hd hact _ htok
    simp only [draft_loop]
    exact ⟨d, i, hd, hact, htok, Nat.le_refl _, fun hc => absurd hc (Nat.lt_irrefl _), c.tok_le⟩
  | succ todo ih =>
    intro i x d h c hp hd hact hdr htok
    have hr1 := (draft_inv_round (draft_step_inv params (cands i) hN h)).1
    have c0 := draft_step_cur params (cands i) hN h c hp
    have c1 := cursor_inv_round c0
    obtain ⟨d1, g1, g2, g3, g4⟩ := draft_step_agree params (cands i) i x d (by omega) h.cur_pos
      hd hdr (hagree i).2
    have htok1 : d1.tokens = root :: (List.range (i + 1)).map e := by
      rw [g2, htok, (hagree i).1, List.range_succ, List.map_append]
      rfl
    have hact1 : d1.active = true := by rw [g3]; exact hact
    simp only [draft_loop]
    by_cases e1 : (draft_step params (cands i) i x).batch_dft.length = 0
    · rw [if_pos e1]
      exact ⟨d1, i + 1, g1, hact1, htok1, by omega, fun _ => by omega, c0.tok_le⟩
    · rw [if_neg e1]
      by_cases e2 : (draft_step params (cands i) i x).batch_tgt.length ≥ params.n_draft
      · rw [if_pos e2]
        exact ⟨d1, i + 1, g1, hact1, htok1, by omega, fun _ => by omega, c0.tok_le⟩
      · rw [if_neg e2]
        have hdr1 : d1.drafting = true := by
          rcases g4 with e3 | e3
          · exact e3
          · exact absurd e3 e2
        obtain ⟨d2, D, k1, k2, k3, k4, _, k6⟩ := ih (i + 1) _ d1 (round_inv_decode hr1)
          (round_cur_decode c1) (by simp only []; have := c0.past_cur; omega) g1 hact1 hdr1 htok1
        exact ⟨d2, D, k1, k2, k3, by omega, fun _ => by omega, k6⟩

theorem round_start_zero (params : gpt_params) {N : Nat} {inp : List llama_token}
    {st : spec_state} (hN : 1 ≤ N) (h : run_inv N inp st) :
    ∃ d, (round_start params st).drafts[0]? = some d ∧ d.active = true ∧ d.drafting = true ∧
      d.tokens = [st.id] := by
  obtain ⟨d0, hd0, ht0⟩ := h.pool0
  have hlen : (sync_samplers st.ctx_sampling params.n_parallel 0 st.drafts).length = N := by
    rw [sync_samplers_length, h.len]
  obtain ⟨e0, he0⟩ := getElem?_some_of_lt
    (l := sync_samplers st.ctx_sampling params.n_parallel 0 st.drafts) (m := 0) (by omega)
  have hroot : e0.tokens = [st.id] := by
    obtain ⟨a, ha, h1⟩ := sync_samplers_getElem? _ _ _ _ _ _ he0
    rw [hd0] at ha
    simp only [Option.some.injEq] at ha
    subst ha
    rw [h1.2.2.2.1, ht0]
  refine ⟨{ e0 with active := true, drafting := true, i_batch_dft := 0 }, ?_, rfl, rfl, hroot⟩
  simp only [round_start, round_init]
  rw [getElem?_modify_eq, List.getElem?_map, he0]
  rfl

/-- Claim C9, amended. In a run with `n_seq_dft >= 1` and `n_draft >= 1`: if in
a round the top draft candidate of branch 0 at every depth is the token the
target samples at that depth in the following verification, and its
probability is not below the continuation threshold (as is the case when this
holds for every drafting branch), then branch 0 drafts at least one token,
every token it drafted is the target's token of that depth, the verification
accepts exactly the tokens drafted on branch 0 (`i_dft` on exit, and the growth
of `n_accept`, equal their number), and at no depth below that number does a
verification step deactivate branch 0: it leaves branch 0 as it is and reports
a match. Other branches may be deactivated at those depths, and the final
step, which finds no drafted token left, deactivates every branch. -/
theorem agreement_accepts_all_drafted (params : gpt_params)
    (sample_tgt : Nat → Nat → llama_token)
    (sample_dft : Nat → Nat → Nat → List llama_token_data) (inp : List llama_token)
    (r : Nat) (st : spec_state) (h1 : 1 ≤ params.n_parallel) (hd : 1 ≤ params.n_draft)
    (h : after_reconcile params sample_tgt sample_dft inp r = some st)
    (hagree : ∀ i, ((sample_dft r i 0).getD 0 ⟨0, 0⟩).id = sample_tgt (r + 1) i ∧
      ¬ ((sample_dft r i 0).getD 0 ⟨0, 0⟩).p < 0.4) :
    ∃ (d : seq_draft) (v : spec_state),
      (draft_phase params (sample_dft r) st).drafts.length = params.n_parallel ∧
      (draft_phase params (sample_dft r) st).drafts[0]? = some d ∧ d.active = true ∧
      1 ≤ d.tokens.length ∧
      (∀ j, j < d.tokens.length → d.tokens[j]? = some (sample_tgt (r + 1) j)) ∧
      verify params (sample_tgt (r + 1)) (draft_phase params (sample_dft r) st) = some v ∧
      v.i_dft = d.tokens.length ∧ v.n_accept = st.n_accept + d.tokens.length ∧
      ∀ (j : Nat) (y : spec_state), j < d.tokens.length → y.drafts[0]? = some d →
        y.i_dft = j →
        (verify_step params (sample_tgt (r + 1) j) y).1.drafts[0]? = some d ∧
        (verify_step params (sample_tgt (r + 1) j) y).2 = true := by
  have hrun := run_inv_reachable params sample_tgt sample_dft inp h1 r st h
  have hcur := run_cur_reachable params sample_tgt sample_dft inp r st h
  have hstart := (round_init_inv params h1 hrun).1
  obtain ⟨cstart, pstart⟩ := round_start_cur params h1 rfl hrun hcur
  obtain ⟨d0, q0, a0, dr0, t0⟩ := round_start_zero params h1 hrun
  obtain ⟨d2, D, g1, g2, g3, _, g5, g6⟩ :=
    draft_loop_agree params (sample_dft r) (sample_tgt (r + 1)) rfl h1 hagree params.n_draft 0
      (round_start params st) d0 hstart cstart pstart q0 a0 dr0 (by rw [t0]; rfl)
  have hD : 1 ≤ D := by
    have := g5 (by omega)
    omega
  have hlenN : (draft_phase params (sample_dft r) st).drafts.length = params.n_parallel := by
    rw [draft_phase_drafts, List.length_map]
    exact (draft_loop_reachable params (sample_dft r) h1 hrun params.n_draft).1.len
  have hzero : (draft_phase params (sample_dft r) st).drafts[0]? =
      some { d2 with tokens := d2.tokens.tail } := by
    rw [draft_phase_drafts, List.getElem?_map, g1]
    simp [g2]
  have htok : ({ d2 with tokens := d2.tokens.tail } : seq_draft).tokens =
      (List.range D).map (sample_tgt (r + 1)) := by
    simp [g3]
  have hget : ∀ j, j < D →
      ({ d2 with tokens := d2.tokens.tail } : seq_draft).tokens[j]? =
        some (sample_tgt (r + 1) j) := by
    intro j hj
    rw [htok]
    exact getElem?_map_range _ _ _ hj
  have hlen : ({ d2 with tokens := d2.tokens.tail } : seq_draft).tokens.length = D := by
    rw [htok]
    simp
  have hmem : ({ d2 with tokens := d2.tokens.tail } : seq_draft) ∈
      (draft_phase params (sample_dft r) st).drafts := List.getElem?_mem hzero
  have hle : ∀ a ∈ (draft_phase params (sample_dft r) st).drafts, a.active = true →
      a.tokens.length ≤ D := by
    intro a ha hact
    rw [draft_phase_drafts] at ha
    obtain ⟨b, hb, rfl⟩ := List.mem_map.mp ha
    obtain ⟨s, hs⟩ := List.getElem?_of_mem hb
    have hbl := g6 s b hs
    by_cases hba : b.active = true
    · rw [if_pos hba]
      simp only [List.length_tail]
      omega
    · rw [if_neg hba] at hact
      exact absurd hact hba
  obtain ⟨v, hv⟩ := verify_total params (sample_tgt (r + 1))
    (draft_phase params (sample_dft r) st)
  have hc := verify_counts params _ _ _ hv
  have hdc := draft_phase_counts params (sample_dft r) st
  have hv0 := hv
  unfold verify at hv
  obtain ⟨_, hk2, hk3⟩ := verify_loop_kept params (sample_tgt (r + 1)) _ _ _ hv
  dsimp only at hk2 hk3
  simp only [Nat.zero_le, true_implies] at hk2 hk3
  have hk : v.i_dft = D := by
    by_contra hne
    rcases Nat.lt_or_gt_of_ne hne with hlt | hgt
    · have := hk3 _ hmem g2 (fun j hj => hget j (by omega))
      exact this (hget v.i_dft hlt)
    · obtain ⟨dk, hdk, hact, hall⟩ := hk2 (by omega)
      have hkl := hle dk (List.getElem?_mem hdk) hact
      have h2 := tokens_lt_of_getElem? (hall D (by omega))
      omega
  refine ⟨_, v, hlenN, hzero, g2, by rw [hlen]; exact hD, ?_, hv0, by rw [hlen]; exact hk, ?_, ?_⟩
  · intro j hj
    rw [hlen] at hj
    exact hget j hj
  · rw [hc.2.2.2.2.1, hdc.2.1, hlen, hk]
  · intro j y hj hy hi
    rw [hlen] at hj
    have hm := hget j hj
    constructor
    · rw [verify_step_drafts, match_scan_drafts, List.getElem?_map, hy, hi]
      simp only [Option.map_some', Option.some.injEq]
      rw [if_neg (fun c => c.2 hm)]
    · rw [verify_step_snd, hi]
      rcases match_scan_keep (sample_tgt (r + 1) j) j y.drafts 0 y.i_keep false with
        ⟨_, _, h3⟩ | ⟨h3, _⟩
      · exact absurd hm (h3 _ (List.getElem?_mem hy) g2)
      · exact h3

/-- Witness for `agreement_accepts_all_drafted`: two branches; the draft
proposes 7 first, the target samples 7, and branch 0 is split at depth 0. -/
theorem agreement_accepts_all_drafted_witness :
    ∃ (st : spec_state) (d : seq_draft) (v : spec_state),
      after_reconcile fork_params same_sample_tgt forking_sample_dft [1] 0 = some st ∧
      1 ≤ fork_params.n_parallel ∧ 1 ≤ fork_params.n_draft ∧
      (draft_phase fork_params (forking_sample_dft 0) st).drafts[0]? = some d ∧
      verify fork_params (same_sample_tgt 1)
        (draft_phase fork_params (forking_sample_dft 0) st) = some v ∧
      v.i_dft = d.tokens.length := by
  have hs : (after_reconcile fork_params same_sample_tgt forking_sample_dft [1] 0).isSome
      = true := by decide!
  obtain ⟨st, hst⟩ := Option.isSome_iff_exists.mp hs
  obtain ⟨d, v, _, h2, _, _, _, h6, h7, _⟩ :=
    agreement_accepts_all_drafted fork_params same_sample_tgt forking_sample_dft [1] 0 st
      (by decide) (by decide) hst
      (fun i => ⟨by simp [forking_sample_dft, same_sample_tgt],
        by simp [forking_sample_dft]; norm_num⟩)
  exact ⟨st, d, v, hst, by decide, by decide, h2, h6, h7⟩

/-- Claim C9, counterexample. Two branches, `n_draft = 4`; every drafting
branch proposes 7 first (probability 0.5) and 8 second (probability 0.4) at
every depth, and the target samples 7 at every depth. Branch 0 is split at
depth 0 and the two branches share the draft budget: after the first drafting
phase their histories are 7, 7 and 8, 7. The first verification step
deactivates branch 1, which holds the second-ranked 8; the verification
accepts 2 tokens, not `n_draft = 4`, and its last step leaves no branch
active. -/
theorem agreement_fork_accepts_fewer :
    (∀ r i s, ((forking_sample_dft r i s).getD 0 ⟨0, 0⟩).id = same_sample_tgt (r + 1) i ∧
      ¬ ((forking_sample_dft r i s).getD 0 ⟨0, 0⟩).p < 0.4) ∧
    fork_params.n_draft = 4 ∧
    (after_reconcile fork_params same_sample_tgt forking_sample_dft [1] 0).map
      (fun st =>
        ((draft_phase fork_params (forking_sample_dft 0) st).drafts.map
          (fun d => (d.active, d.tokens)),
         (verify_step fork_params (same_sample_tgt 1 0)
          { draft_phase fork_params (forking_sample_dft 0) st with i_dft := 0, i_keep := 0 }).1.drafts.map
          (fun d => d.active),
         (verify fork_params (same_sample_tgt 1)
          (draft_phase fork_params (forking_sample_dft 0) st)).map
          (fun v => (v.i_dft, v.drafts.map (fun d => d.active))))) =
      some ([(true, [7, 7]), (true, [8, 7])], [true, false], some (2, [false, false])) ∧
    (after_reconcile fork_params same_sample_tgt forking_sample_dft [1] 1).map
      (fun st => st.n_accept) = some 2 := by
  refine ⟨fun r i s => ⟨by simp [forking_sample_dft, same_sample_tgt],
    by simp [forking_sample_dft]; norm_num⟩, rfl, by decide!, by decide!⟩

end Speculative
